import Mathlib

/-!
# Debiased squared weighted phase lag index: a shallow embedding

Embedding of `DebiasedSquaredWeightedPhaseLagIndex::calculate`, `::compute` and
`::computeDSWPLV` (libraries/connectivity/metrics/debiasedsquaredweightedphaselagindex.cpp).

Conventions of the embedding

* A finite `double` is an element of an ordered field `K`.  Up to the accumulated
  cross-spectral density (`calculate`, `compute`) the arithmetic is exact: no rounding and no
  overflow, and a division by zero, which has no finite value, is left to the field
  (`Cplx.divRealIeee` is the IEEE quotient; the two agree for every divisor other than zero).
* The finalizer `computeDSWPLV` works on `Dbl K`, a double that may be infinite or NaN: the
  result of an operation is its exact value while that is inside the binary64 range and an
  infinity beyond it (`Dbl.ofExact`), and the special values combine as in IEEE 754
  (`inf - inf` and `0 / 0` are NaN, NaN is not equal to zero).  Rounding inside the range is
  not modelled, and every operation is carried out on its own (a product is not fused with
  the subtraction that follows it).
* `std::complex<double>` is `Cplx K`.
* An Eigen matrix is its dimensions together with its coefficient function; a `QVector` or
  `QList` is a `List`.
* A container access whose index does not come from the container's own size
  (`QVector::at`, `Eigen row(i)`, `Network::getNodeAt`) is fallible: out of range gives `none`.
  Size agreement of coefficient-wise operations is not tracked: the result has the shape of
  the left operand.
* A matrix that is declared with its dimensions only holds zeros until it is assigned.
* `std::sqrt`, `Eigen::FFT::fwd` and `Spectral::generateTapers` are parameters (`Externals`).
* `QtConcurrent::map` is run as the sequential pass over the trial list; the critical section
  of `compute` is `mergeCsd`.
-/

namespace Connectivity

/-! ## Scalars -/

/-- Complex number with exact real and imaginary parts (`std::complex<double>`). -/
structure Cplx (K : Type) where
  re : K
  im : K

/-- A `double` that may be one of the IEEE special values. -/
inductive Dbl (K : Type) where
  | fin (x : K)
  | pinf
  | ninf
  | nan

/-! ## Eigen containers -/

/-- Dense Eigen matrix: dimensions and coefficient function. -/
structure MatrixX (α : Type) where
  rows : Nat
  cols : Nat
  coeff : Nat → Nat → α

/-- Dense Eigen (row or column) vector: size and coefficient function. -/
structure VectorX (α : Type) where
  size : Nat
  coeff : Nat → α

/-- Sum of `f 0, ..., f (n-1)` (Eigen `sum()` reductions). -/
def sumTo {α : Type} [Zero α] [Add α] : Nat → (Nat → α) → α
  | 0, _ => 0
  | n + 1, f => sumTo n f + f n

section Scalars

variable {K : Type} [LinearOrderedField K]

namespace Cplx

/-- Complex addition. -/
def add (a b : Cplx K) : Cplx K := ⟨a.re + b.re, a.im + b.im⟩

/-- Complex multiplication. -/
def mul (a b : Cplx K) : Cplx K := ⟨a.re * b.re - a.im * b.im, a.re * b.im + a.im * b.re⟩

/-- Complex conjugate. -/
def conj (a : Cplx K) : Cplx K := ⟨a.re, -a.im⟩

/-- Complex times real scalar. -/
def scale (a : Cplx K) (s : K) : Cplx K := ⟨a.re * s, a.im * s⟩

/-- Complex divided by real scalar, in exact arithmetic; it stands for the quotient that the
code computes when `s` is not zero (`divRealIeee` is the quotient for every `s`). -/
def divReal (a : Cplx K) (s : K) : Cplx K := ⟨a.re / s, a.im / s⟩

instance : Zero (Cplx K) := ⟨⟨0, 0⟩⟩

instance : Add (Cplx K) := ⟨Cplx.add⟩

instance : Mul (Cplx K) := ⟨Cplx.mul⟩

instance : Inhabited (Cplx K) := ⟨0⟩

instance : AddCommMonoid (Cplx K) where
  add_assoc a b c := by
    show Cplx.add (Cplx.add a b) c = Cplx.add a (Cplx.add b c)
    simp [Cplx.add, add_assoc]
  zero_add a := by
    show Cplx.add ⟨0, 0⟩ a = a
    simp [Cplx.add]
  add_zero a := by
    show Cplx.add a ⟨0, 0⟩ = a
    simp [Cplx.add]
  add_comm a b := by
    show Cplx.add a b = Cplx.add b a
    simp [Cplx.add, add_comm]
  nsmul := nsmulRec

end Cplx

namespace Dbl

/-- The double zero. -/
instance : Zero (Dbl K) := ⟨fin 0⟩

/-- Magnitude from which on a result is rounded to infinity in binary64: the largest finite
double `2^1024 - 2^971` plus half a unit in its last place. -/
def overflowBound : K := 2 ^ 1024 - 2 ^ 970

/-- The double that an operation delivers when its exact result is `x`: an infinity when
`x` is beyond the binary64 range, `x` itself otherwise. -/
def ofExact (x : K) : Dbl K :=
  if overflowBound ≤ x then pinf else if x ≤ -overflowBound then ninf else fin x

/-- IEEE-754 multiplication. -/
def mul : Dbl K → Dbl K → Dbl K
  | nan, _ => nan
  | _, nan => nan
  | fin a, fin b => ofExact (a * b)
  | fin a, pinf => if a = 0 then nan else if 0 < a then pinf else ninf
  | fin a, ninf => if a = 0 then nan else if 0 < a then ninf else pinf
  | pinf, fin b => if b = 0 then nan else if 0 < b then pinf else ninf
  | ninf, fin b => if b = 0 then nan else if 0 < b then ninf else pinf
  | pinf, pinf => pinf
  | pinf, ninf => ninf
  | ninf, pinf => ninf
  | ninf, ninf => pinf

/-- IEEE-754 subtraction. -/
def sub : Dbl K → Dbl K → Dbl K
  | nan, _ => nan
  | _, nan => nan
  | fin a, fin b => ofExact (a - b)
  | fin _, pinf => ninf
  | fin _, ninf => pinf
  | pinf, fin _ => pinf
  | ninf, fin _ => ninf
  | pinf, pinf => nan
  | pinf, ninf => pinf
  | ninf, pinf => ninf
  | ninf, ninf => nan

/-- IEEE-754 absolute value. -/
def abs : Dbl K → Dbl K
  | fin a => fin |a|
  | pinf => pinf
  | ninf => pinf
  | nan => nan

/-- IEEE-754 division (the sign of a zero is not tracked). -/
def div : Dbl K → Dbl K → Dbl K
  | nan, _ => nan
  | _, nan => nan
  | fin a, fin b =>
    if b = 0 then (if a = 0 then nan else if 0 < a then pinf else ninf) else ofExact (a / b)
  | fin _, pinf => fin 0
  | fin _, ninf => fin 0
  | pinf, fin b => if 0 ≤ b then pinf else ninf
  | ninf, fin b => if 0 ≤ b then ninf else pinf
  | pinf, pinf => nan
  | pinf, ninf => nan
  | ninf, pinf => nan
  | ninf, ninf => nan

end Dbl

/-- The quotient of a complex number by a real scalar as IEEE 754 delivers it, a zero divisor
included: each part is divided by the scalar (line 245). -/
def Cplx.divRealIeee (a : Cplx K) (s : K) : Cplx (Dbl K) :=
  ⟨Dbl.div (Dbl.fin a.re) (Dbl.fin s), Dbl.div (Dbl.fin a.im) (Dbl.fin s)⟩

end Scalars

namespace VectorX

variable {K : Type} [LinearOrderedField K]

/-- Eigen `sum()`. -/
def sum (v : VectorX K) : K := sumTo v.size v.coeff

/-- Eigen `mean()`. -/
def mean (v : VectorX K) : K := v.sum / v.size

/-- Coefficient-wise `v.array() - s`. -/
def subScalar (v : VectorX K) (s : K) : VectorX K := ⟨v.size, fun c => v.coeff c - s⟩

/-- Eigen `cwiseProduct` (the result has the shape of the left operand). -/
def cwiseProduct (v w : VectorX K) : VectorX K := ⟨v.size, fun c => v.coeff c * w.coeff c⟩

/-- Eigen `cwiseAbs2`. -/
def cwiseAbs2 (v : VectorX K) : VectorX K := ⟨v.size, fun c => v.coeff c * v.coeff c⟩

/-- Complex vector times a real scalar. -/
def scale (v : VectorX (Cplx K)) (s : K) : VectorX (Cplx K) :=
  ⟨v.size, fun c => (v.coeff c).scale s⟩

/-- Complex vector divided by a real scalar. -/
def divReal (v : VectorX (Cplx K)) (s : K) : VectorX (Cplx K) :=
  ⟨v.size, fun c => (v.coeff c).divReal s⟩

/-- `RowVectorXf::Zero(n)`. -/
def zero (n : Nat) : VectorX K := ⟨n, fun _ => 0⟩

/-- Assignment `v(i) = x`. -/
def setCoeff {α : Type} (v : VectorX α) (i : Nat) (x : α) : VectorX α :=
  ⟨v.size, fun c => if c = i then x else v.coeff c⟩

/-- Eigen `transpose()` of a row vector: a matrix with one column. -/
def transpose {α : Type} (v : VectorX α) : MatrixX α := ⟨v.size, 1, fun r _ => v.coeff r⟩

end VectorX

namespace MatrixX

variable {K : Type} [LinearOrderedField K]

/-- A matrix declared with its dimensions only (`MatrixXcd m(r, c)`); its coefficients are
taken to be zero until they are assigned. -/
def uninit {α : Type} [Zero α] (r c : Nat) : MatrixX α := ⟨r, c, fun _ _ => 0⟩

/-- Eigen `row(i)` with `i` known to be in range. -/
def row {α : Type} (m : MatrixX α) (i : Nat) : VectorX α := ⟨m.cols, fun c => m.coeff i c⟩

/-- Eigen `row(i)`; out of range is an access fault. -/
def rowAt {α : Type} (m : MatrixX α) (i : Nat) : Option (VectorX α) :=
  if i < m.rows then some (m.row i) else none

/-- Assignment `m.row(j) = v`. -/
def setRow {α : Type} (m : MatrixX α) (j : Nat) (v : VectorX α) : MatrixX α :=
  ⟨m.rows, m.cols, fun r c => if r = j then v.coeff c else m.coeff r c⟩

/-- In-place `m.row(j)(c) /= s` on a complex matrix. -/
def divCoeff (m : MatrixX (Cplx K)) (j c : Nat) (s : K) : MatrixX (Cplx K) :=
  ⟨m.rows, m.cols, fun r d => if r = j ∧ d = c then (m.coeff r d).divReal s else m.coeff r d⟩

/-- Eigen `conjugate()`. -/
def conjugate (m : MatrixX (Cplx K)) : MatrixX (Cplx K) :=
  ⟨m.rows, m.cols, fun r c => (m.coeff r c).conj⟩

/-- Eigen `cwiseProduct` on complex matrices (shape of the left operand). -/
def cwiseProduct (a b : MatrixX (Cplx K)) : MatrixX (Cplx K) :=
  ⟨a.rows, a.cols, fun r c => a.coeff r c * b.coeff r c⟩

/-- Eigen `colwise().sum()`: one entry per column, summed over the rows. -/
def colwiseSum (m : MatrixX (Cplx K)) : VectorX (Cplx K) :=
  ⟨m.cols, fun c => sumTo m.rows (fun k => m.coeff k c)⟩

/-- In-place `a += b` (shape of the left operand). -/
def add (a b : MatrixX (Cplx K)) : MatrixX (Cplx K) :=
  ⟨a.rows, a.cols, fun r c => a.coeff r c + b.coeff r c⟩

/-- Eigen `imag()`. -/
def imag (m : MatrixX (Cplx K)) : MatrixX K := ⟨m.rows, m.cols, fun r c => (m.coeff r c).im⟩

/-- A matrix of finite doubles, read as a matrix of doubles. -/
def toDbl (m : MatrixX K) : MatrixX (Dbl K) := ⟨m.rows, m.cols, fun r c => Dbl.fin (m.coeff r c)⟩

/-- Eigen `cwiseAbs()`. -/
def cwiseAbs (m : MatrixX (Dbl K)) : MatrixX (Dbl K) :=
  ⟨m.rows, m.cols, fun r c => Dbl.abs (m.coeff r c)⟩

/-- Eigen `array().square()`. -/
def square (m : MatrixX (Dbl K)) : MatrixX (Dbl K) :=
  ⟨m.rows, m.cols, fun r c => Dbl.mul (m.coeff r c) (m.coeff r c)⟩

/-- Coefficient-wise `a.array() - b.array()`. -/
def sub (a b : MatrixX (Dbl K)) : MatrixX (Dbl K) :=
  ⟨a.rows, a.cols, fun r c => Dbl.sub (a.coeff r c) (b.coeff r c)⟩

/-- The substitution `(m.array() == 0.).select(INFINITY, m)`: an entry that compares equal
to zero becomes positive infinity, every other entry (NaN included) is kept. -/
def selectInf (m : MatrixX (Dbl K)) : MatrixX (Dbl K) :=
  ⟨m.rows, m.cols, fun r c =>
    match m.coeff r c with
    | Dbl.fin x => if x = 0 then Dbl.pinf else Dbl.fin x
    | v => v⟩

/-- Eigen `cwiseQuotient`. -/
def cwiseQuotient (a b : MatrixX (Dbl K)) : MatrixX (Dbl K) :=
  ⟨a.rows, a.cols, fun r c => Dbl.div (a.coeff r c) (b.coeff r c)⟩

end MatrixX

/-! ## Network -/

/-- Modelled from the spec: `NetworkEdge` (network/networkedge.h), an edge between two node
indices that carries a per-frequency weight vector. -/
structure NetworkEdge (K : Type) where
  iStartNodeID : Nat
  iEndNodeID : Nat
  matWeight : MatrixX (Dbl K)

/-- Modelled from the spec: `NetworkNode` (network/networknode.h), a node identified by its
index, with a 3D position and the list of its incident edges. -/
structure NetworkNode (K : Type) where
  iId : Nat
  vecVert : VectorX K
  edges : List (NetworkEdge K)

/-- Modelled from the spec: `Network` (network/network.h), a named graph owning an ordered
sequence of nodes and an ordered sequence of edges. -/
structure Network (K : Type) where
  sConnectivityMethod : String
  nodes : List (NetworkNode K)
  edges : List (NetworkEdge K)

namespace Network

variable {K : Type}

/-- Modelled from the spec: `Network::append(NetworkNode::SPtr)` adds a node at the end. -/
def appendNode (net : Network K) (n : NetworkNode K) : Network K :=
  { net with nodes := net.nodes ++ [n] }

/-- Modelled from the spec: `Network::append(NetworkEdge::SPtr)` adds an edge at the end. -/
def appendEdge (net : Network K) (e : NetworkEdge K) : Network K :=
  { net with edges := net.edges ++ [e] }

/-- Modelled from the spec: `getNodeAt(i)->append(pEdge)` registers the edge on node `i`;
a node index out of range is an access fault. -/
def nodeAppend (net : Network K) (i : Nat) (e : NetworkEdge K) : Option (Network K) :=
  match net.nodes[i]? with
  | none => none
  | some n => some { net with nodes := net.nodes.set i { n with edges := n.edges ++ [e] } }

end Network

/-! ## Settings -/

/-- Per-trial data (`ConnectivityTrialData`): the trial matrix and its two caches. -/
structure ConnectivityTrialData (K : Type) where
  matData : MatrixX K
  vecTapSpectra : List (MatrixX (Cplx K))
  vecPairCsd : List (Nat × MatrixX (Cplx K))

/-- Shared intermediate sums (`ConnectivitySettings::data`). -/
structure IntermediateSumData (K : Type) where
  vecPairCsdSum : List (Nat × MatrixX (Cplx K))

/-- The fields of `ConnectivitySettings` that the metric reads and writes. -/
structure ConnectivitySettings (K : Type) where
  m_dataList : List (ConnectivityTrialData K)
  m_matNodePositions : MatrixX K
  m_sWindowType : String
  m_iNfft : Int
  data : IntermediateSumData K

/-- Routines the metric calls but does not define. -/
structure Externals (K : Type) where
  sqrt : K → K
  generateTapers : Nat → String → MatrixX K × VectorX K
  fwd : VectorX K → Int → VectorX (Cplx K)

section Metric

variable {K : Type} [LinearOrderedField K]

/-! ## calculate: preparation -/

/-- Position of node `i` (lines 121-127): zero unless the position matrix has a row `i`. -/
def nodeVert (matNodePositions : MatrixX K) (i : Nat) : VectorX K :=
  let rowVert : VectorX K := VectorX.zero 3
  if matNodePositions.rows ≠ 0 ∧ i < matNodePositions.rows then
    ((rowVert.setCoeff 0 (matNodePositions.coeff i 0)).setCoeff 1
      (matNodePositions.coeff i 1)).setCoeff 2 (matNodePositions.coeff i 2)
  else rowVert

/-- The node loop (lines 120-130). -/
def createNodes (matNodePositions : MatrixX K) (rows : Nat) (finalNetwork : Network K) :
    Network K :=
  (List.range rows).foldl
    (fun net i => net.appendNode ⟨i, nodeVert matNodePositions i, []⟩) finalNetwork

/-- Effective transform length (lines 133-137). -/
def effectiveNfft (m_iNfft : Int) (iSignalLength : Nat) : Int :=
  if m_iNfft < (iSignalLength : Int) then (iSignalLength : Int) else m_iNfft

/-- Number of frequency bins, `int(floor(iNfft / 2.0)) + 1` (line 144). -/
def numFreqs (iNfft : Int) : Int := Int.floor ((iNfft : ℚ) / 2) + 1

/-! ## compute -/

/-- Body of the taper loop (lines 222-225). -/
def taperStep (ext : Externals K) (iNfft : Int) (tapers : MatrixX K × VectorX K)
    (rowData : VectorX K) (matTapSpectrum : MatrixX (Cplx K)) (j : Nat) : MatrixX (Cplx K) :=
  let vecInputFFT := rowData.cwiseProduct (tapers.1.row j)
  let vecTmpFreq := ext.fwd vecInputFFT iNfft
  matTapSpectrum.setRow j (vecTmpFreq.scale (tapers.2.coeff j))

/-- Body of the channel loop of the spectra computation (lines 217-228); the state is
`matTapSpectrum` together with the cache being filled. -/
def spectraStep (ext : Externals K) (iNfft : Int) (tapers : MatrixX K × VectorX K)
    (matData : MatrixX K) (st : MatrixX (Cplx K) × List (MatrixX (Cplx K))) (i : Nat) :
    Option (MatrixX (Cplx K) × List (MatrixX (Cplx K))) :=
  match matData.rowAt i with
  | none => none
  | some r =>
    let rowData := r.subScalar r.mean
    let m := (List.range tapers.1.rows).foldl (taperStep ext iNfft tapers rowData) st.1
    some (m, st.2 ++ [m])

/-- The spectra computation of a trial without a matching cache (lines 203-229). -/
def computeTapSpectra (ext : Externals K) (iNRows iNFreqs : Nat) (iNfft : Int)
    (tapers : MatrixX K × VectorX K) (matData : MatrixX K) :
    Option (List (MatrixX (Cplx K))) :=
  ((List.range iNRows).foldlM (spectraStep ext iNfft tapers matData)
    (MatrixX.uninit tapers.1.rows iNFreqs, [])).map Prod.snd

/-- Normalisation of the cross-spectral density (line 238). -/
def denomCSD (sqrt : K → K) (weights : VectorX K) : K :=
  sqrt weights.cwiseAbs2.sum * sqrt weights.cwiseAbs2.sum / 2

/-- The row assigned at line 245, before the halving of the end bins. -/
def csdRow (dDenomCSD : K) (a b : MatrixX (Cplx K)) : VectorX (Cplx K) :=
  (a.cwiseProduct b.conjugate).colwiseSum.divReal dDenomCSD

/-- The row assigned at line 245 as IEEE 754 delivers it, a zero normalisation included. -/
def csdRowIeee (dDenomCSD : K) (a b : MatrixX (Cplx K)) : VectorX (Cplx (Dbl K)) :=
  ⟨(a.cwiseProduct b.conjugate).colwiseSum.size,
    fun c => ((a.cwiseProduct b.conjugate).colwiseSum.coeff c).divRealIeee dDenomCSD⟩

/-- Body of the inner pair loop (lines 245-251). -/
def csdInnerStep (vecTapSpectra : List (MatrixX (Cplx K))) (bNfftEven : Bool) (dDenomCSD : K)
    (i : Nat) (matCsd : MatrixX (Cplx K)) (j : Nat) : Option (MatrixX (Cplx K)) :=
  match vecTapSpectra[i]?, vecTapSpectra[j]? with
  | some a, some b =>
    let m1 := matCsd.setRow j (csdRow dDenomCSD a b)
    let m2 := m1.divCoeff j 0 2
    some (if bNfftEven then m2.divCoeff j (m2.cols - 1) 2 else m2)
  | _, _ => none

/-- Body of the outer pair loop (lines 243-254); the state is `matCsd` together with the
pair cache being filled. -/
def csdOuterStep (vecTapSpectra : List (MatrixX (Cplx K))) (bNfftEven : Bool) (dDenomCSD : K)
    (iNRows : Nat) (st : MatrixX (Cplx K) × List (Nat × MatrixX (Cplx K))) (i : Nat) :
    Option (MatrixX (Cplx K) × List (Nat × MatrixX (Cplx K))) :=
  match (List.range' i (iNRows - i)).foldlM
      (csdInnerStep vecTapSpectra bNfftEven dDenomCSD i) st.1 with
  | none => none
  | some m => some (m, st.2 ++ [(i, m)])

/-- The pair loops (lines 240-259), appending to the pair cache `vecPairCsd`. -/
def computeCsd (vecTapSpectra : List (MatrixX (Cplx K))) (bNfftEven : Bool) (dDenomCSD : K)
    (iNRows iNFreqs : Nat) (vecPairCsd : List (Nat × MatrixX (Cplx K))) :
    Option (List (Nat × MatrixX (Cplx K))) :=
  ((List.range iNRows).foldlM (csdOuterStep vecTapSpectra bNfftEven dDenomCSD iNRows)
    (MatrixX.uninit iNRows iNFreqs, vecPairCsd)).map Prod.snd

/-- Body of the accumulation loop (line 267). -/
def mergeStep (vecPairCsd : List (Nat × MatrixX (Cplx K)))
    (vecPairCsdSum : List (Nat × MatrixX (Cplx K))) (j : Nat) :
    Option (List (Nat × MatrixX (Cplx K))) :=
  match vecPairCsd[j]? with
  | none => none
  | some p => some (vecPairCsdSum.modify (fun q => (q.1, q.2.add p.2)) j)

/-- The critical section (lines 263-269): the first trial initialises the sum, later trials
are added to it. -/
def mergeCsd (vecPairCsdSum vecPairCsd : List (Nat × MatrixX (Cplx K))) :
    Option (List (Nat × MatrixX (Cplx K))) :=
  if vecPairCsdSum.isEmpty then some vecPairCsd
  else (List.range vecPairCsdSum.length).foldlM (mergeStep vecPairCsd) vecPairCsdSum

/-- The part of `compute` that runs outside the lock (lines 198-259): fills the spectra cache
if it does not match, then appends the cross-spectral densities to the pair cache. -/
def computeTrial (ext : Externals K) (inputData : ConnectivityTrialData K)
    (iNRows iNFreqs : Nat) (iNfft : Int) (tapers : MatrixX K × VectorX K) :
    Option (ConnectivityTrialData K) :=
  let spectra :=
    if inputData.vecTapSpectra.length ≠ iNRows then
      computeTapSpectra ext iNRows iNFreqs iNfft tapers inputData.matData
    else some inputData.vecTapSpectra
  match spectra with
  | none => none
  | some vecTapSpectra =>
    let bNfftEven : Bool := decide (Int.tmod iNfft 2 = 0)
    let dDenomCSD := denomCSD ext.sqrt tapers.2
    match computeCsd vecTapSpectra bNfftEven dDenomCSD iNRows iNFreqs
        inputData.vecPairCsd with
    | none => none
    | some vecPairCsd =>
      some { inputData with vecTapSpectra := vecTapSpectra, vecPairCsd := vecPairCsd }

/-- The per-trial step `compute` (lines 185-272): returns the updated trial and the updated
shared sum. -/
def compute (ext : Externals K) (inputData : ConnectivityTrialData K)
    (vecPairCsdSum : List (Nat × MatrixX (Cplx K))) (iNRows iNFreqs : Nat) (iNfft : Int)
    (tapers : MatrixX K × VectorX K) :
    Option (ConnectivityTrialData K × List (Nat × MatrixX (Cplx K))) :=
  if inputData.vecPairCsd.length = iNRows then some (inputData, vecPairCsdSum)
  else
    match computeTrial ext inputData iNRows iNFreqs iNfft tapers with
    | none => none
    | some trial1 =>
      match mergeCsd vecPairCsdSum trial1.vecPairCsd with
      | none => none
      | some vecSum => some (trial1, vecSum)

/-- The pass `QtConcurrent::map(m_dataList, computeLambda)` (lines 163-165), run in list
order. -/
def mapCompute (ext : Externals K) (iNRows iNFreqs : Nat) (iNfft : Int)
    (tapers : MatrixX K × VectorX K) :
    List (ConnectivityTrialData K) → List (Nat × MatrixX (Cplx K)) →
    Option (List (ConnectivityTrialData K) × List (Nat × MatrixX (Cplx K)))
  | [], vecSum => some ([], vecSum)
  | t :: ts, vecSum =>
    match compute ext t vecSum iNRows iNFreqs iNfft tapers with
    | none => none
    | some (t1, vecSum1) =>
      match mapCompute ext iNRows iNFreqs iNfft tapers ts vecSum1 with
      | none => none
      | some (ts1, vecSum2) => some (t1 :: ts1, vecSum2)

/-! ## computeDSWPLV -/

/-- Numerator (lines 288-289). -/
def matNom (csd : MatrixX (Cplx K)) : MatrixX (Dbl K) :=
  csd.imag.toDbl.square.sub csd.imag.toDbl.square

/-- Denominator before the substitution (lines 291-292). -/
def matDenomRaw (csd : MatrixX (Cplx K)) : MatrixX (Dbl K) :=
  csd.imag.toDbl.cwiseAbs.square.sub csd.imag.toDbl.square

/-- Denominator after the substitution of line 300. -/
def matDenomSel (csd : MatrixX (Cplx K)) : MatrixX (Dbl K) := (matDenomRaw csd).selectInf

/-- The quotient of line 301. -/
def matQuot (csd : MatrixX (Cplx K)) : MatrixX (Dbl K) :=
  (matNom csd).cwiseQuotient (matDenomSel csd)

/-- Body of the edge loop (lines 304-310). -/
def edgeStep (i : Nat) (matDenom : MatrixX (Dbl K)) (finalNetwork : Network K) (j : Nat) :
    Option (Network K) :=
  match matDenom.rowAt j with
  | none => none
  | some r =>
    let pEdge : NetworkEdge K := ⟨i, j, r.transpose⟩
    match finalNetwork.nodeAppend i pEdge with
    | none => none
    | some net1 =>
      match net1.nodeAppend j pEdge with
      | none => none
      | some net2 => some (net2.appendEdge pEdge)

/-- Body of the channel loop of `computeDSWPLV` (lines 288-311). -/
def dswplvStep (vecPairCsdSum : List (Nat × MatrixX (Cplx K))) (rows : Nat)
    (finalNetwork : Network K) (i : Nat) : Option (Network K) :=
  match vecPairCsdSum[i]? with
  | none => none
  | some p => (List.range' i (rows - i)).foldlM (edgeStep i (matQuot p.2)) finalNetwork

/-- The finalizer `computeDSWPLV` (lines 277-314). -/
def computeDSWPLV (connectivitySettings : ConnectivitySettings K) (finalNetwork : Network K) :
    Option (Network K) :=
  match connectivitySettings.m_dataList.head? with
  | none => none
  | some first =>
    (List.range first.matData.rows).foldlM
      (dswplvStep connectivitySettings.data.vecPairCsdSum first.matData.rows) finalNetwork

/-! ## calculate -/

/-- The entry point `calculate` (lines 99-180): returns the network together with the
settings object as the call leaves it. -/
def calculate (ext : Externals K) (connectivitySettings : ConnectivitySettings K) :
    Option (Network K × ConnectivitySettings K) :=
  let finalNetwork : Network K := ⟨"Debiased Squared Weighted Phase Lag Index", [], []⟩
  match connectivitySettings.m_dataList with
  | [] => some (finalNetwork, connectivitySettings)
  | first :: _ =>
    let rows := first.matData.rows
    let net := createNodes connectivitySettings.m_matNodePositions rows finalNetwork
    let iSignalLength := first.matData.cols
    let iNfft := effectiveNfft connectivitySettings.m_iNfft iSignalLength
    let tapers := ext.generateTapers iSignalLength connectivitySettings.m_sWindowType
    let iNRows := first.matData.rows
    let iNFreqs := (numFreqs iNfft).toNat
    match mapCompute ext iNRows iNFreqs iNfft tapers connectivitySettings.m_dataList
        connectivitySettings.data.vecPairCsdSum with
    | none => none
    | some (dataList, vecSum) =>
      let settings1 : ConnectivitySettings K :=
        { connectivitySettings with m_dataList := dataList, data := ⟨vecSum⟩ }
      match computeDSWPLV settings1 net with
      | none => none
      | some net1 => some (net1, settings1)

/-! ## Closed forms used in the statements -/

/-- Value that the pair loop leaves at frequency bin `c` of the row computed from the
spectra `a` and `b`: the row of line 245 with the divisions of lines 248-251 applied. -/
def csdEntry (bNfftEven : Bool) (dDenomCSD : K) (iNFreqs : Nat) (a b : MatrixX (Cplx K))
    (c : Nat) : Cplx K :=
  let v := (csdRow dDenomCSD a b).coeff c
  let v1 := if c = 0 then v.divReal 2 else v
  if bNfftEven = true ∧ c = iNFreqs - 1 then v1.divReal 2 else v1

/-- A pair list has `C` entries, entry `k` is keyed `k` and holds a `C` by `F` matrix. -/
def HasShape (C F : Nat) (l : List (Nat × MatrixX (Cplx K))) : Prop :=
  l.length = C ∧
    ∀ (k : Nat) (p : Nat × MatrixX (Cplx K)),
      l[k]? = some p → p.1 = k ∧ p.2.rows = C ∧ p.2.cols = F

/-- Coefficient `(r, c)` of entry `k` of a pair list (zero if there is no such entry). -/
def coeffAt (l : List (Nat × MatrixX (Cplx K))) (k r c : Nat) : Cplx K :=
  (l[k]?.map (fun p => p.2.coeff r c)).getD 0

/-- The edge that `computeDSWPLV` builds for the pair `(i, j)` from the summed
cross-spectral density `csd` of channel `i`. -/
def edgeOf (csd : MatrixX (Cplx K)) (i j : Nat) : NetworkEdge K :=
  ⟨i, j, ((matQuot csd).row j).transpose⟩

/-- The channel pairs `(i, j)` with `i ≤ j < C`, in lexicographic order. -/
def channelPairs (C : Nat) : List (Nat × Nat) :=
  (List.range C).flatMap (fun i => (List.range' i (C - i)).map (fun j => (i, j)))

/-- Rows `i ≤ r < n` of `m` hold the values the pair loop computes for channel `i`. -/
def RowsDone (S : List (MatrixX (Cplx K))) (even : Bool) (d : K) (F i n : Nat)
    (m : MatrixX (Cplx K)) : Prop :=
  ∀ r c a b, i ≤ r → r < n → S[i]? = some a → S[r]? = some b →
    m.coeff r c = csdEntry even d F a b c

/-- The entries that the pair loops append for the spectra `S`: `C` entries, entry `k`
keyed `k`, of shape `C` by `F`, whose rows `j ≥ k` hold the values computed for `(k, j)`. -/
def IsTrialCsd (S : List (MatrixX (Cplx K))) (even : Bool) (d : K) (C F n : Nat)
    (l : List (Nat × MatrixX (Cplx K))) : Prop :=
  l.length = n ∧ ∀ k, k < n → ∃ m, l[k]? = some (k, m) ∧ m.rows = C ∧ m.cols = F ∧
    RowsDone S even d F k C m

/-- Entry-wise addition of a trial's pair list to the shared sum (line 267). -/
def addPair (q p : Nat × MatrixX (Cplx K)) : Nat × MatrixX (Cplx K) := (q.1, q.2.add p.2)

/-- The trial as `compute` leaves it (the shared sum plays no part in it). -/
def trialAfter (ext : Externals K) (iNRows iNFreqs : Nat) (iNfft : Int)
    (tapers : MatrixX K × VectorX K) (t : ConnectivityTrialData K) : ConnectivityTrialData K :=
  ((compute ext t [] iNRows iNFreqs iNfft tapers).map Prod.fst).getD t

/-- Summed cross-spectral density of channel `i` (an empty matrix if there is none). -/
def sumAt (vecPairCsdSum : List (Nat × MatrixX (Cplx K))) (i : Nat) : MatrixX (Cplx K) :=
  (vecPairCsdSum[i]?.map Prod.snd).getD (MatrixX.uninit 0 0)

/-- The edges of the network for `C` channels, in the order in which `computeDSWPLV`
appends them. -/
def networkEdges (vecPairCsdSum : List (Nat × MatrixX (Cplx K))) (C : Nat) :
    List (NetworkEdge K) :=
  (List.range C).flatMap (fun i =>
    (List.range' i (C - i)).map (fun j => edgeOf (sumAt vecPairCsdSum i) i j))

/-- The references that the edge `e` adds to the incident list of node `k`: one if `k` is its
start node and one if `k` is its end node (lines 308-309). -/
def touch (k : Nat) (e : NetworkEdge K) : List (NetworkEdge K) :=
  (if e.iStartNodeID = k then [e] else []) ++ (if e.iEndNodeID = k then [e] else [])

/-- The references that a sequence of edges adds to the incident list of node `k`. -/
def incident (k : Nat) (es : List (NetworkEdge K)) : List (NetworkEdge K) :=
  es.flatMap (touch k)

/-- A node with further incident edges appended. -/
def addEdges (n : NetworkNode K) (es : List (NetworkEdge K)) : NetworkNode K :=
  { n with edges := n.edges ++ es }

/-- The network `net1` is `net` with the edges `es` appended and registered on their end
nodes. -/
def Extends (net net1 : Network K) (es : List (NetworkEdge K)) : Prop :=
  net1.nodes.length = net.nodes.length ∧ net1.edges = net.edges ++ es ∧
    ∀ k : Nat, net1.nodes[k]? = (net.nodes[k]?).map (fun n0 => addEdges n0 (incident k es))

/-- Strict lexicographic order on channel pairs. -/
def LexLt (p q : Nat × Nat) : Prop := p.1 < q.1 ∨ (p.1 = q.1 ∧ p.2 < q.2)

/-- Value that the spectra loop leaves at frequency bin `c` of row `j` of the matrix of
channel `i` (lines 218-225): the transform of the mean-free channel row times taper row
`j`, scaled by the taper weight. -/
def tapSpectrumEntry (ext : Externals K) (iNfft : Int) (tapers : MatrixX K × VectorX K)
    (matData : MatrixX K) (i j c : Nat) : Cplx K :=
  ((ext.fwd (((matData.row i).subScalar (matData.row i).mean).cwiseProduct
    (tapers.1.row j)) iNfft).coeff c).scale (tapers.2.coeff j)

/-- The spectra that the spectra loop computes: `n` matrices of `tapers.1.rows` rows and `F`
columns whose entries are given by `tapSpectrumEntry`. -/
def IsTapSpectra (ext : Externals K) (iNfft : Int) (tapers : MatrixX K × VectorX K)
    (matData : MatrixX K) (F n : Nat) (l : List (MatrixX (Cplx K))) : Prop :=
  l.length = n ∧ ∀ i, i < n → ∃ m, l[i]? = some m ∧ m.rows = tapers.1.rows ∧ m.cols = F ∧
    ∀ j c, j < tapers.1.rows → m.coeff j c = tapSpectrumEntry ext iNfft tapers matData i j c

/-- The references that a channel pair adds to the incident list of node `k`: the pair
counterpart of `touch`. -/
def touchPair (k : Nat) (p : Nat × Nat) : List (Nat × Nat) :=
  (if p.1 = k then [p] else []) ++ (if p.2 = k then [p] else [])

/-- End points of the incident-edge references of node `k` among `C` channels, in the
order in which the edge loop registers them: the edges `(i, k)` with `i < k`, the self-loop
`(k, k)` twice, and the edges `(k, j)` with `k < j < C`. -/
def incidentPairs (C k : Nat) : List (Nat × Nat) :=
  (List.range k).map (fun i => (i, k)) ++ [(k, k), (k, k)] ++
    (List.range' (k + 1) (C - (k + 1))).map (fun j => (k, j))

end Metric

/-! ## A concrete instance -/


/-- Powers of `-i`: the twiddle factors of the four-point transform. -/
def negIPow (n : Nat) : Cplx ℚ :=
  match n % 4 with
  | 0 => ⟨1, 0⟩
  | 1 => ⟨0, -1⟩
  | 2 => ⟨-1, 0⟩
  | _ => ⟨0, 1⟩

/-- Concrete external routines over the rationals: the square root of a ratio of perfect
squares, a single all-ones taper of weight one, and the zero-padded half spectrum with the
twiddle factors of the four-point transform. -/
def exampleExternals : Externals ℚ where
  sqrt := fun x => (Nat.sqrt x.num.toNat : ℚ) / (Nat.sqrt x.den : ℚ)
  generateTapers := fun n _ => (⟨1, n, fun _ _ => 1⟩, ⟨1, fun _ => 1⟩)
  fwd := fun v n => ⟨(n / 2 + 1).toNat, fun f =>
    sumTo n.toNat (fun t => (negIPow (f * t)).scale (if t < v.size then v.coeff t else 0))⟩

/-- A trial of 3 channels and 4 samples with empty caches. -/
def exampleTrial (s : ℚ) : ConnectivityTrialData ℚ :=
  ⟨⟨3, 4, fun r c => s * ((r : ℚ) + 1) * ((c : ℚ) * c + r * c)⟩, [], []⟩

/-- The first example trial with a pair cache that already holds 3 entries. -/
def exampleFullTrial : ConnectivityTrialData ℚ :=
  { exampleTrial 1 with
    vecPairCsd := [(0, MatrixX.uninit 3 3), (1, MatrixX.uninit 3 3), (2, MatrixX.uninit 3 3)] }

/-- Settings without trials. -/
def exampleEmptySettings : ConnectivitySettings ℚ :=
  ⟨[], ⟨0, 0, fun _ _ => 0⟩, "rectangular", 4, ⟨[]⟩⟩

/-- A summed cross-spectral density with the single entry `1 + 2i`. -/
def exampleCsd : MatrixX (Cplx ℚ) := ⟨1, 1, fun _ _ => ⟨1, 2⟩⟩

/-- A summed cross-spectral density with the single entry `1 + 2^600 i`: the imaginary part
is a finite double whose square, `2^1200`, is beyond the binary64 range. -/
def exampleHugeCsd : MatrixX (Cplx ℚ) := ⟨1, 1, fun _ _ => ⟨1, 2 ^ 600⟩⟩

/-- Two trials of 3 channels and 4 samples, window type "rectangular", transform length 4,
no node positions, empty shared sum. -/
def exampleSettings : ConnectivitySettings ℚ :=
  ⟨[exampleTrial 1, exampleTrial 2], ⟨0, 0, fun _ _ => 0⟩, "rectangular", 4, ⟨[]⟩⟩

/-- A single taper of length 1 with weight 1. -/
def exampleUnitTapers : MatrixX ℚ × VectorX ℚ := (⟨1, 1, fun _ _ => 1⟩, ⟨1, fun _ => 1⟩)

/-- A trial of 1 channel and 1 sample whose spectra cache holds the single entry `2` and
whose pair cache is empty. -/
def exampleCachedTrial : ConnectivityTrialData ℚ :=
  ⟨⟨1, 1, fun _ _ => 1⟩, [⟨1, 1, fun _ _ => ⟨2, 0⟩⟩], []⟩

/-- The first example trial with a pair cache of 3 entries and a spectra cache of 1 entry. -/
def exampleStaleTrial : ConnectivityTrialData ℚ :=
  { exampleFullTrial with vecTapSpectra := [MatrixX.uninit 1 3] }

/-- The example settings with positions for the first two of the three channels. -/
def examplePositionedSettings : ConnectivitySettings ℚ :=
  { exampleSettings with m_matNodePositions := ⟨2, 3, fun r c => (r : ℚ) + c + 1⟩ }

/-- Settings of one trial of 2 channels whose shared sum holds two 2 by 3 matrices. -/
def exampleSumSettings : ConnectivitySettings ℚ :=
  ⟨[⟨⟨2, 4, fun _ _ => 1⟩, [], []⟩], ⟨0, 0, fun _ _ => 0⟩, "rectangular", 4,
    ⟨[(0, ⟨2, 3, fun r c => ⟨(r : ℚ) + 1, (c : ℚ) + 2⟩⟩),
      (1, ⟨2, 3, fun r c => ⟨(r : ℚ) + 1, (c : ℚ) + 2⟩⟩)]⟩⟩

/-- A network of 2 nodes without edges. -/
def exampleNetwork : Network ℚ :=
  ⟨"Debiased Squared Weighted Phase Lag Index",
    [⟨0, VectorX.zero 3, []⟩, ⟨1, VectorX.zero 3, []⟩], []⟩
/-- The first example trial with one stale entry in its pair cache. -/
def examplePartialTrial : ConnectivityTrialData ℚ :=
  { exampleTrial 1 with vecPairCsd := [(7, MatrixX.uninit 3 3)] }

end Connectivity

/-! ## FieldTrip buffer command codes (ftconnector.h) -/

namespace FtBuffer

/-- The cast `(qint16)x`: the value of `x` in the signed 16-bit range. -/
def qint16 (x : Int) : Int := (x + 2 ^ 15) % 2 ^ 16 - 2 ^ 15

/-- The macro `WAIT_DAT` (line 99). -/
def WAIT_DAT : Int := qint16 0x0402

/-- The macro `WAIT_OK` (line 100). -/
def WAIT_OK : Int := qint16 0x0404

/-- The macro `WAIT_ERR` (line 101). -/
def WAIT_ERR : Int := qint16 0x0405

/-- The decimal value in the comment next to `WAIT_DAT`. -/
def documentedWaitDat : Int := 1026

/-- The decimal value in the comment next to `WAIT_OK`. -/
def documentedWaitOk : Int := 1027

/-- The decimal value in the comment next to `WAIT_ERR`. -/
def documentedWaitErr : Int := 1028

end FtBuffer

/-! ## Plugin lookup (pluginmanager.cpp) -/

namespace PluginManager

/-- The part of `IPlugin` that the lookup uses: the name of the plugin. -/
structure IPlugin where
  getName : String

/-- The loop of `findByName` (lines 164-170) from the position of the iterator `it`, given
as the rest of the vector, and the value of the counter `i`. -/
def findByNameFrom (name : String) : List IPlugin → Int → Int
  | [], _ => -1
  | p :: rest, i => if p.getName = name then i else findByNameFrom name rest (i + 1)

/-- `PluginManager::findByName` (lines 162-171). -/
def findByName (m_qVecPlugins : List IPlugin) (name : String) : Int :=
  findByNameFrom name m_qVecPlugins 0

/-- Three loaded plugins. -/
def examplePlugins : List IPlugin := [⟨"FiffSimulator"⟩, ⟨"RtcMne"⟩, ⟨"FtBuffer"⟩]

end PluginManager

/-! # Verification -/

set_option linter.unusedSectionVars false

namespace Connectivity

/-! ## Loop rules -/

/-- Invariant rule for a counting loop whose body may fail: if the invariant holds on entry
and every iteration in range succeeds and re-establishes it, the loop succeeds and the
invariant holds on exit. -/
theorem foldlM_rangeFrom_inv {σ : Type} (f : σ → Nat → Option σ) (P : Nat → σ → Prop) :
    ∀ (n k : Nat) (s : σ), P k s →
      (∀ i s, k ≤ i → i < k + n → P i s → ∃ s', f s i = some s' ∧ P (i + 1) s') →
      ∃ s', (List.range' k n).foldlM f s = some s' ∧ P (k + n) s' := by
  intro n
  induction n with
  | zero => intro k s h0 _; exact ⟨s, by simp, by simpa using h0⟩
  | succ n ih =>
    intro k s h0 hstep
    obtain ⟨s1, hs1, hP1⟩ := hstep k s (Nat.le_refl k) (by omega) h0
    obtain ⟨s2, hs2, hP2⟩ := ih (k + 1) s1 hP1
      (fun i s hki hik hP => hstep i s (by omega) (by omega) hP)
    refine ⟨s2, ?_, ?_⟩
    · simp [List.range'_succ, hs1, hs2]
    · have : k + (n + 1) = k + 1 + n := by omega
      rw [this]; exact hP2

/-- The invariant rule for a loop that counts from zero. -/
theorem foldlM_range_inv {σ : Type} (f : σ → Nat → Option σ) (P : Nat → σ → Prop)
    (n : Nat) (s : σ) (h0 : P 0 s)
    (hstep : ∀ i s, i < n → P i s → ∃ s', f s i = some s' ∧ P (i + 1) s') :
    ∃ s', (List.range n).foldlM f s = some s' ∧ P n s' := by
  have h := foldlM_rangeFrom_inv f P n 0 s h0
    (fun i s _ hi hP => hstep i s (by omega) hP)
  rw [List.range_eq_range']
  simpa using h

/-- The loop from `i` up to, but not including, `n`. -/
theorem foldlM_from_inv {σ : Type} (f : σ → Nat → Option σ) (P : Nat → σ → Prop)
    (i n : Nat) (hin : i ≤ n) (s : σ) (h0 : P i s)
    (hstep : ∀ j s, i ≤ j → j < n → P j s → ∃ s', f s j = some s' ∧ P (j + 1) s') :
    ∃ s', (List.range' i (n - i)).foldlM f s = some s' ∧ P n s' := by
  have h := foldlM_rangeFrom_inv f P (n - i) i s h0
    (fun j s hij hj hP => hstep j s hij (by omega) hP)
  have e : i + (n - i) = n := by omega
  rw [e] at h
  exact h

section Lemmas

variable {K : Type} [LinearOrderedField K]

/-! ## Scalars -/

theorem Cplx.add_re (a b : Cplx K) : (a + b).re = a.re + b.re := rfl

theorem Cplx.add_im (a b : Cplx K) : (a + b).im = a.im + b.im := rfl

theorem Cplx.zero_re : (0 : Cplx K).re = 0 := rfl

theorem Cplx.zero_im : (0 : Cplx K).im = 0 := rfl

theorem sumTo_nonneg (n : Nat) (f : Nat → K) (h : ∀ k, 0 ≤ f k) : 0 ≤ sumTo n f := by
  induction n with
  | zero => simp [sumTo]
  | succ n ih => simp only [sumTo]; exact add_nonneg ih (h n)

theorem sumTo_eq_sum_range {α : Type} [AddCommMonoid α] (n : Nat) (f : Nat → α) :
    sumTo n f = ∑ k in Finset.range n, f k := by
  induction n with
  | zero => simp [sumTo]
  | succ n ih => simp [sumTo, ih, Finset.sum_range_succ]

/-! ## The finalizer, entry by entry -/

theorem Dbl.zero_def : (0 : Dbl K) = Dbl.fin 0 := rfl

theorem Dbl.overflowBound_pos : (0 : K) < Dbl.overflowBound := by
  have h : (2 : K) ^ 970 < 2 ^ 1024 := pow_lt_pow_right₀ (by norm_num) (by norm_num)
  exact sub_pos.mpr h

theorem Dbl.ofExact_zero : Dbl.ofExact (0 : K) = Dbl.fin 0 := by
  have h := Dbl.overflowBound_pos (K := K)
  have h1 : ¬ Dbl.overflowBound ≤ (0 : K) := not_le.mpr h
  have h2 : ¬ (0 : K) ≤ -Dbl.overflowBound := by
    intro h3
    linarith
  simp [Dbl.ofExact, h1, h2]

/-- The square of a finite double: its exact value below the overflow bound, positive
infinity from the bound on. -/
theorem Dbl.mul_self (x : K) :
    Dbl.mul (Dbl.fin x) (Dbl.fin x) =
      if x * x < Dbl.overflowBound then Dbl.fin (x * x) else Dbl.pinf := by
  have h := Dbl.overflowBound_pos (K := K)
  have h0 : 0 ≤ x * x := mul_self_nonneg x
  show Dbl.ofExact (x * x) = _
  by_cases hlt : x * x < Dbl.overflowBound
  · have h1 : ¬ Dbl.overflowBound ≤ x * x := not_le.mpr hlt
    have h2 : ¬ x * x ≤ -Dbl.overflowBound := by
      intro h3
      linarith
    simp [Dbl.ofExact, h1, h2, hlt]
  · have h1 : Dbl.overflowBound ≤ x * x := not_lt.mp hlt
    simp [Dbl.ofExact, h1, hlt]

/-- A square minus itself: zero if the square does not overflow, NaN if it does. -/
theorem Dbl.sub_mul_self (x : K) :
    Dbl.sub (Dbl.mul (Dbl.fin x) (Dbl.fin x)) (Dbl.mul (Dbl.fin x) (Dbl.fin x)) =
      if x * x < Dbl.overflowBound then 0 else Dbl.nan := by
  rw [Dbl.mul_self]
  by_cases hlt : x * x < Dbl.overflowBound
  · simp only [if_pos hlt]
    show Dbl.ofExact (x * x - x * x) = _
    rw [sub_self, Dbl.ofExact_zero]
    rfl
  · simp only [if_neg hlt]
    rfl

theorem Dbl.abs_mul_self (x : K) :
    Dbl.mul (Dbl.abs (Dbl.fin x)) (Dbl.abs (Dbl.fin x)) = Dbl.mul (Dbl.fin x) (Dbl.fin x) := by
  show Dbl.ofExact (|x| * |x|) = Dbl.ofExact (x * x)
  rw [abs_mul_abs_self]

theorem Dbl.nan_ne_zero : (Dbl.nan : Dbl K) ≠ 0 := by
  intro h
  cases h

/-- The numerator at an entry: zero if the square of the imaginary part does not overflow,
NaN if it does. -/
theorem matNom_coeff (csd : MatrixX (Cplx K)) (r c : Nat) :
    (matNom csd).coeff r c =
      if (csd.coeff r c).im * (csd.coeff r c).im < Dbl.overflowBound then 0 else Dbl.nan :=
  Dbl.sub_mul_self _

/-- The denominator before the substitution at an entry: zero if the square of the
imaginary part does not overflow, NaN if it does. -/
theorem matDenomRaw_coeff (csd : MatrixX (Cplx K)) (r c : Nat) :
    (matDenomRaw csd).coeff r c =
      if (csd.coeff r c).im * (csd.coeff r c).im < Dbl.overflowBound then 0 else Dbl.nan := by
  show Dbl.sub (Dbl.mul (Dbl.abs (Dbl.fin (csd.coeff r c).im))
    (Dbl.abs (Dbl.fin (csd.coeff r c).im))) _ = _
  rw [Dbl.abs_mul_self]
  exact Dbl.sub_mul_self _

/-- The substitution never leaves a zero. -/
theorem selectInf_ne_zero (m : MatrixX (Dbl K)) (r c : Nat) :
    (m.selectInf).coeff r c ≠ Dbl.fin 0 := by
  show (match m.coeff r c with
    | Dbl.fin x => if x = 0 then Dbl.pinf else Dbl.fin x
    | v => v) ≠ Dbl.fin 0
  cases hm : m.coeff r c with
  | fin x =>
    by_cases hx : x = 0
    · simp [hx]
    · simp only [if_neg hx]
      intro heq
      injection heq with heq
      exact hx heq
  | pinf => simp
  | ninf => simp
  | nan => simp

/-- The denominator after the substitution at an entry: positive infinity if the square of
the imaginary part does not overflow, NaN if it does. -/
theorem matDenomSel_coeff (csd : MatrixX (Cplx K)) (r c : Nat) :
    (matDenomSel csd).coeff r c =
      if (csd.coeff r c).im * (csd.coeff r c).im < Dbl.overflowBound then Dbl.pinf
      else Dbl.nan := by
  show (match (matDenomRaw csd).coeff r c with
    | Dbl.fin x => if x = 0 then Dbl.pinf else Dbl.fin x
    | v => v) = _
  rw [matDenomRaw_coeff]
  by_cases hlt : (csd.coeff r c).im * (csd.coeff r c).im < Dbl.overflowBound
  · simp only [if_pos hlt, Dbl.zero_def]
    simp
  · simp only [if_neg hlt]

/-- The quotient of line 301 at an entry: zero if the square of the imaginary part does not
overflow, NaN if it does. -/
theorem matQuot_coeff (csd : MatrixX (Cplx K)) (r c : Nat) :
    (matQuot csd).coeff r c =
      if (csd.coeff r c).im * (csd.coeff r c).im < Dbl.overflowBound then 0 else Dbl.nan := by
  show Dbl.div ((matNom csd).coeff r c) ((matDenomSel csd).coeff r c) = _
  rw [matNom_coeff, matDenomSel_coeff]
  by_cases hlt : (csd.coeff r c).im * (csd.coeff r c).im < Dbl.overflowBound
  · simp only [if_pos hlt]
    rfl
  · simp only [if_neg hlt]
    rfl

theorem matQuot_rows (csd : MatrixX (Cplx K)) : (matQuot csd).rows = csd.rows := rfl

theorem matQuot_cols (csd : MatrixX (Cplx K)) : (matQuot csd).cols = csd.cols := rfl

end Lemmas

end Connectivity

namespace Connectivity

section Loops

variable {K : Type} [LinearOrderedField K]

/-! ## The spectra loop -/

theorem computeTapSpectra_length (ext : Externals K) (iNRows iNFreqs : Nat) (iNfft : Int)
    (tapers : MatrixX K × VectorX K) (matData : MatrixX K) (h : iNRows ≤ matData.rows) :
    ∃ S, computeTapSpectra ext iNRows iNFreqs iNfft tapers matData = some S ∧
      S.length = iNRows := by
  obtain ⟨st, hst, hP⟩ := foldlM_range_inv (spectraStep ext iNfft tapers matData)
    (fun i st => st.2.length = i) iNRows (MatrixX.uninit tapers.1.rows iNFreqs, []) rfl
    (by
      intro i st hi hlen
      have hr : matData.rowAt i = some (matData.row i) := by
        simp [MatrixX.rowAt]; omega
      simp only [spectraStep, hr]
      exact ⟨_, rfl, by simp [hlen]⟩)
  exact ⟨st.2, by simp [computeTapSpectra, hst], hP⟩

/-! ## The pair loops -/

theorem csdInnerStep_eq (S : List (MatrixX (Cplx K))) (even : Bool) (d : K) (i j : Nat)
    (m a b : MatrixX (Cplx K)) (ha : S[i]? = some a) (hb : S[j]? = some b) :
    ∃ m1, csdInnerStep S even d i m j = some m1 ∧ m1.rows = m.rows ∧ m1.cols = m.cols ∧
      ∀ r c, m1.coeff r c = if r = j then csdEntry even d m.cols a b c else m.coeff r c := by
  simp only [csdInnerStep, ha, hb]
  cases even with
  | false =>
    refine ⟨_, rfl, rfl, rfl, ?_⟩
    intro r c
    by_cases hr : r = j <;> by_cases hc : c = 0 <;>
      simp [MatrixX.divCoeff, MatrixX.setRow, csdEntry, hr, hc]
  | true =>
    refine ⟨_, rfl, rfl, rfl, ?_⟩
    intro r c
    by_cases hr : r = j <;> by_cases hc : c = 0 <;> by_cases hl : c = m.cols - 1 <;>
      simp [MatrixX.divCoeff, MatrixX.setRow, csdEntry, hr, hc, hl]

theorem csdInner_spec (S : List (MatrixX (Cplx K))) (even : Bool) (d : K) (C F i : Nat)
    (hS : S.length = C) (hi : i < C) (m0 : MatrixX (Cplx K))
    (hr0 : m0.rows = C) (hc0 : m0.cols = F) :
    ∃ m, (List.range' i (C - i)).foldlM (csdInnerStep S even d i) m0 = some m ∧
      m.rows = C ∧ m.cols = F ∧ RowsDone S even d F i C m := by
  obtain ⟨m, hm, h1, h2, h3⟩ := foldlM_from_inv (csdInnerStep S even d i)
    (fun j m => m.rows = C ∧ m.cols = F ∧ RowsDone S even d F i j m) i C (by omega) m0
    ⟨hr0, hc0, by intro r c a b h1 h2; omega⟩
    (by
      intro j m hij hjC hP
      obtain ⟨hr, hc, hdone⟩ := hP
      have hi' : i < S.length := by omega
      have hj' : j < S.length := by omega
      obtain ⟨m1, hm1, hr1, hc1, hco⟩ := csdInnerStep_eq S even d i j m S[i] S[j]
        (List.getElem?_eq_getElem hi') (List.getElem?_eq_getElem hj')
      refine ⟨m1, hm1, by omega, by omega, ?_⟩
      intro r c a b hir hrj ha hb
      rw [hco]
      by_cases hrj' : r = j
      · subst hrj'
        rw [List.getElem?_eq_getElem hi'] at ha
        rw [List.getElem?_eq_getElem hj'] at hb
        injection ha with ha; injection hb with hb
        simp [ha, hb, hc]
      · simp only [hrj', if_false]
        exact hdone r c a b hir (by omega) ha hb)
  exact ⟨m, hm, h1, h2, h3⟩

theorem computeCsd_spec (S : List (MatrixX (Cplx K))) (even : Bool) (d : K) (C F : Nat)
    (hS : S.length = C) (base : List (Nat × MatrixX (Cplx K))) :
    ∃ l, computeCsd S even d C F base = some (base ++ l) ∧ IsTrialCsd S even d C F C l := by
  obtain ⟨st, hst, -, -, l, hl, hP⟩ := foldlM_range_inv (csdOuterStep S even d C)
    (fun i st => st.1.rows = C ∧ st.1.cols = F ∧
      ∃ l, st.2 = base ++ l ∧ IsTrialCsd S even d C F i l)
    C (MatrixX.uninit C F, base)
    ⟨rfl, rfl, [], by simp, rfl, by intro k hk; omega⟩
    (by
      intro i st hi hP
      obtain ⟨hr, hc, l, hl, hlen, hent⟩ := hP
      obtain ⟨m, hm, hmr, hmc, hdone⟩ := csdInner_spec S even d C F i hS hi st.1 hr hc
      refine ⟨(m, st.2 ++ [(i, m)]), by simp only [csdOuterStep, hm], hmr, hmc,
        l ++ [(i, m)], by simp [hl], by simp [hlen], ?_⟩
      intro k hk
      by_cases hki : k = i
      · subst hki
        refine ⟨m, ?_, hmr, hmc, hdone⟩
        rw [List.getElem?_append_right (by omega)]
        simp [hlen]
      · have hk' : k < i := by omega
        obtain ⟨m', hm', h1, h2, h3⟩ := hent k hk'
        refine ⟨m', ?_, h1, h2, h3⟩
        rw [List.getElem?_append_left (by omega)]
        exact hm')
  exact ⟨l, by simp [computeCsd, hst, hl], hP⟩

theorem IsTrialCsd.hasShape {S : List (MatrixX (Cplx K))} {even : Bool} {d : K} {C F : Nat}
    {l : List (Nat × MatrixX (Cplx K))} (h : IsTrialCsd S even d C F C l) : HasShape C F l := by
  refine ⟨h.1, ?_⟩
  intro k p hp
  have hk : k < C := by
    have := (List.getElem?_eq_some_iff.mp hp).1
    have := h.1
    omega
  obtain ⟨m, hm, h1, h2, -⟩ := h.2 k hk
  rw [hm] at hp
  injection hp with hp
  subst hp
  exact ⟨rfl, h1, h2⟩

end Loops

end Connectivity

namespace Connectivity

section Merge

variable {K : Type} [LinearOrderedField K]

/-! ## The critical section -/

theorem mergeCsd_empty (l : List (Nat × MatrixX (Cplx K))) : mergeCsd [] l = some l := by
  simp [mergeCsd]

theorem mergeCsd_nonempty (acc l : List (Nat × MatrixX (Cplx K))) (hne : acc ≠ [])
    (hlen : acc.length ≤ l.length) :
    mergeCsd acc l = some (List.zipWith addPair acc l) := by
  obtain ⟨s, hs, hP⟩ := foldlM_range_inv (mergeStep l)
    (fun k s => ∀ n, s[n]? = if n < k then (List.zipWith addPair acc l)[n]? else acc[n]?)
    acc.length acc (by intro n; simp)
    (by
      intro k s hk hP
      have hkl : k < l.length := by omega
      refine ⟨List.modify (fun q => (q.1, q.2.add l[k].2)) k s,
        by simp only [mergeStep, List.getElem?_eq_getElem hkl], ?_⟩
      intro n
      rw [List.getElem?_modify, hP n]
      by_cases hnk : n < k
      · have h1 : ¬ k = n := by omega
        have h2 : n < k + 1 := by omega
        simp [hnk, h1, h2]
      · by_cases hnk' : n = k
        · subst hnk'
          simp [List.getElem?_zipWith, List.getElem?_eq_getElem hk,
            List.getElem?_eq_getElem hkl, addPair]
        · have h1 : ¬ k = n := by omega
          have h2 : ¬ n < k + 1 := by omega
          simp [hnk, h1, h2])
  have hnil : acc.isEmpty = false := by
    cases acc with
    | nil => exact absurd rfl hne
    | cons a t => rfl
  simp only [mergeCsd, hnil, Bool.false_eq_true, if_false, hs]
  congr 1
  apply List.ext_getElem?
  intro n
  rw [hP n]
  by_cases hn : n < acc.length
  · simp [hn]
  · simp only [hn, if_false]
    rw [List.getElem?_eq_none (by omega), List.getElem?_eq_none]
    simp [List.length_zipWith]
    omega

theorem zipWith_addPair_getElem? (acc l : List (Nat × MatrixX (Cplx K))) (k : Nat)
    (q p : Nat × MatrixX (Cplx K)) (hq : acc[k]? = some q) (hp : l[k]? = some p) :
    (List.zipWith addPair acc l)[k]? = some (q.1, q.2.add p.2) := by
  simp [List.getElem?_zipWith, hq, hp, addPair]

theorem HasShape.getElem? {C F : Nat} {l : List (Nat × MatrixX (Cplx K))}
    (h : HasShape C F l) {k : Nat} (hk : k < C) :
    ∃ m, l[k]? = some (k, m) ∧ m.rows = C ∧ m.cols = F := by
  have hk' : k < l.length := by rw [h.1]; exact hk
  obtain ⟨h1, h2, h3⟩ := h.2 k l[k] (List.getElem?_eq_getElem hk')
  refine ⟨l[k].2, ?_, h2, h3⟩
  rw [List.getElem?_eq_getElem hk']
  congr 1
  exact Prod.ext h1 rfl

theorem HasShape.zipWith {C F : Nat} {acc l : List (Nat × MatrixX (Cplx K))}
    (ha : HasShape C F acc) (hl : HasShape C F l) :
    HasShape C F (List.zipWith addPair acc l) := by
  refine ⟨by simp [List.length_zipWith, ha.1, hl.1], ?_⟩
  intro k p hp
  obtain ⟨x, y, hx, -, hxy⟩ := List.getElem?_zipWith_eq_some.mp hp
  obtain ⟨h1, h2, h3⟩ := ha.2 k x hx
  subst hxy
  exact ⟨h1, h2, h3⟩

/-- Merging a pair list of the right shape into a sum that is empty or of that shape
succeeds and leaves a sum of that shape. -/
theorem mergeCsd_shape {C F : Nat} {acc l : List (Nat × MatrixX (Cplx K))}
    (ha : acc = [] ∨ HasShape C F acc) (hl : HasShape C F l) :
    ∃ acc1, mergeCsd acc l = some acc1 ∧ HasShape C F acc1 := by
  by_cases hne : acc = []
  · subst hne
    exact ⟨l, mergeCsd_empty l, hl⟩
  · have hs : HasShape C F acc := ha.resolve_left hne
    exact ⟨_, mergeCsd_nonempty acc l hne (by rw [hs.1, hl.1]), hs.zipWith hl⟩

end Merge

end Connectivity

namespace Connectivity

section Trial

variable {K : Type} [LinearOrderedField K]

theorem coeffAt_nil (k r c : Nat) : coeffAt ([] : List (Nat × MatrixX (Cplx K))) k r c = 0 := by
  simp [coeffAt]

theorem coeffAt_of_getElem? {l : List (Nat × MatrixX (Cplx K))} {k : Nat}
    {p : Nat × MatrixX (Cplx K)} (h : l[k]? = some p) (r c : Nat) :
    coeffAt l k r c = p.2.coeff r c := by
  simp [coeffAt, h]

theorem coeffAt_of_le {l : List (Nat × MatrixX (Cplx K))} {k : Nat} (h : l.length ≤ k)
    (r c : Nat) : coeffAt l k r c = 0 := by
  simp [coeffAt, List.getElem?_eq_none h]

/-- One merge: the sum keeps its shape and every coefficient grows by the trial's
coefficient. -/
theorem mergeCsd_coeff {C F : Nat} {acc l : List (Nat × MatrixX (Cplx K))}
    (ha : acc = [] ∨ HasShape C F acc) (hl : HasShape C F l) :
    ∃ acc1, mergeCsd acc l = some acc1 ∧ HasShape C F acc1 ∧
      ∀ k r c, coeffAt acc1 k r c = coeffAt acc k r c + coeffAt l k r c := by
  by_cases hne : acc = []
  · subst hne
    refine ⟨l, mergeCsd_empty l, hl, ?_⟩
    intro k r c
    rw [coeffAt_nil, zero_add]
  · have hs : HasShape C F acc := ha.resolve_left hne
    refine ⟨_, mergeCsd_nonempty acc l hne (by rw [hs.1, hl.1]), hs.zipWith hl, ?_⟩
    intro k r c
    by_cases hk : k < C
    · obtain ⟨m, hm, -, -⟩ := hs.getElem? hk
      obtain ⟨m', hm', -, -⟩ := hl.getElem? hk
      rw [coeffAt_of_getElem? (zipWith_addPair_getElem? acc l k _ _ hm hm'),
        coeffAt_of_getElem? hm, coeffAt_of_getElem? hm']
      rfl
    · have e1 : acc.length ≤ k := by rw [hs.1]; omega
      have e2 : l.length ≤ k := by rw [hl.1]; omega
      have e3 : (List.zipWith addPair acc l).length ≤ k := by
        simp only [List.length_zipWith, hs.1, hl.1]; simpa using hk
      rw [coeffAt_of_le e1, coeffAt_of_le e2, coeffAt_of_le e3, add_zero]

/-- Merging a list of pair lists, one after the other. -/
theorem mergeAll_spec {C F : Nat} (ls : List (List (Nat × MatrixX (Cplx K)))) :
    ∀ (acc : List (Nat × MatrixX (Cplx K))), (acc = [] ∨ HasShape C F acc) →
      (∀ l ∈ ls, HasShape C F l) →
      ∃ acc1, ls.foldlM (fun a l => mergeCsd a l) acc = some acc1 ∧
        (acc1 = [] ∨ HasShape C F acc1) ∧ (ls ≠ [] → HasShape C F acc1) ∧
        ∀ k r c, coeffAt acc1 k r c =
          coeffAt acc k r c + (ls.map (fun l => coeffAt l k r c)).sum := by
  induction ls with
  | nil =>
    intro acc ha _
    exact ⟨acc, rfl, ha, fun h => absurd rfl h, by intro k r c; simp⟩
  | cons l ls ih =>
    intro acc ha hls
    obtain ⟨acc1, h1, hs1, hc1⟩ := mergeCsd_coeff ha (hls l (List.mem_cons_self _ _))
    obtain ⟨acc2, h2, hs2, hs2', hc2⟩ := ih acc1 (Or.inr hs1)
      (fun l' hl' => hls l' (List.mem_cons_of_mem _ hl'))
    refine ⟨acc2, by simp [List.foldlM_cons, h1, h2], hs2, ?_, ?_⟩
    · intro _
      rcases hs2 with h | h
      · subst h
        have h0 : C = 0 := by
          rcases ls with _ | ⟨l', ls'⟩
          · simp at h2; subst h2; exact hs1.1.symm
          · exact (hs2' (by simp)).1.symm
        subst h0
        exact ⟨rfl, by intro k p hp; simp at hp⟩
      · exact h
    · intro k r c
      rw [hc2, hc1, List.map_cons, List.sum_cons, add_assoc]

theorem MatrixX.ext_coeff {α : Type} {a b : MatrixX α} (hr : a.rows = b.rows) (hc : a.cols = b.cols)
    (h : ∀ r c, a.coeff r c = b.coeff r c) : a = b := by
  cases a; cases b
  simp only [MatrixX.mk.injEq]
  exact ⟨hr, hc, funext fun r => funext fun c => h r c⟩

/-- Two pair lists of the same shape with the same coefficients are equal. -/
theorem HasShape.ext {C F : Nat} {a b : List (Nat × MatrixX (Cplx K))}
    (ha : HasShape C F a) (hb : HasShape C F b)
    (h : ∀ k r c, coeffAt a k r c = coeffAt b k r c) : a = b := by
  apply List.ext_getElem?
  intro k
  by_cases hk : k < C
  · obtain ⟨m, hm, hr, hc⟩ := ha.getElem? hk
    obtain ⟨m', hm', hr', hc'⟩ := hb.getElem? hk
    rw [hm, hm']
    congr 2
    apply MatrixX.ext_coeff (by omega) (by omega)
    intro r c
    have := h k r c
    rwa [coeffAt_of_getElem? hm, coeffAt_of_getElem? hm'] at this
  · rw [List.getElem?_eq_none (by rw [ha.1]; omega),
      List.getElem?_eq_none (by rw [hb.1]; omega)]

/-! ## The lock-free part of `compute` -/

theorem computeTrial_spec (ext : Externals K) (t : ConnectivityTrialData K) (C F : Nat)
    (iNfft : Int) (tapers : MatrixX K × VectorX K)
    (h : t.vecTapSpectra.length = C ∨ C ≤ t.matData.rows) :
    ∃ S l, computeTrial ext t C F iNfft tapers =
        some { t with vecTapSpectra := S, vecPairCsd := t.vecPairCsd ++ l } ∧
      S.length = C ∧ (t.vecTapSpectra.length = C → S = t.vecTapSpectra) ∧
      (t.vecTapSpectra.length ≠ C →
        computeTapSpectra ext C F iNfft tapers t.matData = some S) ∧
      IsTrialCsd S (decide (Int.tmod iNfft 2 = 0)) (denomCSD ext.sqrt tapers.2) C F C l := by
  by_cases hc : t.vecTapSpectra.length = C
  · obtain ⟨l, hl, hl'⟩ := computeCsd_spec t.vecTapSpectra (decide (Int.tmod iNfft 2 = 0))
      (denomCSD ext.sqrt tapers.2) C F hc t.vecPairCsd
    refine ⟨t.vecTapSpectra, l, ?_, hc, fun _ => rfl, fun h' => absurd hc h', hl'⟩
    simp [computeTrial, hc, hl]
  · have hrows : C ≤ t.matData.rows := h.resolve_left hc
    obtain ⟨S, hS, hlen⟩ := computeTapSpectra_length ext C F iNfft tapers t.matData hrows
    obtain ⟨l, hl, hl'⟩ := computeCsd_spec S (decide (Int.tmod iNfft 2 = 0))
      (denomCSD ext.sqrt tapers.2) C F hlen t.vecPairCsd
    refine ⟨S, l, ?_, hlen, fun h' => absurd h' hc, fun _ => hS, hl'⟩
    simp [computeTrial, hc, hS, hl]

theorem mergeCsd_some (acc l : List (Nat × MatrixX (Cplx K))) (h : acc.length ≤ l.length) :
    ∃ acc1, mergeCsd acc l = some acc1 := by
  by_cases hne : acc = []
  · subst hne
    exact ⟨l, mergeCsd_empty l⟩
  · exact ⟨_, mergeCsd_nonempty acc l hne h⟩

/-- The step `compute` on a trial with an empty pair cache. -/
theorem compute_fresh (ext : Externals K) (t : ConnectivityTrialData K) (C F : Nat)
    (iNfft : Int) (tapers : MatrixX K × VectorX K)
    (hfresh : t.vecPairCsd = [])
    (h : t.vecTapSpectra.length = C ∨ C ≤ t.matData.rows) :
    (trialAfter ext C F iNfft tapers t).matData = t.matData ∧
    HasShape C F (trialAfter ext C F iNfft tapers t).vecPairCsd ∧
    (0 < C → (trialAfter ext C F iNfft tapers t).vecTapSpectra.length = C) ∧
    IsTrialCsd (trialAfter ext C F iNfft tapers t).vecTapSpectra
      (decide (Int.tmod iNfft 2 = 0)) (denomCSD ext.sqrt tapers.2) C F C
      (trialAfter ext C F iNfft tapers t).vecPairCsd ∧
    ∀ acc : List (Nat × MatrixX (Cplx K)), acc.length ≤ C →
      ∃ acc1, compute ext t acc C F iNfft tapers =
          some (trialAfter ext C F iNfft tapers t, acc1) ∧
        mergeCsd acc (trialAfter ext C F iNfft tapers t).vecPairCsd = some acc1 := by
  by_cases hC : C = 0
  · subst hC
    have e : trialAfter ext 0 F iNfft tapers t = t := by
      simp [trialAfter, compute, hfresh]
    rw [e]
    refine ⟨rfl, ⟨by simp [hfresh], by intro k p hp; simp [hfresh] at hp⟩,
      fun h0 => absurd h0 (Nat.lt_irrefl 0),
      ⟨by simp [hfresh], by intro k hk; omega⟩, ?_⟩
    intro acc hacc
    have hnil : acc = [] := List.length_eq_zero.mp (by omega)
    subst hnil
    exact ⟨[], by simp [compute, hfresh], by simp [hfresh, mergeCsd]⟩
  · obtain ⟨S, l, ht, hS, -, -, hl⟩ := computeTrial_spec ext t C F iNfft tapers h
    have hne : ¬ t.vecPairCsd.length = C := by
      rw [hfresh]; simpa using Ne.symm hC
    have e : trialAfter ext C F iNfft tapers t =
        { t with vecTapSpectra := S, vecPairCsd := t.vecPairCsd ++ l } := by
      simp [trialAfter, compute, hne, ht, mergeCsd]
    rw [e]
    have hl0 : t.vecPairCsd ++ l = l := by rw [hfresh, List.nil_append]
    have hshape : HasShape C F (t.vecPairCsd ++ l) := by
      rw [hl0]; exact hl.hasShape
    refine ⟨rfl, hshape, fun _ => hS, by simp only [hl0]; exact hl, ?_⟩
    intro acc hacc
    obtain ⟨acc1, h1⟩ := mergeCsd_some acc (t.vecPairCsd ++ l) (by rw [hshape.1]; exact hacc)
    exact ⟨acc1, by simp [compute, hne, ht, h1], h1⟩

theorem length_le_of_shape {C F : Nat} {acc : List (Nat × MatrixX (Cplx K))}
    (h : acc = [] ∨ HasShape C F acc) : acc.length ≤ C := by
  rcases h with h | h
  · subst h; simp
  · exact Nat.le_of_eq h.1

/-- The pass over a list of trials with empty pair caches. -/
theorem mapCompute_fresh (ext : Externals K) (C F : Nat) (iNfft : Int)
    (tapers : MatrixX K × VectorX K) (ts : List (ConnectivityTrialData K)) :
    (∀ t ∈ ts, t.vecPairCsd = [] ∧ (t.vecTapSpectra.length = C ∨ C ≤ t.matData.rows)) →
    ∀ acc, (acc = [] ∨ HasShape C F acc) →
      ∃ acc1, mapCompute ext C F iNfft tapers ts acc =
          some (ts.map (trialAfter ext C F iNfft tapers), acc1) ∧
        (ts.map (fun t => (trialAfter ext C F iNfft tapers t).vecPairCsd)).foldlM
          (fun a l => mergeCsd a l) acc = some acc1 := by
  induction ts with
  | nil => intro _ acc _; exact ⟨acc, rfl, rfl⟩
  | cons t ts ih =>
    intro hts acc hacc
    obtain ⟨hfresh, hrows⟩ := hts t (List.mem_cons_self _ _)
    obtain ⟨-, hshape, -, -, hcomp⟩ := compute_fresh ext t C F iNfft tapers hfresh hrows
    obtain ⟨acc1, h1, hm1⟩ := hcomp acc (length_le_of_shape hacc)
    obtain ⟨acc1', hm1', hs1⟩ := mergeCsd_shape hacc hshape
    rw [hm1] at hm1'
    injection hm1' with hm1'
    subst hm1'
    obtain ⟨acc2, h2, hm2⟩ := ih (fun t' ht' => hts t' (List.mem_cons_of_mem _ ht')) acc1
      (Or.inr hs1)
    refine ⟨acc2, by simp [mapCompute, h1, h2], ?_⟩
    simp [List.foldlM_cons, hm1, hm2]

end Trial

end Connectivity

namespace Connectivity

section Graph

variable {K : Type} [LinearOrderedField K]

/-! ## Nodes -/

theorem createNodes_eq (pos : MatrixX K) (n : Nat) (net : Network K) :
    createNodes pos n net =
      { net with nodes := net.nodes ++ (List.range n).map (fun i => ⟨i, nodeVert pos i, []⟩) } := by
  induction n with
  | zero => simp [createNodes]
  | succ n ih =>
    unfold createNodes at ih ⊢
    rw [List.range_succ, List.foldl_append, ih]
    simp [Network.appendNode]

/-! ## Edges -/

theorem nodeAppend_spec (net : Network K) (i : Nat) (e : NetworkEdge K)
    (hi : i < net.nodes.length) :
    ∃ net1, net.nodeAppend i e = some net1 ∧ net1.nodes.length = net.nodes.length ∧
      net1.edges = net.edges := by
  simp [Network.nodeAppend, List.getElem?_eq_getElem hi]

theorem edgeStep_spec (i j : Nat) (matDenom : MatrixX (Dbl K)) (net : Network K)
    (hj : j < matDenom.rows) (hi' : i < net.nodes.length) (hj' : j < net.nodes.length) :
    ∃ net1, edgeStep i matDenom net j = some net1 ∧
      net1.nodes.length = net.nodes.length ∧
      net1.edges = net.edges ++ [⟨i, j, (matDenom.row j).transpose⟩] := by
  obtain ⟨n1, h1, hl1, he1⟩ := nodeAppend_spec net i ⟨i, j, (matDenom.row j).transpose⟩ hi'
  obtain ⟨n2, h2, hl2, he2⟩ := nodeAppend_spec n1 j ⟨i, j, (matDenom.row j).transpose⟩
    (by omega)
  refine ⟨n2.appendEdge ⟨i, j, (matDenom.row j).transpose⟩, ?_, ?_, ?_⟩
  · simp [edgeStep, MatrixX.rowAt, hj, h1, h2]
  · simp [Network.appendEdge, hl2, hl1]
  · simp [Network.appendEdge, he2, he1]

theorem dswplvStep_spec (acc : List (Nat × MatrixX (Cplx K))) (C F i : Nat)
    (hacc : HasShape C F acc) (hi : i < C) (net : Network K) (hn : net.nodes.length = C) :
    ∃ net1, dswplvStep acc C net i = some net1 ∧ net1.nodes.length = C ∧
      net1.edges = net.edges ++ (List.range' i (C - i)).map (fun j => edgeOf (sumAt acc i) i j) := by
  obtain ⟨m, hm, hr, hc⟩ := hacc.getElem? hi
  have hsum : sumAt acc i = m := by simp [sumAt, hm]
  obtain ⟨net1, h1, h2, h3⟩ := foldlM_from_inv (edgeStep i (matQuot m))
    (fun j n => n.nodes.length = C ∧
      n.edges = net.edges ++ (List.range' i (j - i)).map (fun j => edgeOf m i j))
    i C (by omega) net ⟨hn, by simp⟩
    (by
      intro j n hij hjC hP
      obtain ⟨hlen, hedges⟩ := hP
      obtain ⟨n1, hn1, hl1, he1⟩ := edgeStep_spec i j (matQuot m) n
        (by rw [matQuot_rows, hr]; exact hjC) (by omega) (by omega)
      refine ⟨n1, hn1, by omega, ?_⟩
      have e : j + 1 - i = (j - i) + 1 := by omega
      rw [he1, hedges, e, List.range'_concat]
      have e2 : i + (j - i) = j := by omega
      simp [e2, edgeOf])
  exact ⟨net1, by simp only [dswplvStep, hm, h1], h2, by rw [hsum]; exact h3⟩

theorem computeDSWPLV_spec (cs : ConnectivitySettings K) (first : ConnectivityTrialData K)
    (F : Nat) (hfirst : cs.m_dataList.head? = some first)
    (hacc : HasShape first.matData.rows F cs.data.vecPairCsdSum)
    (net : Network K) (hn : net.nodes.length = first.matData.rows) :
    ∃ net1, computeDSWPLV cs net = some net1 ∧ net1.nodes.length = first.matData.rows ∧
      net1.edges = net.edges ++ networkEdges cs.data.vecPairCsdSum first.matData.rows := by
  obtain ⟨net1, h1, h2, h3⟩ := foldlM_range_inv
    (dswplvStep cs.data.vecPairCsdSum first.matData.rows)
    (fun i n => n.nodes.length = first.matData.rows ∧
      n.edges = net.edges ++ (List.range i).flatMap (fun i =>
        (List.range' i (first.matData.rows - i)).map
          (fun j => edgeOf (sumAt cs.data.vecPairCsdSum i) i j)))
    first.matData.rows net ⟨hn, by simp⟩
    (by
      intro i n hi hP
      obtain ⟨hlen, hedges⟩ := hP
      obtain ⟨n1, hn1, hl1, he1⟩ := dswplvStep_spec cs.data.vecPairCsdSum
        first.matData.rows F i hacc hi n hlen
      refine ⟨n1, hn1, hl1, ?_⟩
      rw [he1, hedges, List.range_succ, List.flatMap_append]
      simp)
  exact ⟨net1, by simp only [computeDSWPLV, hfirst, h1], h2, h3⟩

/-! ## Counting the channel pairs -/

theorem sum_range_sub (C : Nat) :
    ∀ n, n ≤ C → 2 * ((List.range n).map (fun i => C - i)).sum + n * n = 2 * n * C + n := by
  intro n
  induction n with
  | zero => intro _; simp
  | succ n ih =>
    intro h
    have ih' := ih (by omega)
    rw [List.range_succ, List.map_append, List.sum_append]
    simp only [List.map_cons, List.map_nil, List.sum_cons, List.sum_nil, add_zero]
    have e : 2 * (C - n) = 2 * C - 2 * n := by omega
    have hle : 2 * n ≤ 2 * C := by omega
    zify [hle] at e ih' ⊢
    have hcast : ((C - n : Nat) : Int) = (C : Int) - n := by omega
    rw [hcast] at e ⊢
    nlinarith

theorem channelPairs_length (C : Nat) : (channelPairs C).length = C * (C + 1) / 2 := by
  have h := sum_range_sub C C (Nat.le_refl C)
  have e : (channelPairs C).length = ((List.range C).map (fun i => C - i)).sum := by
    simp [channelPairs, List.length_flatMap, Function.comp_def]
  rw [e]
  have h2 : 2 * ((List.range C).map (fun i => C - i)).sum = C * (C + 1) := by
    have : C * (C + 1) = C * C + C := by ring
    have : 2 * C * C = C * C + C * C := by ring
    omega
  omega

theorem networkEdges_endpoints (acc : List (Nat × MatrixX (Cplx K))) (C : Nat) :
    (networkEdges acc C).map (fun e => (e.iStartNodeID, e.iEndNodeID)) = channelPairs C := by
  simp [networkEdges, channelPairs, List.map_flatMap, edgeOf, Function.comp_def]

theorem networkEdges_length (acc : List (Nat × MatrixX (Cplx K))) (C : Nat) :
    (networkEdges acc C).length = C * (C + 1) / 2 := by
  rw [← channelPairs_length, ← networkEdges_endpoints acc C, List.length_map]

theorem networkEdges_weight (acc : List (Nat × MatrixX (Cplx K))) (C F : Nat)
    (hacc : HasShape C F acc) (e : NetworkEdge K) (he : e ∈ networkEdges acc C) :
    e.matWeight.rows = F ∧ e.matWeight.cols = 1 := by
  simp only [networkEdges, List.mem_flatMap, List.mem_range, List.mem_map,
    List.mem_range'_1] at he
  obtain ⟨i, hi, j, -, rfl⟩ := he
  obtain ⟨m, hm, -, hc⟩ := hacc.getElem? hi
  have hsum : sumAt acc i = m := by simp [sumAt, hm]
  simp [edgeOf, hsum, VectorX.transpose, MatrixX.row, matQuot_cols, hc]

end Graph

end Connectivity

namespace Connectivity

section Calculate

variable {K : Type} [LinearOrderedField K]

/-- What `calculate` does on a non-empty batch of trials with empty pair caches, starting
from an empty shared sum; `C`, `F`, `nfft` and `tapers` name the values that `calculate`
passes to `compute`. -/
theorem calculate_fresh (ext : Externals K) (cs : ConnectivitySettings K)
    (first : ConnectivityTrialData K) (rest : List (ConnectivityTrialData K))
    (C F : Nat) (nfft : Int) (tapers : MatrixX K × VectorX K)
    (hlist : cs.m_dataList = first :: rest)
    (hC : C = first.matData.rows)
    (hnfft : nfft = effectiveNfft cs.m_iNfft first.matData.cols)
    (hF : F = (numFreqs nfft).toNat)
    (htapers : tapers = ext.generateTapers first.matData.cols cs.m_sWindowType)
    (hts : ∀ t ∈ cs.m_dataList, t.vecPairCsd = [] ∧
      (t.vecTapSpectra.length = C ∨ C ≤ t.matData.rows))
    (hsum : cs.data.vecPairCsdSum = []) :
    ∃ acc1 net1,
      calculate ext cs = some (net1,
        { cs with
          m_dataList := cs.m_dataList.map (trialAfter ext C F nfft tapers),
          data := ⟨acc1⟩ }) ∧
      HasShape C F acc1 ∧
      mapCompute ext C F nfft tapers cs.m_dataList [] =
        some (cs.m_dataList.map (trialAfter ext C F nfft tapers), acc1) ∧
      net1.nodes.length = C ∧
      net1.edges = networkEdges acc1 C := by
  obtain ⟨acc1, hmap, hfold⟩ := mapCompute_fresh ext C F nfft tapers cs.m_dataList hts []
    (Or.inl rfl)
  obtain ⟨acc1', hfold', -, hshape', -⟩ := mergeAll_spec
    (cs.m_dataList.map (fun t => (trialAfter ext C F nfft tapers t).vecPairCsd))
    ([] : List (Nat × MatrixX (Cplx K))) (Or.inl rfl)
    (by
      intro l hl
      obtain ⟨t, ht, rfl⟩ := List.mem_map.mp hl
      exact (compute_fresh ext t _ _ _ _ (hts t ht).1 (hts t ht).2).2.1)
  rw [hfold] at hfold'
  injection hfold' with hfold'
  subst hfold'
  have hshape : HasShape C F acc1 := hshape' (by rw [hlist]; simp)
  have hfirst := hts first (by rw [hlist]; exact List.mem_cons_self _ _)
  have hmat := (compute_fresh ext first C F nfft tapers hfirst.1 hfirst.2).1
  have hrows : (trialAfter ext C F nfft tapers first).matData.rows = C := by rw [hmat, hC]
  obtain ⟨net1, hnet, hnodes, hedges⟩ := computeDSWPLV_spec
    ({ cs with
        m_dataList := cs.m_dataList.map (trialAfter ext C F nfft tapers),
        data := ⟨acc1⟩ } : ConnectivitySettings K)
    (trialAfter ext C F nfft tapers first) F
    (by rw [hlist]; rfl)
    (by rw [hrows]; exact hshape)
    (createNodes cs.m_matNodePositions C
      ⟨"Debiased Squared Weighted Phase Lag Index", [], []⟩)
    (by rw [createNodes_eq, hrows]; simp)
  rw [hrows] at hnodes hedges
  refine ⟨acc1, net1, ?_, hshape, hmap, hnodes, ?_⟩
  · subst hC hnfft hF htapers
    rw [hlist] at hmap hnet
    simp only [calculate, hlist, hsum, hmap, hnet]
  · rw [hedges, createNodes_eq]
    simp

end Calculate

end Connectivity

/-! # The claims -/

namespace Connectivity

section Claims

variable {K : Type} [LinearOrderedField K]

theorem numFreqs_eq_div (n : Int) : numFreqs n = n / 2 + 1 := by
  unfold numFreqs
  have := Rat.floor_intCast_div_natCast n 2
  simp only [Nat.cast_ofNat] at this
  rw [this]

theorem effectiveNfft_eq_max (m : Int) (L : Nat) : effectiveNfft m L = max m (L : Int) := by
  unfold effectiveNfft
  split <;> omega

theorem numFreqs_toNat (m : Int) (L : Nat) :
    ((numFreqs (effectiveNfft m L)).toNat : Int) = max m (L : Int) / 2 + 1 := by
  rw [numFreqs_eq_div, effectiveNfft_eq_max]
  omega

/-- With the exact square root the normalisation is half the sum of the squared weights. -/
theorem denomCSD_real (w : VectorX ℝ) :
    denomCSD Real.sqrt w = sumTo w.size (fun k => w.coeff k * w.coeff k) / 2 := by
  have h0 : 0 ≤ sumTo w.size (fun k => w.coeff k * w.coeff k) :=
    sumTo_nonneg _ _ (fun k => mul_self_nonneg _)
  simp only [denomCSD, VectorX.sum, VectorX.cwiseAbs2]
  rw [Real.mul_self_sqrt h0]

/-- The shared sum after the pass over trials with empty pair caches: it has the shape of
the batch (unless the batch is empty) and each of its coefficients is the sum of the
trials' coefficients. -/
theorem mapCompute_sum (ext : Externals K) (C F : Nat) (iNfft : Int)
    (tapers : MatrixX K × VectorX K) (ts : List (ConnectivityTrialData K))
    (hts : ∀ t ∈ ts, t.vecPairCsd = [] ∧ (t.vecTapSpectra.length = C ∨ C ≤ t.matData.rows)) :
    ∃ acc1, mapCompute ext C F iNfft tapers ts [] =
        some (ts.map (trialAfter ext C F iNfft tapers), acc1) ∧
      (ts = [] → acc1 = []) ∧ (ts ≠ [] → HasShape C F acc1) ∧
      ∀ k r c, coeffAt acc1 k r c =
        (ts.map (fun t => coeffAt (trialAfter ext C F iNfft tapers t).vecPairCsd k r c)).sum := by
  obtain ⟨acc1, hmap, hfold⟩ := mapCompute_fresh ext C F iNfft tapers ts hts [] (Or.inl rfl)
  obtain ⟨acc1', hfold', -, hshape, hcoeff⟩ := mergeAll_spec
    (ts.map (fun t => (trialAfter ext C F iNfft tapers t).vecPairCsd))
    ([] : List (Nat × MatrixX (Cplx K))) (Or.inl rfl)
    (by
      intro l hl
      obtain ⟨t, ht, rfl⟩ := List.mem_map.mp hl
      exact (compute_fresh ext t _ _ _ _ (hts t ht).1 (hts t ht).2).2.1)
  rw [hfold] at hfold'
  injection hfold' with hfold'
  subst hfold'
  refine ⟨acc1, hmap, ?_, ?_, ?_⟩
  · intro h
    subst h
    simpa using hfold.symm
  · intro h
    exact hshape (by simpa using h)
  · intro k r c
    rw [hcoeff k r c, coeffAt_nil, zero_add, List.map_map]
    rfl

/-- C1: for a non-empty batch of trials that all have the channel count `C` of the first
trial and empty pair caches, with the shared sum empty on entry, `calculate` returns a
network with exactly `C` nodes and `C * (C + 1) / 2` edges. -/
theorem calculate_node_edge_count (ext : Externals K) (cs : ConnectivitySettings K)
    (first : ConnectivityTrialData K) (rest : List (ConnectivityTrialData K))
    (hlist : cs.m_dataList = first :: rest)
    (hrows : ∀ t ∈ cs.m_dataList, t.matData.rows = first.matData.rows)
    (hfresh : ∀ t ∈ cs.m_dataList, t.vecPairCsd = [])
    (hsum : cs.data.vecPairCsdSum = []) :
    ∃ net cs1, calculate ext cs = some (net, cs1) ∧
      net.nodes.length = first.matData.rows ∧
      net.edges.length = first.matData.rows * (first.matData.rows + 1) / 2 := by
  obtain ⟨acc1, net1, hcalc, -, -, hnodes, hedges⟩ := calculate_fresh ext cs first rest
    first.matData.rows _ _ _ hlist rfl rfl rfl rfl
    (fun t ht => ⟨hfresh t ht, Or.inr (Nat.le_of_eq (hrows t ht).symm)⟩) hsum
  exact ⟨net1, _, hcalc, hnodes, by rw [hedges, networkEdges_length]⟩

/-- C1 at the two example trials of 3 channels: 3 nodes and 6 edges. -/
theorem calculate_node_edge_count_witness :
    exampleSettings.m_dataList = exampleTrial 1 :: [exampleTrial 2] ∧
    (∀ t ∈ exampleSettings.m_dataList, t.matData.rows = (exampleTrial 1).matData.rows) ∧
    (∀ t ∈ exampleSettings.m_dataList, t.vecPairCsd = []) ∧
    exampleSettings.data.vecPairCsdSum = [] ∧
    ∃ net cs1, calculate exampleExternals exampleSettings = some (net, cs1) ∧
      net.nodes.length = 3 ∧ net.edges.length = 6 :=
  have h1 : ∀ t ∈ exampleSettings.m_dataList,
      t.matData.rows = (exampleTrial 1).matData.rows := by
    simp [exampleSettings, exampleTrial]
  have h2 : ∀ t ∈ exampleSettings.m_dataList, t.vecPairCsd = [] := by
    simp [exampleSettings, exampleTrial]
  ⟨rfl, h1, h2, rfl,
    calculate_node_edge_count exampleExternals exampleSettings (exampleTrial 1)
      [exampleTrial 2] rfl h1 h2 rfl⟩

/-- C2: with an empty trial list `calculate` returns, without failing, the network with no
nodes and no edges, and the settings object, in particular the shared sum
`data.vecPairCsdSum`, is left as it was. -/
theorem calculate_empty (ext : Externals K) (cs : ConnectivitySettings K)
    (h : cs.m_dataList = []) :
    ∃ net, calculate ext cs = some (net, cs) ∧ net.nodes = [] ∧ net.edges = [] := by
  refine ⟨⟨"Debiased Squared Weighted Phase Lag Index", [], []⟩, ?_, rfl, rfl⟩
  simp [calculate, h]

/-- C2 at the example settings without trials. -/
theorem calculate_empty_witness :
    exampleEmptySettings.m_dataList = [] ∧
    ∃ net, calculate exampleExternals exampleEmptySettings = some (net, exampleEmptySettings) ∧
      net.nodes = [] ∧ net.edges = [] :=
  ⟨rfl, calculate_empty exampleExternals exampleEmptySettings rfl⟩

/-- C3: for a non-empty batch of trials with the channel count `C` of the first trial and
empty pair caches, with the shared sum empty on entry, `calculate` returns a network with
`C` nodes whose edges are the pairs `(i, j)`, `i ≤ j < C`, in lexicographic order, and every
edge carries a weight vector (one column) of length `floor(T / 2) + 1`, where `T` is the
larger of the configured transform length and the signal length. -/
theorem calculate_weight_length (ext : Externals K) (cs : ConnectivitySettings K)
    (first : ConnectivityTrialData K) (rest : List (ConnectivityTrialData K))
    (hlist : cs.m_dataList = first :: rest)
    (hrows : ∀ t ∈ cs.m_dataList, t.matData.rows = first.matData.rows)
    (hfresh : ∀ t ∈ cs.m_dataList, t.vecPairCsd = [])
    (hsum : cs.data.vecPairCsdSum = []) :
    ∃ net cs1, calculate ext cs = some (net, cs1) ∧
      net.nodes.length = first.matData.rows ∧
      net.edges.map (fun e => (e.iStartNodeID, e.iEndNodeID)) =
        channelPairs first.matData.rows ∧
      ∀ e ∈ net.edges,
        (e.matWeight.rows : Int) = max cs.m_iNfft (first.matData.cols : Int) / 2 + 1 ∧
        e.matWeight.cols = 1 := by
  obtain ⟨acc1, net1, hcalc, hshape, -, hnodes, hedges⟩ := calculate_fresh ext cs first rest
    first.matData.rows _ _ _ hlist rfl rfl rfl rfl
    (fun t ht => ⟨hfresh t ht, Or.inr (Nat.le_of_eq (hrows t ht).symm)⟩) hsum
  refine ⟨net1, _, hcalc, hnodes, by rw [hedges, networkEdges_endpoints], ?_⟩
  intro e he
  rw [hedges] at he
  obtain ⟨h1, h2⟩ := networkEdges_weight acc1 _ _ hshape e he
  exact ⟨by rw [h1, numFreqs_toNat], h2⟩

/-- C3 at the concrete scenario: 2 trials of 3 channels and 4 samples, transform length 4,
give 3 nodes, the 6 edges (0,0), (0,1), (0,2), (1,1), (1,2), (2,2) and weight vectors of
length 3. -/
theorem calculate_weight_length_witness :
    exampleSettings.m_dataList = exampleTrial 1 :: [exampleTrial 2] ∧
    (∀ t ∈ exampleSettings.m_dataList, t.matData.rows = (exampleTrial 1).matData.rows) ∧
    (∀ t ∈ exampleSettings.m_dataList, t.vecPairCsd = []) ∧
    exampleSettings.data.vecPairCsdSum = [] ∧
    ∃ net cs1, calculate exampleExternals exampleSettings = some (net, cs1) ∧
      net.nodes.length = 3 ∧
      net.edges.map (fun e => (e.iStartNodeID, e.iEndNodeID)) =
        [(0, 0), (0, 1), (0, 2), (1, 1), (1, 2), (2, 2)] ∧
      ∀ e ∈ net.edges, (e.matWeight.rows : Int) = 3 ∧ e.matWeight.cols = 1 :=
  have h1 : ∀ t ∈ exampleSettings.m_dataList,
      t.matData.rows = (exampleTrial 1).matData.rows := by
    simp [exampleSettings, exampleTrial]
  have h2 : ∀ t ∈ exampleSettings.m_dataList, t.vecPairCsd = [] := by
    simp [exampleSettings, exampleTrial]
  ⟨rfl, h1, h2, rfl,
    calculate_weight_length exampleExternals exampleSettings (exampleTrial 1)
      [exampleTrial 2] rfl h1 h2 rfl⟩

/-- C4: starting from an empty shared sum, running `compute` over a list of trials with
empty caches and the same channel count, and over any permutation of that list, succeeds
both times and leaves the same accumulated sum. -/
theorem merge_order_invariant (ext : Externals K) (C F : Nat) (iNfft : Int)
    (tapers : MatrixX K × VectorX K) (ts ts' : List (ConnectivityTrialData K))
    (hperm : ts.Perm ts')
    (hfresh : ∀ t ∈ ts, t.vecPairCsd = [])
    (hrows : ∀ t ∈ ts, t.matData.rows = C) :
    ∃ r r', mapCompute ext C F iNfft tapers ts [] = some r ∧
      mapCompute ext C F iNfft tapers ts' [] = some r' ∧ r.2 = r'.2 := by
  have hts : ∀ t ∈ ts, t.vecPairCsd = [] ∧
      (t.vecTapSpectra.length = C ∨ C ≤ t.matData.rows) :=
    fun t ht => ⟨hfresh t ht, Or.inr (Nat.le_of_eq (hrows t ht).symm)⟩
  have hts' : ∀ t ∈ ts', t.vecPairCsd = [] ∧
      (t.vecTapSpectra.length = C ∨ C ≤ t.matData.rows) :=
    fun t ht => hts t (hperm.mem_iff.mpr ht)
  obtain ⟨acc, h, hnil, hshape, hcoeff⟩ := mapCompute_sum ext C F iNfft tapers ts hts
  obtain ⟨acc', h', hnil', hshape', hcoeff'⟩ := mapCompute_sum ext C F iNfft tapers ts' hts'
  refine ⟨_, _, h, h', ?_⟩
  show acc = acc'
  by_cases hemp : ts = []
  · have hemp' : ts' = [] := by
      subst hemp
      exact List.Perm.eq_nil (List.Perm.symm hperm)
    rw [hnil hemp, hnil' hemp']
  · have hemp' : ts' ≠ [] := by
      intro h0
      subst h0
      exact hemp (List.Perm.eq_nil hperm)
    apply (hshape hemp).ext (hshape' hemp')
    intro k r c
    rw [hcoeff, hcoeff']
    exact List.Perm.sum_eq (List.Perm.map _ hperm)

/-- C4 at the two example trials, run in both orders. -/
theorem merge_order_invariant_witness :
    [exampleTrial 1, exampleTrial 2].Perm [exampleTrial 2, exampleTrial 1] ∧
    (∀ t ∈ [exampleTrial 1, exampleTrial 2], t.vecPairCsd = []) ∧
    (∀ t ∈ [exampleTrial 1, exampleTrial 2], t.matData.rows = 3) ∧
    ∃ r r', mapCompute exampleExternals 3 3 4 (exampleExternals.generateTapers 4 "rectangular")
        [exampleTrial 1, exampleTrial 2] [] = some r ∧
      mapCompute exampleExternals 3 3 4 (exampleExternals.generateTapers 4 "rectangular")
        [exampleTrial 2, exampleTrial 1] [] = some r' ∧ r.2 = r'.2 :=
  have h1 : ∀ t ∈ [exampleTrial 1, exampleTrial 2], t.vecPairCsd = [] := by
    simp [exampleTrial]
  have h2 : ∀ t ∈ [exampleTrial 1, exampleTrial 2], t.matData.rows = 3 := by
    simp [exampleTrial]
  ⟨List.Perm.swap _ _ _, h1, h2,
    merge_order_invariant exampleExternals 3 3 4
      (exampleExternals.generateTapers 4 "rectangular") _ _ (List.Perm.swap _ _ _) h1 h2⟩

/-- C5: on a trial whose pair cache already has `iNRows` entries `compute` returns the
trial (both caches) and the shared sum unchanged; and after one run on a trial with an
empty pair cache a second run changes nothing. -/
theorem compute_idempotent (ext : Externals K) (iNRows iNFreqs : Nat) (iNfft : Int)
    (tapers : MatrixX K × VectorX K)
    (t : ConnectivityTrialData K) (acc : List (Nat × MatrixX (Cplx K)))
    (hfull : t.vecPairCsd.length = iNRows)
    (t0 : ConnectivityTrialData K) (acc0 : List (Nat × MatrixX (Cplx K)))
    (hfresh : t0.vecPairCsd = []) (hrows : iNRows ≤ t0.matData.rows)
    (hacc0 : acc0.length ≤ iNRows) :
    compute ext t acc iNRows iNFreqs iNfft tapers = some (t, acc) ∧
    ∃ t1 acc1, compute ext t0 acc0 iNRows iNFreqs iNfft tapers = some (t1, acc1) ∧
      compute ext t1 acc1 iNRows iNFreqs iNfft tapers = some (t1, acc1) := by
  constructor
  · simp [compute, hfull]
  · obtain ⟨-, hshape, -, -, hcomp⟩ :=
      compute_fresh ext t0 iNRows iNFreqs iNfft tapers hfresh (Or.inr hrows)
    obtain ⟨acc1, h1, -⟩ := hcomp acc0 hacc0
    refine ⟨_, acc1, h1, ?_⟩
    simp [compute, hshape.1]

/-- C5 at the example trials: a pair cache of 3 entries for 3 channels, and a fresh trial
run twice. -/
theorem compute_idempotent_witness :
    exampleFullTrial.vecPairCsd.length = 3 ∧
    (exampleTrial 2).vecPairCsd = [] ∧ 3 ≤ (exampleTrial 2).matData.rows ∧
    ([] : List (Nat × MatrixX (Cplx ℚ))).length ≤ 3 ∧
    (compute exampleExternals exampleFullTrial [] 3 3 4
        (exampleExternals.generateTapers 4 "rectangular") = some (exampleFullTrial, []) ∧
    ∃ t1 acc1, compute exampleExternals (exampleTrial 2) [] 3 3 4
        (exampleExternals.generateTapers 4 "rectangular") = some (t1, acc1) ∧
      compute exampleExternals t1 acc1 3 3 4
        (exampleExternals.generateTapers 4 "rectangular") = some (t1, acc1)) :=
  ⟨rfl, rfl, Nat.le_refl 3, Nat.zero_le 3,
    compute_idempotent exampleExternals 3 3 4
      (exampleExternals.generateTapers 4 "rectangular") exampleFullTrial [] rfl
      (exampleTrial 2) [] rfl (Nat.le_refl 3) (Nat.zero_le 3)⟩

/-- C6: wherever the denominator of `computeDSWPLV` is exactly zero it is replaced by
positive infinity before the division and the weight is the finite value zero; and no entry
of the substituted denominator is zero, so no division by zero takes place. -/
theorem zero_denominator_safe (csd : MatrixX (Cplx K)) (r c : Nat)
    (h : (matDenomRaw csd).coeff r c = 0) :
    (matDenomSel csd).coeff r c = Dbl.pinf ∧ (matQuot csd).coeff r c = Dbl.fin 0 ∧
    ∀ r1 c1, (matDenomSel csd).coeff r1 c1 ≠ Dbl.fin 0 := by
  have hlt : (csd.coeff r c).im * (csd.coeff r c).im < Dbl.overflowBound := by
    by_contra hlt
    rw [matDenomRaw_coeff, if_neg hlt] at h
    exact Dbl.nan_ne_zero h
  refine ⟨?_, ?_, ?_⟩
  · rw [matDenomSel_coeff, if_pos hlt]
  · rw [matQuot_coeff, if_pos hlt]
    rfl
  · intro r1 c1
    exact selectInf_ne_zero _ r1 c1

/-- C6 at the one-entry summed density `1 + 2i`. -/
theorem zero_denominator_safe_witness :
    (matDenomRaw exampleCsd).coeff 0 0 = 0 ∧
    (matDenomSel exampleCsd).coeff 0 0 = Dbl.pinf ∧
    (matQuot exampleCsd).coeff 0 0 = Dbl.fin 0 ∧
    ∀ r1 c1, (matDenomSel exampleCsd).coeff r1 c1 ≠ Dbl.fin 0 :=
  have h : (matDenomRaw exampleCsd).coeff 0 0 = 0 := by
    rw [matDenomRaw_coeff, if_pos (by norm_num [exampleCsd, Dbl.overflowBound])]
  ⟨h, zero_denominator_safe exampleCsd 0 0 h⟩

/-- C7 (as amended): for every summed cross-spectral density with finite entries, at every
channel pair and frequency bin where the square of the imaginary part does not overflow the
binary64 range, the numerator of `computeDSWPLV`, that square minus itself, is zero. -/
theorem numerator_zero (csd : MatrixX (Cplx K)) (r c : Nat)
    (h : (csd.coeff r c).im * (csd.coeff r c).im < Dbl.overflowBound) :
    (matNom csd).coeff r c =
      Dbl.sub (Dbl.mul (Dbl.fin (csd.coeff r c).im) (Dbl.fin (csd.coeff r c).im))
        (Dbl.mul (Dbl.fin (csd.coeff r c).im) (Dbl.fin (csd.coeff r c).im)) ∧
    (matNom csd).coeff r c = 0 :=
  ⟨rfl, by rw [matNom_coeff, if_pos h]⟩

/-- C7 (as amended) at the one-entry summed density `1 + 2i`. -/
theorem numerator_zero_witness :
    (exampleCsd.coeff 0 0).im * (exampleCsd.coeff 0 0).im < Dbl.overflowBound ∧
    (matNom exampleCsd).coeff 0 0 =
      Dbl.sub (Dbl.mul (Dbl.fin (exampleCsd.coeff 0 0).im) (Dbl.fin (exampleCsd.coeff 0 0).im))
        (Dbl.mul (Dbl.fin (exampleCsd.coeff 0 0).im) (Dbl.fin (exampleCsd.coeff 0 0).im)) ∧
    (matNom exampleCsd).coeff 0 0 = 0 :=
  have h : (exampleCsd.coeff 0 0).im * (exampleCsd.coeff 0 0).im < Dbl.overflowBound := by
    norm_num [exampleCsd, Dbl.overflowBound]
  ⟨h, numerator_zero exampleCsd 0 0 h⟩

/-- C7 (as stated, refuted): for the one-entry summed density `1 + 2^600 i` the square of
the imaginary part overflows to positive infinity, and the numerator, infinity minus
infinity, is NaN and not zero. -/
theorem numerator_zero_counter :
    (exampleHugeCsd.coeff 0 0).im = 2 ^ 600 ∧
    Dbl.mul (Dbl.fin (exampleHugeCsd.coeff 0 0).im) (Dbl.fin (exampleHugeCsd.coeff 0 0).im) =
      Dbl.pinf ∧
    (matNom exampleHugeCsd).coeff 0 0 = Dbl.nan ∧
    (matNom exampleHugeCsd).coeff 0 0 ≠ 0 := by
  have hov : ¬ (exampleHugeCsd.coeff 0 0).im * (exampleHugeCsd.coeff 0 0).im <
      Dbl.overflowBound := by
    norm_num [exampleHugeCsd, Dbl.overflowBound]
  have hn : (matNom exampleHugeCsd).coeff 0 0 = Dbl.nan := by
    rw [matNom_coeff, if_neg hov]
  refine ⟨rfl, ?_, hn, ?_⟩
  · rw [Dbl.mul_self, if_neg hov]
  · rw [hn]
    exact Dbl.nan_ne_zero

/-- C8: the transform length used by `calculate` is the larger of the configured length and
the signal length (the configured length when that is at least the signal length, the signal
length otherwise), and the number of frequency bins is half of it, rounded down, plus
one. -/
theorem effective_transform_length (m : Int) (L : Nat) :
    effectiveNfft m L = max m (L : Int) ∧
    effectiveNfft m L = (if (L : Int) ≤ m then m else (L : Int)) ∧
    numFreqs (effectiveNfft m L) = effectiveNfft m L / 2 + 1 ∧
    ((numFreqs (effectiveNfft m L)).toNat : Int) = max m (L : Int) / 2 + 1 := by
  refine ⟨effectiveNfft_eq_max m L, ?_, numFreqs_eq_div _, numFreqs_toNat m L⟩
  unfold effectiveNfft
  split <;> split <;> omega

/-- C9 (as amended): for every square-root routine and every taper weight vector `w`, the
normalisation `denomCSD` is `sqrt(S) * sqrt(S) / 2` with `S` the sum of the squared
weights; whenever the square root is exact at `S`, that is `sqrt(S) * sqrt(S) = S`, it is
`S / 2`, half the sum of the squared weights. -/
theorem denomCSD_eq (sqrt : K → K) (w : VectorX K)
    (hexact : sqrt (sumTo w.size (fun k => w.coeff k ^ 2)) *
      sqrt (sumTo w.size (fun k => w.coeff k ^ 2)) = sumTo w.size (fun k => w.coeff k ^ 2)) :
    denomCSD sqrt w = sqrt (sumTo w.size (fun k => w.coeff k ^ 2)) *
      sqrt (sumTo w.size (fun k => w.coeff k ^ 2)) / 2 ∧
    denomCSD sqrt w = sumTo w.size (fun k => w.coeff k ^ 2) / 2 := by
  have e : (fun k => w.coeff k * w.coeff k) = (fun k => w.coeff k ^ 2) := by
    funext k; ring
  have h : denomCSD sqrt w = sqrt (sumTo w.size (fun k => w.coeff k ^ 2)) *
      sqrt (sumTo w.size (fun k => w.coeff k ^ 2)) / 2 := by
    simp only [denomCSD, VectorX.sum, VectorX.cwiseAbs2, e]
  exact ⟨h, by rw [h, hexact]⟩

/-- C9 (as amended) with the real square root at the two taper weights 1 and 1, where the
sum of the squared weights is 2. -/
theorem denomCSD_eq_witness :
    Real.sqrt (sumTo 2 (fun _ => (1 : ℝ) ^ 2)) * Real.sqrt (sumTo 2 (fun _ => (1 : ℝ) ^ 2)) =
      sumTo 2 (fun _ => (1 : ℝ) ^ 2) ∧
    denomCSD Real.sqrt ⟨2, fun _ => 1⟩ =
      Real.sqrt (sumTo 2 (fun _ => (1 : ℝ) ^ 2)) *
        Real.sqrt (sumTo 2 (fun _ => (1 : ℝ) ^ 2)) / 2 ∧
    denomCSD Real.sqrt ⟨2, fun _ => 1⟩ = sumTo 2 (fun _ => (1 : ℝ) ^ 2) / 2 :=
  have h : Real.sqrt (sumTo 2 (fun _ => (1 : ℝ) ^ 2)) *
      Real.sqrt (sumTo 2 (fun _ => (1 : ℝ) ^ 2)) = sumTo 2 (fun _ => (1 : ℝ) ^ 2) :=
    Real.mul_self_sqrt (by norm_num [sumTo])
  ⟨h, denomCSD_eq Real.sqrt ⟨2, fun _ => 1⟩ h⟩

/-- C9 (as stated, refuted): for the single taper weight 2 the normalisation computed by the
code is 2, while the square of the sum of the squared weights, halved, is 8. -/
theorem denomCSD_not_squared :
    denomCSD Real.sqrt ⟨1, fun _ => 2⟩ = 2 ∧
    (sumTo 1 (fun _ => (2 : ℝ) ^ 2)) ^ 2 / 2 = 8 ∧
    denomCSD Real.sqrt ⟨1, fun _ => 2⟩ ≠ (sumTo 1 (fun _ => (2 : ℝ) ^ 2)) ^ 2 / 2 := by
  have h : denomCSD Real.sqrt ⟨1, fun _ => 2⟩ = 2 := by
    rw [denomCSD_real]
    norm_num [sumTo]
  refine ⟨h, ?_, ?_⟩
  · norm_num [sumTo]
  · rw [h]; norm_num [sumTo]

/-- C10: for a trial with an empty pair cache and a channel pair `i ≤ j < iNRows`, row `j`
of the `i`-th entry that `compute` appends to the pair cache holds, at every frequency bin
`f` that is not halved (not bin 0, and not the last bin when the transform length is even),
the sum over the tapers `k` of `S_i[k][f] * conj(S_j[k][f])` divided by `denomCSD`, where
`S_c` is the tapered spectrum of channel `c` in the trial's spectra cache. -/
theorem compute_csd_entry (ext : Externals K) (iNRows iNFreqs : Nat) (iNfft : Int)
    (tapers : MatrixX K × VectorX K)
    (t : ConnectivityTrialData K) (acc : List (Nat × MatrixX (Cplx K)))
    (hfresh : t.vecPairCsd = []) (hrows : iNRows ≤ t.matData.rows)
    (hacc : acc.length ≤ iNRows)
    (i j f : Nat) (hij : i ≤ j) (hj : j < iNRows) (hf0 : f ≠ 0)
    (hlast : ¬ (Int.tmod iNfft 2 = 0 ∧ f = iNFreqs - 1)) :
    ∃ t1 acc1 Si Sj m, compute ext t acc iNRows iNFreqs iNfft tapers = some (t1, acc1) ∧
      t1.vecTapSpectra[i]? = some Si ∧ t1.vecTapSpectra[j]? = some Sj ∧
      t1.vecPairCsd[i]? = some (i, m) ∧
      m.coeff j f =
        (∑ k in Finset.range Si.rows, Si.coeff k f * (Sj.coeff k f).conj).divReal
          (denomCSD ext.sqrt tapers.2) := by
  obtain ⟨-, -, hlen, hcsd, hcomp⟩ :=
    compute_fresh ext t iNRows iNFreqs iNfft tapers hfresh (Or.inr hrows)
  obtain ⟨acc1, h1, -⟩ := hcomp acc hacc
  have hlen' := hlen (by omega)
  have hi' : i < (trialAfter ext iNRows iNFreqs iNfft tapers t).vecTapSpectra.length := by
    omega
  have hj' : j < (trialAfter ext iNRows iNFreqs iNfft tapers t).vecTapSpectra.length := by
    omega
  obtain ⟨m, hm, -, -, hdone⟩ := hcsd.2 i (by omega)
  refine ⟨_, acc1, _, _, m, h1, List.getElem?_eq_getElem hi', List.getElem?_eq_getElem hj',
    hm, ?_⟩
  rw [hdone j f _ _ hij hj (List.getElem?_eq_getElem hi') (List.getElem?_eq_getElem hj')]
  have hl : ¬ ((decide (Int.tmod iNfft 2 = 0) = true) ∧ f = iNFreqs - 1) := by
    simpa using hlast
  simp only [csdEntry, hf0, if_false, hl, csdRow, VectorX.divReal, MatrixX.colwiseSum,
    MatrixX.cwiseProduct, MatrixX.conjugate, sumTo_eq_sum_range]

/-- C10 at the first example trial: channels 0 and 1, frequency bin 1 of 3 (transform
length 4). -/
theorem compute_csd_entry_witness :
    (exampleTrial 1).vecPairCsd = [] ∧ 3 ≤ (exampleTrial 1).matData.rows ∧
    ([] : List (Nat × MatrixX (Cplx ℚ))).length ≤ 3 ∧ 0 ≤ 1 ∧ 1 < 3 ∧ 1 ≠ 0 ∧
    ¬ (Int.tmod 4 2 = 0 ∧ 1 = 3 - 1) ∧
    ∃ t1 acc1 Si Sj m, compute exampleExternals (exampleTrial 1) [] 3 3 4
        (exampleExternals.generateTapers 4 "rectangular") = some (t1, acc1) ∧
      t1.vecTapSpectra[0]? = some Si ∧ t1.vecTapSpectra[1]? = some Sj ∧
      t1.vecPairCsd[0]? = some (0, m) ∧
      m.coeff 1 1 =
        (∑ k in Finset.range Si.rows, Si.coeff k 1 * (Sj.coeff k 1).conj).divReal
          (denomCSD exampleExternals.sqrt (exampleExternals.generateTapers 4 "rectangular").2) :=
  ⟨rfl, Nat.le_refl 3, Nat.zero_le 3, Nat.zero_le 1, by decide, by decide, by decide,
    compute_csd_entry exampleExternals 3 3 4
      (exampleExternals.generateTapers 4 "rectangular") (exampleTrial 1) [] rfl
      (Nat.le_refl 3) (Nat.zero_le 3) 0 1 1 (Nat.zero_le 1) (by decide) (by decide)
      (by decide)⟩

end Claims

end Connectivity

/-! # Nodes, edges and their registration -/

namespace Connectivity

section Registration

variable {K : Type} [LinearOrderedField K]

theorem addEdges_nil (n : NetworkNode K) : addEdges n [] = n := by
  cases n; simp [addEdges]

theorem addEdges_addEdges (n : NetworkNode K) (a b : List (NetworkEdge K)) :
    addEdges (addEdges n a) b = addEdges n (a ++ b) := by
  simp [addEdges]

theorem incident_nil (k : Nat) : incident k ([] : List (NetworkEdge K)) = [] := rfl

theorem incident_append (k : Nat) (a b : List (NetworkEdge K)) :
    incident k (a ++ b) = incident k a ++ incident k b := by
  simp [incident]

theorem incident_singleton (k : Nat) (e : NetworkEdge K) : incident k [e] = touch k e := by
  simp [incident]

theorem Extends.refl (net : Network K) : Extends net net [] := by
  refine ⟨rfl, by simp, ?_⟩
  intro k
  cases h : net.nodes[k]? with
  | none => rfl
  | some n => simp [incident_nil, addEdges_nil]

theorem Extends.trans {a b c : Network K} {es es' : List (NetworkEdge K)}
    (h1 : Extends a b es) (h2 : Extends b c es') : Extends a c (es ++ es') := by
  refine ⟨by rw [h2.1, h1.1], by rw [h2.2.1, h1.2.1, List.append_assoc], ?_⟩
  intro k
  rw [h2.2.2 k, h1.2.2 k]
  cases h : a.nodes[k]? with
  | none => rfl
  | some n => simp [addEdges_addEdges, incident_append]

theorem nodeAppend_nodes (net : Network K) (i : Nat) (e : NetworkEdge K)
    (hi : i < net.nodes.length) :
    ∃ net1, net.nodeAppend i e = some net1 ∧ net1.nodes.length = net.nodes.length ∧
      net1.edges = net.edges ∧
      ∀ k : Nat, net1.nodes[k]? =
        (net.nodes[k]?).map (fun n0 => if i = k then addEdges n0 [e] else n0) := by
  refine ⟨{ net with nodes := net.nodes.set i (addEdges net.nodes[i] [e]) }, ?_, ?_, rfl, ?_⟩
  · simp [Network.nodeAppend, List.getElem?_eq_getElem hi, addEdges]
  · simp
  · intro k
    by_cases hk : i = k
    · subst hk
      simp [List.getElem?_set_self hi, List.getElem?_eq_getElem hi]
    · simp only [List.getElem?_set_ne hk, hk, if_false]
      cases net.nodes[k]? <;> rfl

/-- One pass of the edge loop body: the new edge is appended to the network and registered
on node `i` and on node `j`. -/
theorem edgeStep_extends (i j : Nat) (matDenom : MatrixX (Dbl K)) (net : Network K)
    (hj : j < matDenom.rows) (hi' : i < net.nodes.length) (hj' : j < net.nodes.length) :
    ∃ net1, edgeStep i matDenom net j = some net1 ∧
      Extends net net1 [⟨i, j, (matDenom.row j).transpose⟩] := by
  obtain ⟨n1, h1, hl1, he1, hn1⟩ :=
    nodeAppend_nodes net i ⟨i, j, (matDenom.row j).transpose⟩ hi'
  obtain ⟨n2, h2, hl2, he2, hn2⟩ :=
    nodeAppend_nodes n1 j ⟨i, j, (matDenom.row j).transpose⟩ (by omega)
  refine ⟨n2.appendEdge ⟨i, j, (matDenom.row j).transpose⟩, ?_, ?_, ?_, ?_⟩
  · simp [edgeStep, MatrixX.rowAt, hj, h1, h2]
  · simp [Network.appendEdge, hl2, hl1]
  · simp [Network.appendEdge, he2, he1]
  · intro k
    show n2.nodes[k]? = _
    rw [hn2 k, hn1 k]
    cases net.nodes[k]? with
    | none => rfl
    | some n =>
      by_cases h1 : i = k <;> by_cases h2 : j = k <;>
        simp [incident_singleton, touch, h1, h2, addEdges_addEdges, addEdges_nil]

theorem dswplvStep_extends (acc : List (Nat × MatrixX (Cplx K))) (C F i : Nat)
    (hacc : HasShape C F acc) (hi : i < C) (net : Network K) (hn : net.nodes.length = C) :
    ∃ net1, dswplvStep acc C net i = some net1 ∧
      Extends net net1 ((List.range' i (C - i)).map (fun j => edgeOf (sumAt acc i) i j)) := by
  obtain ⟨m, hm, hr, hc⟩ := hacc.getElem? hi
  have hsum : sumAt acc i = m := by simp [sumAt, hm]
  obtain ⟨net1, h1, h2⟩ := foldlM_from_inv (edgeStep i (matQuot m))
    (fun j n => Extends net n ((List.range' i (j - i)).map (fun j => edgeOf m i j)))
    i C (by omega) net (by simpa using Extends.refl net)
    (by
      intro j n hij hjC hP
      obtain ⟨n1, hn1, hext⟩ := edgeStep_extends i j (matQuot m) n
        (by rw [matQuot_rows, hr]; exact hjC) (by rw [hP.1]; omega) (by rw [hP.1]; omega)
      refine ⟨n1, hn1, ?_⟩
      have e : j + 1 - i = (j - i) + 1 := by omega
      have e2 : i + (j - i) = j := by omega
      have := hP.trans hext
      show Extends net n1 ((List.range' i (j + 1 - i)).map (fun j => edgeOf m i j))
      rw [e, List.range'_concat]
      simpa [e2, edgeOf] using this)
  exact ⟨net1, by simp only [dswplvStep, hm, h1], by rw [hsum]; exact h2⟩

/-- The finalizer on a shared sum of the right shape: it succeeds, appends the edges
`networkEdges` and registers each of them on its two end nodes. -/
theorem computeDSWPLV_extends (cs : ConnectivitySettings K) (first : ConnectivityTrialData K)
    (F : Nat) (hfirst : cs.m_dataList.head? = some first)
    (hacc : HasShape first.matData.rows F cs.data.vecPairCsdSum)
    (net : Network K) (hn : net.nodes.length = first.matData.rows) :
    ∃ net1, computeDSWPLV cs net = some net1 ∧
      Extends net net1 (networkEdges cs.data.vecPairCsdSum first.matData.rows) := by
  obtain ⟨net1, h1, h2⟩ := foldlM_range_inv
    (dswplvStep cs.data.vecPairCsdSum first.matData.rows)
    (fun i n => Extends net n ((List.range i).flatMap (fun i =>
        (List.range' i (first.matData.rows - i)).map
          (fun j => edgeOf (sumAt cs.data.vecPairCsdSum i) i j))))
    first.matData.rows net (by simpa using Extends.refl net)
    (by
      intro i n hi hP
      obtain ⟨n1, hn1, hext⟩ := dswplvStep_extends cs.data.vecPairCsdSum
        first.matData.rows F i hacc hi n (by rw [hP.1]; exact hn)
      refine ⟨n1, hn1, ?_⟩
      have := hP.trans hext
      show Extends net n1 ((List.range (i + 1)).flatMap (fun i =>
        (List.range' i (first.matData.rows - i)).map
          (fun j => edgeOf (sumAt cs.data.vecPairCsdSum i) i j)))
      rw [List.range_succ, List.flatMap_append]
      simpa using this)
  exact ⟨net1, by simp only [computeDSWPLV, hfirst, h1], h2⟩

end Registration

end Connectivity

namespace Connectivity

section Pairs

variable {K : Type} [LinearOrderedField K]

/-! ## The channel pairs -/

theorem channelPairs_mem (C : Nat) (p : Nat × Nat) :
    p ∈ channelPairs C ↔ p.1 ≤ p.2 ∧ p.2 < C := by
  obtain ⟨i, j⟩ := p
  simp only [channelPairs, List.mem_flatMap, List.mem_range, List.mem_map, List.mem_range'_1,
    Prod.mk.injEq]
  constructor
  · rintro ⟨a, ha, b, ⟨hab, hb⟩, rfl, rfl⟩
    exact ⟨hab, by omega⟩
  · rintro ⟨hij, hj⟩
    exact ⟨i, by omega, j, ⟨hij, by omega⟩, rfl, rfl⟩

theorem channelPairs_sorted (C : Nat) : (channelPairs C).Pairwise LexLt := by
  unfold channelPairs
  rw [List.pairwise_flatMap]
  constructor
  · intro i _
    rw [List.pairwise_map]
    exact (List.pairwise_lt_range' i (C - i)).imp (fun h => Or.inr ⟨rfl, h⟩)
  · exact (List.pairwise_lt_range C).imp (fun {a b} hab x hx y hy => by
      simp only [List.mem_map] at hx hy
      obtain ⟨_, _, rfl⟩ := hx
      obtain ⟨_, _, rfl⟩ := hy
      exact Or.inl hab)

theorem channelPairs_nodup (C : Nat) : (channelPairs C).Nodup :=
  (channelPairs_sorted C).imp (fun {p q} h heq => by
    subst heq
    rcases h with h | ⟨_, h⟩ <;> exact Nat.lt_irrefl _ h)

theorem networkEdges_mem_bounds (acc : List (Nat × MatrixX (Cplx K))) (C : Nat)
    (e : NetworkEdge K) (he : e ∈ networkEdges acc C) :
    e.iStartNodeID ≤ e.iEndNodeID ∧ e.iEndNodeID < C := by
  have h : (e.iStartNodeID, e.iEndNodeID) ∈ channelPairs C := by
    rw [← networkEdges_endpoints acc C]
    exact List.mem_map_of_mem _ he
  exact (channelPairs_mem C _).mp h

theorem mem_incident_start (e : NetworkEdge K) (es : List (NetworkEdge K)) (he : e ∈ es) :
    e ∈ incident e.iStartNodeID es := by
  simp only [incident, List.mem_flatMap]
  exact ⟨e, he, by simp [touch]⟩

theorem mem_incident_end (e : NetworkEdge K) (es : List (NetworkEdge K)) (he : e ∈ es) :
    e ∈ incident e.iEndNodeID es := by
  simp only [incident, List.mem_flatMap]
  exact ⟨e, he, by simp [touch]⟩

/-- In an extension every new edge is on the incident list of the node at index `k` whenever
that node exists and `k` is an end node of the edge. -/
theorem Extends.registered {net net1 : Network K} {es : List (NetworkEdge K)}
    (h : Extends net net1 es) (k : Nat) (hk : k < net.nodes.length) (e : NetworkEdge K)
    (he : e ∈ incident k es) :
    ∃ n, net1.nodes[k]? = some n ∧ e ∈ n.edges := by
  refine ⟨addEdges net.nodes[k] (incident k es), ?_, ?_⟩
  · rw [h.2.2 k, List.getElem?_eq_getElem hk]
    rfl
  · simp [addEdges, he]

end Pairs

end Connectivity

namespace Connectivity

section Frames

variable {K : Type} [LinearOrderedField K]

/-! ## What a successful run leaves untouched -/

/-- Rule for a loop whose body may fail: a property that every successful iteration
preserves holds of the result of a successful run. -/
theorem foldlM_some_inv {σ α : Type} (f : σ → α → Option σ) (P : σ → Prop)
    (hstep : ∀ s a s', f s a = some s' → P s → P s') :
    ∀ (l : List α) (s r : σ), l.foldlM f s = some r → P s → P r := by
  intro l
  induction l with
  | nil =>
    intro s r h hP
    simp at h
    subst h
    exact hP
  | cons a l ih =>
    intro s r h hP
    rw [List.foldlM_cons] at h
    cases hfa : f s a with
    | none => simp [hfa] at h
    | some s' =>
      simp only [hfa, Option.bind_eq_bind, Option.some_bind] at h
      exact ih s' r h (hstep s a s' hfa hP)

theorem computeTrial_matData (ext : Externals K) (t t1 : ConnectivityTrialData K)
    (C F : Nat) (iNfft : Int) (tapers : MatrixX K × VectorX K)
    (h : computeTrial ext t C F iNfft tapers = some t1) : t1.matData = t.matData := by
  simp only [computeTrial] at h
  split at h
  · exact absurd h (by simp)
  · split at h
    · exact absurd h (by simp)
    · injection h with h
      subst h
      rfl

theorem compute_matData (ext : Externals K) (t : ConnectivityTrialData K)
    (acc : List (Nat × MatrixX (Cplx K))) (C F : Nat) (iNfft : Int)
    (tapers : MatrixX K × VectorX K)
    (r : ConnectivityTrialData K × List (Nat × MatrixX (Cplx K)))
    (h : compute ext t acc C F iNfft tapers = some r) : r.1.matData = t.matData := by
  simp only [compute] at h
  split at h
  · injection h with h
    subst h
    rfl
  · split at h
    · exact absurd h (by simp)
    · rename_i trial1 htrial
      split at h
      · exact absurd h (by simp)
      · injection h with h
        subst h
        exact computeTrial_matData ext t trial1 C F iNfft tapers htrial

theorem mapCompute_matData (ext : Externals K) (C F : Nat) (iNfft : Int)
    (tapers : MatrixX K × VectorX K) :
    ∀ (ts : List (ConnectivityTrialData K)) (acc : List (Nat × MatrixX (Cplx K)))
      (r : List (ConnectivityTrialData K) × List (Nat × MatrixX (Cplx K))),
      mapCompute ext C F iNfft tapers ts acc = some r →
      r.1.map (fun t => t.matData) = ts.map (fun t => t.matData) := by
  intro ts
  induction ts with
  | nil =>
    intro acc r h
    simp only [mapCompute] at h
    injection h with h
    subst h
    rfl
  | cons t ts ih =>
    intro acc r h
    simp only [mapCompute] at h
    split at h
    · exact absurd h (by simp)
    · rename_i t1 acc1 hc
      split at h
      · exact absurd h (by simp)
      · rename_i ts1 acc2 hm
        injection h with h
        subst h
        have h1 := compute_matData ext t acc C F iNfft tapers (t1, acc1) hc
        have h2 := ih acc1 (ts1, acc2) hm
        simp only [List.map_cons] at h2 ⊢
        rw [h1, h2]

/-- Identity and position of a node. -/
theorem nodeAppend_keys (net net1 : Network K) (i : Nat) (e : NetworkEdge K)
    (h : net.nodeAppend i e = some net1) :
    net1.nodes.map (fun n => (n.iId, n.vecVert)) =
      net.nodes.map (fun n => (n.iId, n.vecVert)) := by
  simp only [Network.nodeAppend] at h
  split at h
  · exact absurd h (by simp)
  · rename_i n hn
    injection h with h
    subst h
    apply List.ext_getElem?
    intro k
    simp only [List.getElem?_map, List.getElem?_set]
    by_cases hik : i = k
    · subst hik
      have hlt : i < net.nodes.length := (List.getElem?_eq_some_iff.mp hn).1
      simp [hlt, hn]
    · simp [hik]

theorem edgeStep_keys (i j : Nat) (matDenom : MatrixX (Dbl K)) (net net1 : Network K)
    (h : edgeStep i matDenom net j = some net1) :
    net1.nodes.map (fun n => (n.iId, n.vecVert)) =
      net.nodes.map (fun n => (n.iId, n.vecVert)) := by
  simp only [edgeStep] at h
  split at h
  · exact absurd h (by simp)
  · split at h
    · exact absurd h (by simp)
    · rename_i n1 h1
      split at h
      · exact absurd h (by simp)
      · rename_i n2 h2
        injection h with h
        subst h
        show n2.nodes.map _ = _
        rw [nodeAppend_keys n1 n2 j _ h2, nodeAppend_keys net n1 i _ h1]

theorem dswplvStep_keys (acc : List (Nat × MatrixX (Cplx K))) (rows i : Nat)
    (net net1 : Network K) (h : dswplvStep acc rows net i = some net1) :
    net1.nodes.map (fun n => (n.iId, n.vecVert)) =
      net.nodes.map (fun n => (n.iId, n.vecVert)) := by
  simp only [dswplvStep] at h
  split at h
  · exact absurd h (by simp)
  · rename_i p _
    exact foldlM_some_inv (edgeStep i (matQuot p.2))
      (fun n => n.nodes.map (fun n => (n.iId, n.vecVert)) =
        net.nodes.map (fun n => (n.iId, n.vecVert)))
      (fun s a s' hs hP => (edgeStep_keys i a _ s s' hs).trans hP) _ net net1 h rfl

/-- The finalizer leaves the identity and the position of every node as they were. -/
theorem computeDSWPLV_keys (cs : ConnectivitySettings K) (net net1 : Network K)
    (h : computeDSWPLV cs net = some net1) :
    net1.nodes.map (fun n => (n.iId, n.vecVert)) =
      net.nodes.map (fun n => (n.iId, n.vecVert)) := by
  simp only [computeDSWPLV] at h
  split at h
  · exact absurd h (by simp)
  · rename_i first _
    exact foldlM_some_inv (dswplvStep cs.data.vecPairCsdSum first.matData.rows)
      (fun n => n.nodes.map (fun n => (n.iId, n.vecVert)) =
        net.nodes.map (fun n => (n.iId, n.vecVert)))
      (fun s a s' hs hP => (dswplvStep_keys _ _ a s s' hs).trans hP) _ net net1 h rfl

/-- What a successful `calculate` on a non-empty batch returns. -/
theorem calculate_some (ext : Externals K) (cs : ConnectivitySettings K)
    (first : ConnectivityTrialData K) (rest : List (ConnectivityTrialData K))
    (hlist : cs.m_dataList = first :: rest) (net : Network K) (cs1 : ConnectivitySettings K)
    (h : calculate ext cs = some (net, cs1)) :
    ∃ dataList vecSum,
      mapCompute ext first.matData.rows
        (numFreqs (effectiveNfft cs.m_iNfft first.matData.cols)).toNat
        (effectiveNfft cs.m_iNfft first.matData.cols)
        (ext.generateTapers first.matData.cols cs.m_sWindowType) cs.m_dataList
        cs.data.vecPairCsdSum = some (dataList, vecSum) ∧
      cs1 = { cs with m_dataList := dataList, data := ⟨vecSum⟩ } ∧
      computeDSWPLV cs1 (createNodes cs.m_matNodePositions first.matData.rows
        ⟨"Debiased Squared Weighted Phase Lag Index", [], []⟩) = some net := by
  simp only [calculate, hlist] at h
  rw [hlist]
  split at h
  · exact absurd h (by simp)
  · rename_i dataList vecSum hm
    split at h
    · exact absurd h (by simp)
    · rename_i net1 hn
      injection h with h
      injection h with h1 h2
      subst h1 h2
      exact ⟨dataList, vecSum, hm, rfl, hn⟩

theorem nodeVert_size (pos : MatrixX K) (k : Nat) : (nodeVert pos k).size = 3 := by
  unfold nodeVert
  split <;> rfl

theorem nodeVert_coeff (pos : MatrixX K) (k c : Nat) (hc : c < 3) :
    (nodeVert pos k).coeff c = if k < pos.rows then pos.coeff k c else 0 := by
  unfold nodeVert
  by_cases hk : k < pos.rows
  · have h0 : pos.rows ≠ 0 := by omega
    simp only [hk, h0, ne_eq, not_false_eq_true, and_self, if_true]
    have : c = 0 ∨ c = 1 ∨ c = 2 := by omega
    rcases this with h | h | h <;> subst h <;> simp [VectorX.setCoeff]
  · simp [hk, VectorX.zero]

end Frames

end Connectivity

namespace Connectivity

section Spectra

variable {K : Type} [LinearOrderedField K]

/-! ## The spectra loop, entry by entry -/

theorem taperLoop_spec (ext : Externals K) (iNfft : Int) (tapers : MatrixX K × VectorX K)
    (rowData : VectorX K) (m0 : MatrixX (Cplx K)) (n : Nat) :
    ((List.range n).foldl (taperStep ext iNfft tapers rowData) m0).rows = m0.rows ∧
    ((List.range n).foldl (taperStep ext iNfft tapers rowData) m0).cols = m0.cols ∧
    ∀ j c, ((List.range n).foldl (taperStep ext iNfft tapers rowData) m0).coeff j c =
      if j < n then
        ((ext.fwd (rowData.cwiseProduct (tapers.1.row j)) iNfft).coeff c).scale
          (tapers.2.coeff j)
      else m0.coeff j c := by
  induction n with
  | zero => simp
  | succ n ih =>
    obtain ⟨h1, h2, h3⟩ := ih
    rw [List.range_succ, List.foldl_append]
    simp only [List.foldl_cons, List.foldl_nil]
    refine ⟨h1, h2, ?_⟩
    intro j c
    simp only [taperStep, MatrixX.setRow, VectorX.scale]
    by_cases hj : j = n
    · subst hj
      simp
    · rw [if_neg hj, h3 j c]
      by_cases hlt : j < n
      · have : j < n + 1 := by omega
        simp [hlt, this]
      · have : ¬ j < n + 1 := by omega
        simp [hlt, this]

theorem computeTapSpectra_spec (ext : Externals K) (C F : Nat) (iNfft : Int)
    (tapers : MatrixX K × VectorX K) (matData : MatrixX K) (h : C ≤ matData.rows) :
    ∃ S, computeTapSpectra ext C F iNfft tapers matData = some S ∧
      IsTapSpectra ext iNfft tapers matData F C S := by
  obtain ⟨st, hst, -, -, hP⟩ := foldlM_range_inv (spectraStep ext iNfft tapers matData)
    (fun i st => st.1.rows = tapers.1.rows ∧ st.1.cols = F ∧
      IsTapSpectra ext iNfft tapers matData F i st.2)
    C (MatrixX.uninit tapers.1.rows F, [])
    ⟨rfl, rfl, rfl, by intro i hi; omega⟩
    (by
      intro i st hi hP
      obtain ⟨hr, hc, hlen, hent⟩ := hP
      have hrow : matData.rowAt i = some (matData.row i) := by
        simp [MatrixX.rowAt]; omega
      obtain ⟨t1, t2, t3⟩ := taperLoop_spec ext iNfft tapers
        ((matData.row i).subScalar (matData.row i).mean) st.1 tapers.1.rows
      simp only [spectraStep, hrow]
      refine ⟨_, rfl, ?_, ?_, ?_, ?_⟩
      · show (List.foldl _ st.1 _).rows = _
        rw [t1, hr]
      · show (List.foldl _ st.1 _).cols = _
        rw [t2, hc]
      · simp [hlen]
      intro k hk
      by_cases hki : k = i
      · subst hki
        refine ⟨_, ?_, by rw [t1, hr], by rw [t2, hc], ?_⟩
        · rw [List.getElem?_append_right (by omega)]
          simp [hlen]
        · intro j c hj
          rw [t3 j c, if_pos hj]
          rfl
      · obtain ⟨m, hm, h1, h2, h3⟩ := hent k (by omega)
        refine ⟨m, ?_, h1, h2, h3⟩
        rw [List.getElem?_append_left (by omega)]
        exact hm)
  exact ⟨st.2, by simp [computeTapSpectra, hst], hP⟩

/-! ## `compute` on a trial whose pair cache is not full -/

/-- The step `compute` on a trial whose pair cache does not hold `C` entries: the spectra
cache is kept if it has `C` entries and recomputed otherwise, `C` entries are appended to
the pair cache, and the pair cache is merged into the shared sum. -/
theorem compute_notfull (ext : Externals K) (t : ConnectivityTrialData K)
    (acc : List (Nat × MatrixX (Cplx K))) (C F : Nat) (iNfft : Int)
    (tapers : MatrixX K × VectorX K)
    (hne : t.vecPairCsd.length ≠ C)
    (h : t.vecTapSpectra.length = C ∨ C ≤ t.matData.rows)
    (hacc : acc.length ≤ t.vecPairCsd.length + C) :
    ∃ S l acc1, compute ext t acc C F iNfft tapers =
        some ({ t with vecTapSpectra := S, vecPairCsd := t.vecPairCsd ++ l }, acc1) ∧
      S.length = C ∧ (t.vecTapSpectra.length = C → S = t.vecTapSpectra) ∧
      (t.vecTapSpectra.length ≠ C →
        computeTapSpectra ext C F iNfft tapers t.matData = some S) ∧
      IsTrialCsd S (decide (Int.tmod iNfft 2 = 0)) (denomCSD ext.sqrt tapers.2) C F C l ∧
      mergeCsd acc (t.vecPairCsd ++ l) = some acc1 := by
  obtain ⟨S, l, ht, hS, hkeep, hnew, hl⟩ := computeTrial_spec ext t C F iNfft tapers h
  obtain ⟨acc1, h1⟩ := mergeCsd_some acc (t.vecPairCsd ++ l)
    (by rw [List.length_append, hl.1]; exact hacc)
  exact ⟨S, l, acc1, by simp [compute, hne, ht, h1], hS, hkeep, hnew, hl, h1⟩

theorem HasShape.keys {C F : Nat} {l : List (Nat × MatrixX (Cplx K))} (h : HasShape C F l) :
    l.map Prod.fst = List.range C := by
  apply List.ext_getElem?
  intro k
  by_cases hk : k < C
  · obtain ⟨m, hm, -, -⟩ := h.getElem? hk
    simp [List.getElem?_map, hm, List.getElem?_range hk]
  · rw [List.getElem?_eq_none (by simp [h.1]; omega),
      List.getElem?_eq_none (by simp; omega)]

end Spectra

end Connectivity

/-! # The claims, continued -/

namespace Connectivity

section Claims11

variable {K : Type} [LinearOrderedField K]

theorem csdEntry_eq (even : Bool) (d : K) (F : Nat) (a b : MatrixX (Cplx K)) (c : Nat) :
    csdEntry even d F a b c =
      if even = true ∧ c = F - 1 then
        (if c = 0 then
          ((∑ k in Finset.range a.rows, a.coeff k c * (b.coeff k c).conj).divReal d).divReal 2
        else (∑ k in Finset.range a.rows, a.coeff k c * (b.coeff k c).conj).divReal d).divReal 2
      else
        (if c = 0 then
          ((∑ k in Finset.range a.rows, a.coeff k c * (b.coeff k c).conj).divReal d).divReal 2
        else (∑ k in Finset.range a.rows, a.coeff k c * (b.coeff k c).conj).divReal d) := by
  simp only [csdEntry, csdRow, VectorX.divReal, MatrixX.colwiseSum, MatrixX.cwiseProduct,
    MatrixX.conjugate, sumTo_eq_sum_range]

theorem numFreqs_ge_two (n : Int) (h1 : 1 ≤ n) (heven : Int.tmod n 2 = 0) :
    2 ≤ (numFreqs n).toNat := by
  rw [numFreqs_eq_div]
  rw [Int.tmod_eq_emod (by omega) (by omega)] at heven
  omega

theorem numFreqs_ge_two_of_le (n : Int) (h2 : 2 ≤ n) : 2 ≤ (numFreqs n).toNat := by
  rw [numFreqs_eq_div]
  omega

/-- C11 (as amended): for a transform length of at least 1 (with `iNFreqs` the number of
bins that `calculate` derives from it), in every row `j ≥ i` that `compute` writes for a
trial with an empty pair cache the DC bin is halved exactly once; for a transform length of
at least 2 the last bin is not the DC bin and is halved exactly once if the length is even
and left as it is if the length is odd; no other bin is halved. -/
theorem csd_bins_halved (ext : Externals K) (iNRows iNFreqs : Nat) (iNfft : Int)
    (tapers : MatrixX K × VectorX K)
    (t : ConnectivityTrialData K) (acc : List (Nat × MatrixX (Cplx K)))
    (hfresh : t.vecPairCsd = []) (hrows : iNRows ≤ t.matData.rows)
    (hacc : acc.length ≤ iNRows)
    (i j : Nat) (hij : i ≤ j) (hj : j < iNRows)
    (hT : 1 ≤ iNfft) (hF : iNFreqs = (numFreqs iNfft).toNat) :
    ∃ t1 acc1 Si Sj m, compute ext t acc iNRows iNFreqs iNfft tapers = some (t1, acc1) ∧
      t1.vecTapSpectra[i]? = some Si ∧ t1.vecTapSpectra[j]? = some Sj ∧
      t1.vecPairCsd[i]? = some (i, m) ∧
      m.coeff j 0 =
        ((∑ k in Finset.range Si.rows, Si.coeff k 0 * (Sj.coeff k 0).conj).divReal
          (denomCSD ext.sqrt tapers.2)).divReal 2 ∧
      (2 ≤ iNfft → iNFreqs - 1 ≠ 0 ∧
        m.coeff j (iNFreqs - 1) =
          if Int.tmod iNfft 2 = 0 then
            ((∑ k in Finset.range Si.rows,
              Si.coeff k (iNFreqs - 1) * (Sj.coeff k (iNFreqs - 1)).conj).divReal
              (denomCSD ext.sqrt tapers.2)).divReal 2
          else
            (∑ k in Finset.range Si.rows,
              Si.coeff k (iNFreqs - 1) * (Sj.coeff k (iNFreqs - 1)).conj).divReal
              (denomCSD ext.sqrt tapers.2)) ∧
      ∀ f, f ≠ 0 → f ≠ iNFreqs - 1 →
        m.coeff j f =
          (∑ k in Finset.range Si.rows, Si.coeff k f * (Sj.coeff k f).conj).divReal
            (denomCSD ext.sqrt tapers.2) := by
  obtain ⟨-, -, hlen, hcsd, hcomp⟩ :=
    compute_fresh ext t iNRows iNFreqs iNfft tapers hfresh (Or.inr hrows)
  obtain ⟨acc1, h1, -⟩ := hcomp acc hacc
  have hlen' := hlen (by omega)
  have hi' : i < (trialAfter ext iNRows iNFreqs iNfft tapers t).vecTapSpectra.length := by
    omega
  have hj' : j < (trialAfter ext iNRows iNFreqs iNfft tapers t).vecTapSpectra.length := by
    omega
  obtain ⟨m, hm, -, -, hdone⟩ := hcsd.2 i (by omega)
  have hval := fun f => hdone j f _ _ hij hj (List.getElem?_eq_getElem hi')
    (List.getElem?_eq_getElem hj')
  refine ⟨_, acc1, _, _, m, h1, List.getElem?_eq_getElem hi', List.getElem?_eq_getElem hj',
    hm, ?_, ?_, ?_⟩
  · rw [hval 0, csdEntry_eq]
    have hne : ¬ (decide (Int.tmod iNfft 2 = 0) = true ∧ 0 = iNFreqs - 1) := by
      rintro ⟨he, h0⟩
      have := numFreqs_ge_two iNfft hT (by simpa using he)
      omega
    simp only [hne, if_false, if_true]
  · intro h2
    have hF2 := numFreqs_ge_two_of_le iNfft h2
    have hne : iNFreqs - 1 ≠ 0 := by omega
    refine ⟨hne, ?_⟩
    rw [hval (iNFreqs - 1), csdEntry_eq]
    by_cases he : Int.tmod iNfft 2 = 0
    · simp [he, hne]
    · simp [he, hne]
  · intro f hf0 hfl
    rw [hval f, csdEntry_eq]
    simp [hf0, hfl]

/-- The single pair entry that `compute` writes for the cached example trial (1 channel, 1
bin), for any transform length. -/
theorem exampleCachedTrial_entry (iNfft : Int) :
    ∃ t1 acc1 m, compute exampleExternals exampleCachedTrial [] 1 1 iNfft exampleUnitTapers =
        some (t1, acc1) ∧
      t1.vecPairCsd[0]? = some (0, m) ∧
      m.coeff 0 0 = csdEntry (decide (Int.tmod iNfft 2 = 0))
        (denomCSD exampleExternals.sqrt exampleUnitTapers.2) 1
        ⟨1, 1, fun _ _ => ⟨2, 0⟩⟩ ⟨1, 1, fun _ _ => ⟨2, 0⟩⟩ 0 := by
  obtain ⟨S, l, acc1, hc, -, hkeep, -, hl, -⟩ := compute_notfull exampleExternals
    exampleCachedTrial [] 1 1 iNfft exampleUnitTapers (by simp [exampleCachedTrial])
    (Or.inl rfl) (Nat.zero_le _)
  have hS : S = [⟨1, 1, fun _ _ => ⟨2, 0⟩⟩] := hkeep rfl
  subst hS
  obtain ⟨m, hm, -, -, hdone⟩ := hl.2 0 (by omega)
  refine ⟨_, acc1, m, hc, ?_, ?_⟩
  · simpa [exampleCachedTrial] using hm
  · exact hdone 0 0 _ _ (Nat.le_refl 0) (by omega) rfl rfl

theorem exampleCached_raw :
    (csdRow (denomCSD exampleExternals.sqrt exampleUnitTapers.2)
      (⟨1, 1, fun _ _ => ⟨2, 0⟩⟩ : MatrixX (Cplx ℚ)) ⟨1, 1, fun _ _ => ⟨2, 0⟩⟩).coeff 0 =
      ⟨8, 0⟩ := by
  simp only [csdRow, VectorX.divReal, MatrixX.colwiseSum, MatrixX.cwiseProduct,
    MatrixX.conjugate, denomCSD, VectorX.sum, VectorX.cwiseAbs2, exampleExternals,
    exampleUnitTapers, sumTo, Cplx.divReal, Cplx.conj]
  show Cplx.divReal (Cplx.add ⟨0, 0⟩ (Cplx.mul ⟨2, 0⟩ ⟨2, -0⟩)) _ = _
  norm_num [Cplx.add, Cplx.mul, Cplx.divReal]

/-- C11 (as stated, refuted): with 1 channel and 1 frequency bin, for the odd transform
length 1 the last bin, which is bin 0, is halved (4 instead of the unhalved value 8), and
for the even transform length 0 the DC bin is halved twice (2 instead of 4). -/
theorem csd_bins_halved_counter :
    (csdRow (denomCSD exampleExternals.sqrt exampleUnitTapers.2)
      (⟨1, 1, fun _ _ => ⟨2, 0⟩⟩ : MatrixX (Cplx ℚ)) ⟨1, 1, fun _ _ => ⟨2, 0⟩⟩).coeff 0 =
      ⟨8, 0⟩ ∧
    (Int.tmod 1 2 ≠ 0 ∧
      ∃ t1 acc1 m, compute exampleExternals exampleCachedTrial [] 1 1 1 exampleUnitTapers =
          some (t1, acc1) ∧
        t1.vecPairCsd[0]? = some (0, m) ∧ m.coeff 0 (1 - 1) = ⟨4, 0⟩) ∧
    (Int.tmod 0 2 = 0 ∧
      ∃ t1 acc1 m, compute exampleExternals exampleCachedTrial [] 1 1 0 exampleUnitTapers =
          some (t1, acc1) ∧
        t1.vecPairCsd[0]? = some (0, m) ∧ m.coeff 0 0 = ⟨2, 0⟩) := by
  refine ⟨exampleCached_raw, ⟨by decide, ?_⟩, ⟨by decide, ?_⟩⟩
  · obtain ⟨t1, acc1, m, h1, h2, h3⟩ := exampleCachedTrial_entry 1
    refine ⟨t1, acc1, m, h1, h2, ?_⟩
    show m.coeff 0 0 = _
    have hodd : ¬ Int.tmod 1 2 = 0 := by decide
    rw [h3]
    simp only [csdEntry, exampleCached_raw]
    norm_num [Cplx.divReal, hodd]
  · obtain ⟨t1, acc1, m, h1, h2, h3⟩ := exampleCachedTrial_entry 0
    refine ⟨t1, acc1, m, h1, h2, ?_⟩
    rw [h3]
    simp only [csdEntry, exampleCached_raw]
    norm_num [Cplx.divReal]

/-- C11 (as amended) at the first example trial: channels 0 and 1, transform length 4. -/
theorem csd_bins_halved_witness :
    (exampleTrial 1).vecPairCsd = [] ∧ 3 ≤ (exampleTrial 1).matData.rows ∧
    ([] : List (Nat × MatrixX (Cplx ℚ))).length ≤ 3 ∧ 0 ≤ 1 ∧ 1 < 3 ∧ (1 : Int) ≤ 4 ∧
    3 = (numFreqs 4).toNat ∧
    ∃ t1 acc1 Si Sj m, compute exampleExternals (exampleTrial 1) [] 3 3 4
        (exampleExternals.generateTapers 4 "rectangular") = some (t1, acc1) ∧
      t1.vecTapSpectra[0]? = some Si ∧ t1.vecTapSpectra[1]? = some Sj ∧
      t1.vecPairCsd[0]? = some (0, m) ∧
      m.coeff 1 0 =
        ((∑ k in Finset.range Si.rows, Si.coeff k 0 * (Sj.coeff k 0).conj).divReal
          (denomCSD exampleExternals.sqrt
            (exampleExternals.generateTapers 4 "rectangular").2)).divReal 2 ∧
      ((2 : Int) ≤ 4 → 3 - 1 ≠ 0 ∧
        m.coeff 1 (3 - 1) =
          if Int.tmod 4 2 = 0 then
            ((∑ k in Finset.range Si.rows,
              Si.coeff k (3 - 1) * (Sj.coeff k (3 - 1)).conj).divReal
              (denomCSD exampleExternals.sqrt
                (exampleExternals.generateTapers 4 "rectangular").2)).divReal 2
          else
            (∑ k in Finset.range Si.rows,
              Si.coeff k (3 - 1) * (Sj.coeff k (3 - 1)).conj).divReal
              (denomCSD exampleExternals.sqrt
                (exampleExternals.generateTapers 4 "rectangular").2)) ∧
      ∀ f, f ≠ 0 → f ≠ 3 - 1 →
        m.coeff 1 f =
          (∑ k in Finset.range Si.rows, Si.coeff k f * (Sj.coeff k f).conj).divReal
            (denomCSD exampleExternals.sqrt
              (exampleExternals.generateTapers 4 "rectangular").2) :=
  have hF : 3 = (numFreqs 4).toNat := by
    rw [numFreqs_eq_div]; rfl
  ⟨rfl, Nat.le_refl 3, Nat.zero_le 3, Nat.zero_le 1, by decide, by decide, hF,
    csd_bins_halved exampleExternals 3 3 4
      (exampleExternals.generateTapers 4 "rectangular") (exampleTrial 1) [] rfl
      (Nat.le_refl 3) (Nat.zero_le 3) 0 1 (Nat.zero_le 1) (by decide) (by decide) hF⟩

end Claims11

end Connectivity

namespace Connectivity

section Claims12

variable {K : Type} [LinearOrderedField K]

/-- C12: starting from an empty shared sum, after `compute` has run on the trials
`first :: rest` (empty pair caches, the same channel count `C`), the first trial's pair
list has been copied into the sum, and at the end entry `i` of the sum is keyed `i` and each
of its coefficients is the sum over all trials of that coefficient of the trial's `i`-th
cross-spectral density matrix. -/
theorem accumulator_is_sum (ext : Externals K) (C F : Nat) (iNfft : Int)
    (tapers : MatrixX K × VectorX K)
    (first : ConnectivityTrialData K) (rest : List (ConnectivityTrialData K))
    (hfresh : ∀ t ∈ first :: rest, t.vecPairCsd = [])
    (hrows : ∀ t ∈ first :: rest, t.matData.rows = C) :
    (∃ t1, compute ext first [] C F iNfft tapers = some (t1, t1.vecPairCsd)) ∧
    ∃ ts1 acc1, mapCompute ext C F iNfft tapers (first :: rest) [] = some (ts1, acc1) ∧
      ts1.length = (first :: rest).length ∧ acc1.length = C ∧
      ∀ i, i < C → ∃ m, acc1[i]? = some (i, m) ∧
        ∀ r c, m.coeff r c = (ts1.map (fun t1 => coeffAt t1.vecPairCsd i r c)).sum := by
  have hts : ∀ t ∈ first :: rest, t.vecPairCsd = [] ∧
      (t.vecTapSpectra.length = C ∨ C ≤ t.matData.rows) :=
    fun t ht => ⟨hfresh t ht, Or.inr (Nat.le_of_eq (hrows t ht).symm)⟩
  constructor
  · obtain ⟨-, -, -, -, hcomp⟩ := compute_fresh ext first C F iNfft tapers
      (hts first (List.mem_cons_self _ _)).1 (hts first (List.mem_cons_self _ _)).2
    obtain ⟨acc0, h0, hm0⟩ := hcomp [] (Nat.zero_le _)
    rw [mergeCsd_empty] at hm0
    injection hm0 with hm0
    subst hm0
    exact ⟨_, h0⟩
  · obtain ⟨acc1, hmap, -, hshape, hcoeff⟩ :=
      mapCompute_sum ext C F iNfft tapers (first :: rest) hts
    have hs := hshape (by simp)
    refine ⟨_, acc1, hmap, by simp, hs.1, ?_⟩
    intro i hi
    obtain ⟨m, hm, -, -⟩ := hs.getElem? hi
    refine ⟨m, hm, ?_⟩
    intro r c
    rw [← coeffAt_of_getElem? hm r c, hcoeff i r c, List.map_map]
    rfl

/-- C12 at the two example trials. -/
theorem accumulator_is_sum_witness :
    (∀ t ∈ exampleTrial 1 :: [exampleTrial 2], t.vecPairCsd = []) ∧
    (∀ t ∈ exampleTrial 1 :: [exampleTrial 2], t.matData.rows = 3) ∧
    (∃ t1, compute exampleExternals (exampleTrial 1) [] 3 3 4
        (exampleExternals.generateTapers 4 "rectangular") = some (t1, t1.vecPairCsd)) ∧
    ∃ ts1 acc1, mapCompute exampleExternals 3 3 4
        (exampleExternals.generateTapers 4 "rectangular")
        (exampleTrial 1 :: [exampleTrial 2]) [] = some (ts1, acc1) ∧
      ts1.length = (exampleTrial 1 :: [exampleTrial 2]).length ∧ acc1.length = 3 ∧
      ∀ i, i < 3 → ∃ m, acc1[i]? = some (i, m) ∧
        ∀ r c, m.coeff r c = (ts1.map (fun t1 => coeffAt t1.vecPairCsd i r c)).sum :=
  have h1 : ∀ t ∈ exampleTrial 1 :: [exampleTrial 2], t.vecPairCsd = [] := by
    simp [exampleTrial]
  have h2 : ∀ t ∈ exampleTrial 1 :: [exampleTrial 2], t.matData.rows = 3 := by
    simp [exampleTrial]
  ⟨h1, h2, accumulator_is_sum exampleExternals 3 3 4
    (exampleExternals.generateTapers 4 "rectangular") (exampleTrial 1) [exampleTrial 2] h1 h2⟩

end Claims12

end Connectivity

namespace Connectivity

section Claims13

variable {K : Type} [LinearOrderedField K]

theorem exampleSum_shape : HasShape 2 3 exampleSumSettings.data.vecPairCsdSum := by
  refine ⟨rfl, ?_⟩
  intro k p hp
  match k, hp with
  | 0, hp =>
    simp only [exampleSumSettings, List.getElem?_cons_zero, Option.some.injEq] at hp
    subst hp
    exact ⟨rfl, rfl, rfl⟩
  | 1, hp =>
    simp only [exampleSumSettings, List.getElem?_cons_succ, List.getElem?_cons_zero,
      Option.some.injEq] at hp
    subst hp
    exact ⟨rfl, rfl, rfl⟩
  | k + 2, hp =>
    simp [exampleSumSettings] at hp

/-- C13: on a shared sum that holds one matrix per channel (`C` channels) and a network with
`C` nodes, `computeDSWPLV` succeeds and the edges it appends are exactly the pairs `(i, j)`
with `i ≤ j < C`, each once, in lexicographic order; every appended edge connects two
valid node indices of the resulting network. -/
theorem computeDSWPLV_edge_pairs (cs : ConnectivitySettings K)
    (first : ConnectivityTrialData K) (F : Nat)
    (hfirst : cs.m_dataList.head? = some first)
    (hacc : HasShape first.matData.rows F cs.data.vecPairCsdSum)
    (net : Network K) (hn : net.nodes.length = first.matData.rows) :
    ∃ net1 new, computeDSWPLV cs net = some net1 ∧ net1.edges = net.edges ++ new ∧
      new.map (fun e => (e.iStartNodeID, e.iEndNodeID)) = channelPairs first.matData.rows ∧
      (∀ i j, (i, j) ∈ new.map (fun e => (e.iStartNodeID, e.iEndNodeID)) ↔
        i ≤ j ∧ j < first.matData.rows) ∧
      (new.map (fun e => (e.iStartNodeID, e.iEndNodeID))).Pairwise LexLt ∧
      (new.map (fun e => (e.iStartNodeID, e.iEndNodeID))).Nodup ∧
      ∀ e ∈ new, e.iStartNodeID < net1.nodes.length ∧ e.iEndNodeID < net1.nodes.length := by
  obtain ⟨net1, h1, hext⟩ := computeDSWPLV_extends cs first F hfirst hacc net hn
  have hend := networkEdges_endpoints cs.data.vecPairCsdSum first.matData.rows
  refine ⟨net1, _, h1, hext.2.1, hend, ?_, ?_, ?_, ?_⟩
  · intro i j
    rw [hend]
    exact channelPairs_mem _ (i, j)
  · rw [hend]
    exact channelPairs_sorted _
  · rw [hend]
    exact channelPairs_nodup _
  · intro e he
    have hb := networkEdges_mem_bounds _ _ e he
    rw [hext.1, hn]
    omega

/-- C13 at a shared sum for 2 channels: the edges (0,0), (0,1), (1,1). -/
theorem computeDSWPLV_edge_pairs_witness :
    exampleSumSettings.m_dataList.head? = some ⟨⟨2, 4, fun _ _ => 1⟩, [], []⟩ ∧
    HasShape 2 3 exampleSumSettings.data.vecPairCsdSum ∧
    exampleNetwork.nodes.length = 2 ∧
    ∃ net1 new, computeDSWPLV exampleSumSettings exampleNetwork = some net1 ∧
      net1.edges = exampleNetwork.edges ++ new ∧
      new.map (fun e => (e.iStartNodeID, e.iEndNodeID)) = [(0, 0), (0, 1), (1, 1)] ∧
      (∀ i j, (i, j) ∈ new.map (fun e => (e.iStartNodeID, e.iEndNodeID)) ↔
        i ≤ j ∧ j < 2) ∧
      (new.map (fun e => (e.iStartNodeID, e.iEndNodeID))).Pairwise LexLt ∧
      (new.map (fun e => (e.iStartNodeID, e.iEndNodeID))).Nodup ∧
      ∀ e ∈ new, e.iStartNodeID < net1.nodes.length ∧ e.iEndNodeID < net1.nodes.length :=
  ⟨rfl, exampleSum_shape, rfl,
    computeDSWPLV_edge_pairs exampleSumSettings ⟨⟨2, 4, fun _ _ => 1⟩, [], []⟩ 3 rfl
      exampleSum_shape exampleNetwork rfl⟩

/-- C14: every edge `(i, j)` that `computeDSWPLV` appends to the network is on the
incident-edge list of node `i` and on the incident-edge list of node `j`. -/
theorem computeDSWPLV_registers (cs : ConnectivitySettings K)
    (first : ConnectivityTrialData K) (F : Nat)
    (hfirst : cs.m_dataList.head? = some first)
    (hacc : HasShape first.matData.rows F cs.data.vecPairCsdSum)
    (net : Network K) (hn : net.nodes.length = first.matData.rows) :
    ∃ net1 new, computeDSWPLV cs net = some net1 ∧ net1.edges = net.edges ++ new ∧
      ∀ e ∈ new, ∃ ni nj, net1.nodes[e.iStartNodeID]? = some ni ∧ e ∈ ni.edges ∧
        net1.nodes[e.iEndNodeID]? = some nj ∧ e ∈ nj.edges := by
  obtain ⟨net1, h1, hext⟩ := computeDSWPLV_extends cs first F hfirst hacc net hn
  refine ⟨net1, _, h1, hext.2.1, ?_⟩
  intro e he
  have hb := networkEdges_mem_bounds _ _ e he
  obtain ⟨ni, hni, hei⟩ := hext.registered e.iStartNodeID (by rw [hn]; omega) e
    (mem_incident_start e _ he)
  obtain ⟨nj, hnj, hej⟩ := hext.registered e.iEndNodeID (by rw [hn]; omega) e
    (mem_incident_end e _ he)
  exact ⟨ni, nj, hni, hei, hnj, hej⟩

/-- C14 at a shared sum for 2 channels. -/
theorem computeDSWPLV_registers_witness :
    exampleSumSettings.m_dataList.head? = some ⟨⟨2, 4, fun _ _ => 1⟩, [], []⟩ ∧
    HasShape 2 3 exampleSumSettings.data.vecPairCsdSum ∧
    exampleNetwork.nodes.length = 2 ∧
    ∃ net1 new, computeDSWPLV exampleSumSettings exampleNetwork = some net1 ∧
      net1.edges = exampleNetwork.edges ++ new ∧
      ∀ e ∈ new, ∃ ni nj, net1.nodes[e.iStartNodeID]? = some ni ∧ e ∈ ni.edges ∧
        net1.nodes[e.iEndNodeID]? = some nj ∧ e ∈ nj.edges :=
  ⟨rfl, exampleSum_shape, rfl,
    computeDSWPLV_registers exampleSumSettings ⟨⟨2, 4, fun _ _ => 1⟩, [], []⟩ 3 rfl
      exampleSum_shape exampleNetwork rfl⟩

end Claims13

end Connectivity

namespace Connectivity

section Claims15

variable {K : Type} [LinearOrderedField K]

theorem createNodes_getElem? (pos : MatrixX K) (C k : Nat) (hk : k < C) :
    (createNodes pos C ⟨"Debiased Squared Weighted Phase Lag Index", [], []⟩).nodes[k]? =
      some ⟨k, nodeVert pos k, []⟩ := by
  rw [createNodes_eq]
  simp [List.getElem?_map, List.getElem?_range hk]

/-- C15: for a non-empty batch with `C` channels, the `k`-th node that `calculate` creates
(`k < C`) has id `k` and a position of 3 entries, which are the first three entries of row
`k` of the node-position matrix if that matrix has more than `k` rows and zero otherwise;
and whenever `calculate` returns, the `k`-th node of the returned network still has that id
and that position. -/
theorem calculate_node_positions (ext : Externals K) (cs : ConnectivitySettings K)
    (first : ConnectivityTrialData K) (rest : List (ConnectivityTrialData K))
    (hlist : cs.m_dataList = first :: rest) (k : Nat) (hk : k < first.matData.rows) :
    (createNodes cs.m_matNodePositions first.matData.rows
      ⟨"Debiased Squared Weighted Phase Lag Index", [], []⟩).nodes[k]? =
      some ⟨k, nodeVert cs.m_matNodePositions k, []⟩ ∧
    (nodeVert cs.m_matNodePositions k).size = 3 ∧
    (∀ c, c < 3 → (nodeVert cs.m_matNodePositions k).coeff c =
      if k < cs.m_matNodePositions.rows then cs.m_matNodePositions.coeff k c else 0) ∧
    ∀ net cs1, calculate ext cs = some (net, cs1) →
      ∃ n, net.nodes[k]? = some n ∧ n.iId = k ∧
        n.vecVert = nodeVert cs.m_matNodePositions k := by
  refine ⟨createNodes_getElem? _ _ k hk, nodeVert_size _ k,
    fun c hc => nodeVert_coeff _ k c hc, ?_⟩
  intro net cs1 hcalc
  obtain ⟨dataList, vecSum, -, -, hnet⟩ := calculate_some ext cs first rest hlist net cs1 hcalc
  have hkeys := computeDSWPLV_keys cs1 _ net hnet
  have hk' := congrArg (fun l => l[k]?) hkeys
  simp only [List.getElem?_map, createNodes_getElem? cs.m_matNodePositions _ k hk,
    Option.map_some'] at hk'
  cases hn : net.nodes[k]? with
  | none => simp [hn] at hk'
  | some n =>
    simp only [hn, Option.map_some', Option.some.injEq, Prod.mk.injEq] at hk'
    exact ⟨n, rfl, hk'.1, hk'.2⟩

/-- C15 at the example settings with positions for two of the three channels: node 2,
which has no row in the position matrix. -/
theorem calculate_node_positions_witness :
    examplePositionedSettings.m_dataList = exampleTrial 1 :: [exampleTrial 2] ∧
    2 < (exampleTrial 1).matData.rows ∧
    (createNodes examplePositionedSettings.m_matNodePositions (exampleTrial 1).matData.rows
      ⟨"Debiased Squared Weighted Phase Lag Index", [], []⟩).nodes[2]? =
      some ⟨2, nodeVert examplePositionedSettings.m_matNodePositions 2, []⟩ ∧
    (nodeVert examplePositionedSettings.m_matNodePositions 2).size = 3 ∧
    (∀ c, c < 3 → (nodeVert examplePositionedSettings.m_matNodePositions 2).coeff c =
      if 2 < examplePositionedSettings.m_matNodePositions.rows then
        examplePositionedSettings.m_matNodePositions.coeff 2 c else 0) ∧
    ∀ net cs1, calculate exampleExternals examplePositionedSettings = some (net, cs1) →
      ∃ n, net.nodes[2]? = some n ∧ n.iId = 2 ∧
        n.vecVert = nodeVert examplePositionedSettings.m_matNodePositions 2 :=
  ⟨rfl, by decide,
    calculate_node_positions exampleExternals examplePositionedSettings (exampleTrial 1)
      [exampleTrial 2] rfl 2 (by decide)⟩

end Claims15

end Connectivity

namespace Connectivity

section Claims16

variable {K : Type} [LinearOrderedField K]

/-- C16 (as amended): for a trial without a spectra cache whose pair cache does not already
hold `iNRows` entries, `compute` leaves one tapered-spectrum matrix per channel, each with
one row per taper and `iNFreqs` columns, and row `j` of the matrix of channel `i` is the
taper weight `w_j` times the transform of length `iNfft` of the product of taper row `j`
with channel row `i` minus its mean. -/
theorem compute_tap_spectra (ext : Externals K) (iNRows iNFreqs : Nat) (iNfft : Int)
    (tapers : MatrixX K × VectorX K)
    (t : ConnectivityTrialData K) (acc : List (Nat × MatrixX (Cplx K)))
    (hnocache : t.vecTapSpectra = []) (hnotfull : t.vecPairCsd.length ≠ iNRows)
    (hrows : iNRows ≤ t.matData.rows) (hacc : acc.length ≤ iNRows) :
    ∃ t1 acc1, compute ext t acc iNRows iNFreqs iNfft tapers = some (t1, acc1) ∧
      t1.vecTapSpectra.length = iNRows ∧
      ∀ i, i < iNRows → ∃ m, t1.vecTapSpectra[i]? = some m ∧
        m.rows = tapers.1.rows ∧ m.cols = iNFreqs ∧
        ∀ j c, j < tapers.1.rows →
          m.coeff j c =
            ((ext.fwd (((t.matData.row i).subScalar (t.matData.row i).mean).cwiseProduct
              (tapers.1.row j)) iNfft).coeff c).scale (tapers.2.coeff j) := by
  obtain ⟨S, l, acc1, hc, hS, -, hnew, -, -⟩ := compute_notfull ext t acc iNRows iNFreqs
    iNfft tapers hnotfull (Or.inr hrows) (by omega)
  refine ⟨_, acc1, hc, hS, ?_⟩
  intro i hi
  have hne : t.vecTapSpectra.length ≠ iNRows := by
    rw [hnocache]; simp; omega
  obtain ⟨S', hS', hspec⟩ := computeTapSpectra_spec ext iNRows iNFreqs iNfft tapers
    t.matData hrows
  rw [hnew hne] at hS'
  injection hS' with hS'
  subst hS'
  obtain ⟨m, hm, h1, h2, h3⟩ := hspec.2 i hi
  exact ⟨m, hm, h1, h2, fun j c hj => h3 j c hj⟩

/-- C16 (as stated, refuted): the example trial that has no spectra cache but a pair cache
of 3 entries is returned as it is for 3 channels, without any spectrum. -/
theorem compute_tap_spectra_counter :
    exampleFullTrial.vecTapSpectra = [] ∧ 3 ≤ exampleFullTrial.matData.rows ∧
    ∃ t1 acc1, compute exampleExternals exampleFullTrial [] 3 3 4
        (exampleExternals.generateTapers 4 "rectangular") = some (t1, acc1) ∧
      t1.vecTapSpectra.length = 0 ∧ t1.vecTapSpectra.length ≠ 3 :=
  ⟨rfl, Nat.le_refl 3, exampleFullTrial, [], rfl, rfl, by decide⟩

/-- C16 (as amended) at the first example trial. -/
theorem compute_tap_spectra_witness :
    (exampleTrial 1).vecTapSpectra = [] ∧ (exampleTrial 1).vecPairCsd.length ≠ 3 ∧
    3 ≤ (exampleTrial 1).matData.rows ∧ ([] : List (Nat × MatrixX (Cplx ℚ))).length ≤ 3 ∧
    ∃ t1 acc1, compute exampleExternals (exampleTrial 1) [] 3 3 4
        (exampleExternals.generateTapers 4 "rectangular") = some (t1, acc1) ∧
      t1.vecTapSpectra.length = 3 ∧
      ∀ i, i < 3 → ∃ m, t1.vecTapSpectra[i]? = some m ∧
        m.rows = (exampleExternals.generateTapers 4 "rectangular").1.rows ∧ m.cols = 3 ∧
        ∀ j c, j < (exampleExternals.generateTapers 4 "rectangular").1.rows →
          m.coeff j c =
            ((exampleExternals.fwd ((((exampleTrial 1).matData.row i).subScalar
              ((exampleTrial 1).matData.row i).mean).cwiseProduct
              ((exampleExternals.generateTapers 4 "rectangular").1.row j)) 4).coeff c).scale
              ((exampleExternals.generateTapers 4 "rectangular").2.coeff j) :=
  ⟨rfl, by decide, Nat.le_refl 3, Nat.zero_le 3,
    compute_tap_spectra exampleExternals 3 3 4
      (exampleExternals.generateTapers 4 "rectangular") (exampleTrial 1) [] rfl (by decide)
      (Nat.le_refl 3) (Nat.zero_le 3)⟩

/-- C17 (as amended): if the spectra cache of a trial holds exactly `iNRows` matrices and
the pair cache is not already full, `compute` keeps the spectra cache as it is and derives
the appended cross-spectral densities from it; if the size of the spectra cache differs from
`iNRows` and the pair cache is not already full, the spectra cache is replaced by the
`iNRows` matrices that the spectra loop computes. -/
theorem compute_spectra_cache (ext : Externals K) (iNRows iNFreqs : Nat) (iNfft : Int)
    (tapers : MatrixX K × VectorX K)
    (t : ConnectivityTrialData K) (acc : List (Nat × MatrixX (Cplx K)))
    (hcached : t.vecTapSpectra.length = iNRows) (hnotfull : t.vecPairCsd.length ≠ iNRows)
    (hacc : acc.length ≤ iNRows)
    (u : ConnectivityTrialData K) (acc' : List (Nat × MatrixX (Cplx K)))
    (hstale : u.vecTapSpectra.length ≠ iNRows) (hnotfull' : u.vecPairCsd.length ≠ iNRows)
    (hrows : iNRows ≤ u.matData.rows) (hacc' : acc'.length ≤ iNRows) :
    (∃ l acc1, compute ext t acc iNRows iNFreqs iNfft tapers =
        some ({ t with vecPairCsd := t.vecPairCsd ++ l }, acc1) ∧
      IsTrialCsd t.vecTapSpectra (decide (Int.tmod iNfft 2 = 0))
        (denomCSD ext.sqrt tapers.2) iNRows iNFreqs iNRows l) ∧
    ∃ S l acc1, compute ext u acc' iNRows iNFreqs iNfft tapers =
        some ({ u with vecTapSpectra := S, vecPairCsd := u.vecPairCsd ++ l }, acc1) ∧
      computeTapSpectra ext iNRows iNFreqs iNfft tapers u.matData = some S ∧
      S.length = iNRows := by
  constructor
  · obtain ⟨S, l, acc1, hc, -, hkeep, -, hl, -⟩ := compute_notfull ext t acc iNRows iNFreqs
      iNfft tapers hnotfull (Or.inl hcached) (by omega)
    have hS := hkeep hcached
    subst hS
    exact ⟨l, acc1, hc, hl⟩
  · obtain ⟨S, l, acc1, hc, hS, -, hnew, -, -⟩ := compute_notfull ext u acc' iNRows iNFreqs
      iNfft tapers hnotfull' (Or.inr hrows) (by omega)
    exact ⟨S, l, acc1, hc, hnew hstale, hS⟩

/-- C17 (as stated, refuted): the example trial whose spectra cache holds 1 matrix and
whose pair cache holds 3 entries is returned as it is for 3 channels: the spectra cache is
not replaced by 3 matrices. -/
theorem compute_spectra_cache_counter :
    exampleStaleTrial.vecTapSpectra.length ≠ 3 ∧ 3 ≤ exampleStaleTrial.matData.rows ∧
    ∃ t1 acc1, compute exampleExternals exampleStaleTrial [] 3 3 4
        (exampleExternals.generateTapers 4 "rectangular") = some (t1, acc1) ∧
      t1.vecTapSpectra.length = 1 ∧ t1.vecTapSpectra.length ≠ 3 :=
  ⟨by decide, Nat.le_refl 3, exampleStaleTrial, [], rfl, rfl, by decide⟩

/-- C17 (as amended) for 1 channel: the cached example trial keeps its spectra, and the
second example trial, which has none, gets the computed spectrum. -/
theorem compute_spectra_cache_witness :
    exampleCachedTrial.vecTapSpectra.length = 1 ∧ exampleCachedTrial.vecPairCsd.length ≠ 1 ∧
    ([] : List (Nat × MatrixX (Cplx ℚ))).length ≤ 1 ∧
    (exampleTrial 2).vecTapSpectra.length ≠ 1 ∧ (exampleTrial 2).vecPairCsd.length ≠ 1 ∧
    1 ≤ (exampleTrial 2).matData.rows ∧ ([] : List (Nat × MatrixX (Cplx ℚ))).length ≤ 1 ∧
    (∃ l acc1, compute exampleExternals exampleCachedTrial [] 1 1 1 exampleUnitTapers =
        some ({ exampleCachedTrial with vecPairCsd := exampleCachedTrial.vecPairCsd ++ l },
          acc1) ∧
      IsTrialCsd exampleCachedTrial.vecTapSpectra (decide (Int.tmod 1 2 = 0))
        (denomCSD exampleExternals.sqrt exampleUnitTapers.2) 1 1 1 l) ∧
    ∃ S l acc1, compute exampleExternals (exampleTrial 2) [] 1 1 1 exampleUnitTapers =
        some ({ exampleTrial 2 with
          vecTapSpectra := S, vecPairCsd := (exampleTrial 2).vecPairCsd ++ l }, acc1) ∧
      computeTapSpectra exampleExternals 1 1 1 exampleUnitTapers (exampleTrial 2).matData =
        some S ∧
      S.length = 1 :=
  ⟨rfl, by decide, Nat.zero_le 1, by decide, by decide, by decide, Nat.zero_le 1,
    compute_spectra_cache exampleExternals 1 1 1 exampleUnitTapers exampleCachedTrial [] rfl
      (by decide) (Nat.zero_le 1) (exampleTrial 2) [] (by decide) (by decide) (by decide)
      (Nat.zero_le 1)⟩

end Claims16

end Connectivity

namespace Connectivity

section Claims18

variable {K : Type} [LinearOrderedField K]

/-- C18: start from an empty shared sum and run `compute` with a fixed channel count
`iNRows` on trials with empty pair caches, first on the trials `ts` and then on `t`.  Before
the step on `t` the sum is empty or its keys are `0, ..., iNRows - 1` in order; after it
the keys are `0, ..., iNRows - 1` in order; the sum never gets shorter; and if it was not
empty the step only adds, entry by entry, the trial's cross-spectral density to it. -/
theorem accumulator_shape_invariant (ext : Externals K) (iNRows iNFreqs : Nat) (iNfft : Int)
    (tapers : MatrixX K × VectorX K)
    (ts : List (ConnectivityTrialData K)) (t : ConnectivityTrialData K)
    (hfresh : ∀ u ∈ ts ++ [t], u.vecPairCsd = [])
    (hrows : ∀ u ∈ ts ++ [t], u.matData.rows = iNRows) :
    ∃ ts1 acc t1 acc1,
      mapCompute ext iNRows iNFreqs iNfft tapers ts [] = some (ts1, acc) ∧
      compute ext t acc iNRows iNFreqs iNfft tapers = some (t1, acc1) ∧
      (acc = [] ∨ acc.map Prod.fst = List.range iNRows) ∧
      acc1.map Prod.fst = List.range iNRows ∧
      acc.length ≤ acc1.length ∧
      (acc ≠ [] → acc1.length = acc.length ∧
        acc1 = List.zipWith (fun q p => (q.1, q.2.add p.2)) acc t1.vecPairCsd) := by
  have hts : ∀ u ∈ ts, u.vecPairCsd = [] ∧
      (u.vecTapSpectra.length = iNRows ∨ iNRows ≤ u.matData.rows) :=
    fun u hu => ⟨hfresh u (List.mem_append_left _ hu),
      Or.inr (Nat.le_of_eq (hrows u (List.mem_append_left _ hu)).symm)⟩
  have ht : t ∈ ts ++ [t] := List.mem_append_right _ (List.mem_singleton_self t)
  obtain ⟨acc, hmap, hnil, hshape, -⟩ := mapCompute_sum ext iNRows iNFreqs iNfft tapers ts hts
  have hacc : acc = [] ∨ HasShape iNRows iNFreqs acc := by
    by_cases h : ts = []
    · exact Or.inl (hnil h)
    · exact Or.inr (hshape h)
  obtain ⟨-, hpairs, -, -, hcomp⟩ := compute_fresh ext t iNRows iNFreqs iNfft tapers
    (hfresh t ht) (Or.inr (Nat.le_of_eq (hrows t ht).symm))
  obtain ⟨acc1, h1, hm1⟩ := hcomp acc (length_le_of_shape hacc)
  obtain ⟨acc1', hm1', hs1⟩ := mergeCsd_shape hacc hpairs
  rw [hm1] at hm1'
  injection hm1' with hm1'
  subst hm1'
  refine ⟨_, acc, _, acc1, hmap, h1, ?_, hs1.keys, ?_, ?_⟩
  · rcases hacc with h | h
    · exact Or.inl h
    · exact Or.inr h.keys
  · rw [hs1.1]
    exact length_le_of_shape hacc
  · intro hne
    have hs : HasShape iNRows iNFreqs acc := hacc.resolve_left hne
    refine ⟨by rw [hs1.1, hs.1], ?_⟩
    have hle : acc.length ≤
        (trialAfter ext iNRows iNFreqs iNfft tapers t).vecPairCsd.length := by
      rw [hs.1, hpairs.1]
    have hz := mergeCsd_nonempty acc
      (trialAfter ext iNRows iNFreqs iNfft tapers t).vecPairCsd hne hle
    rw [hm1] at hz
    injection hz

/-- C18 at the two example trials, run one after the other. -/
theorem accumulator_shape_invariant_witness :
    (∀ u ∈ [exampleTrial 1] ++ [exampleTrial 2], u.vecPairCsd = []) ∧
    (∀ u ∈ [exampleTrial 1] ++ [exampleTrial 2], u.matData.rows = 3) ∧
    ∃ ts1 acc t1 acc1,
      mapCompute exampleExternals 3 3 4 (exampleExternals.generateTapers 4 "rectangular")
        [exampleTrial 1] [] = some (ts1, acc) ∧
      compute exampleExternals (exampleTrial 2) acc 3 3 4
        (exampleExternals.generateTapers 4 "rectangular") = some (t1, acc1) ∧
      (acc = [] ∨ acc.map Prod.fst = List.range 3) ∧
      acc1.map Prod.fst = List.range 3 ∧
      acc.length ≤ acc1.length ∧
      (acc ≠ [] → acc1.length = acc.length ∧
        acc1 = List.zipWith (fun q p => (q.1, q.2.add p.2)) acc t1.vecPairCsd) :=
  have h1 : ∀ u ∈ [exampleTrial 1] ++ [exampleTrial 2], u.vecPairCsd = [] := by
    simp [exampleTrial]
  have h2 : ∀ u ∈ [exampleTrial 1] ++ [exampleTrial 2], u.matData.rows = 3 := by
    simp [exampleTrial]
  ⟨h1, h2, accumulator_shape_invariant exampleExternals 3 3 4
    (exampleExternals.generateTapers 4 "rectangular") [exampleTrial 1] (exampleTrial 2) h1 h2⟩

/-- C19: `compute` returns the trial with its data matrix `matData` as it was, for every
trial, shared sum and parameters; and `calculate`, which runs `compute` on every trial and
then `computeDSWPLV` (which only reads the settings), returns the trial list with every
data matrix as it was. -/
theorem matData_unchanged (ext : Externals K) (iNRows iNFreqs : Nat) (iNfft : Int)
    (tapers : MatrixX K × VectorX K)
    (t t1 : ConnectivityTrialData K) (acc acc1 : List (Nat × MatrixX (Cplx K)))
    (hcompute : compute ext t acc iNRows iNFreqs iNfft tapers = some (t1, acc1))
    (cs cs1 : ConnectivitySettings K) (net : Network K)
    (hcalc : calculate ext cs = some (net, cs1)) :
    t1.matData = t.matData ∧
    cs1.m_dataList.map (fun u => u.matData) = cs.m_dataList.map (fun u => u.matData) := by
  refine ⟨compute_matData ext t acc iNRows iNFreqs iNfft tapers (t1, acc1) hcompute, ?_⟩
  cases hl : cs.m_dataList with
  | nil =>
    simp only [calculate, hl] at hcalc
    injection hcalc with hcalc
    injection hcalc with _ h2
    subst h2
    rw [hl]
  | cons first rest =>
    obtain ⟨dataList, vecSum, hm, hcs1, -⟩ := calculate_some ext cs first rest hl net cs1 hcalc
    subst hcs1
    have := mapCompute_matData ext _ _ _ _ _ _ (dataList, vecSum) hm
    rw [hl] at this
    exact this

/-- C19 at the example trials: one step of `compute` and a whole run of `calculate`. -/
theorem matData_unchanged_witness :
    ∃ t1 acc1 net cs1,
      compute exampleExternals (exampleTrial 1) [] 3 3 4
        (exampleExternals.generateTapers 4 "rectangular") = some (t1, acc1) ∧
      calculate exampleExternals exampleSettings = some (net, cs1) ∧
      t1.matData = (exampleTrial 1).matData ∧
      cs1.m_dataList.map (fun u => u.matData) =
        exampleSettings.m_dataList.map (fun u => u.matData) := by
  obtain ⟨-, -, -, -, hcomp⟩ := compute_fresh exampleExternals (exampleTrial 1) 3 3 4
    (exampleExternals.generateTapers 4 "rectangular") rfl (Or.inr (Nat.le_refl 3))
  obtain ⟨acc1, h1, -⟩ := hcomp [] (Nat.zero_le 3)
  obtain ⟨acc2, net, h2, -⟩ := calculate_fresh exampleExternals exampleSettings
    (exampleTrial 1) [exampleTrial 2] 3 _ _ _ rfl rfl rfl rfl rfl
    (by simp [exampleSettings, exampleTrial]) rfl
  exact ⟨_, acc1, net, _, h1, h2,
    matData_unchanged exampleExternals 3 3 4
      (exampleExternals.generateTapers 4 "rectangular") (exampleTrial 1) _ [] acc1 h1
      exampleSettings _ net h2⟩

end Claims18

end Connectivity

/-! # The claims, concluded -/

namespace FtBuffer

/-- C21: the values of the wait command codes as the macros define them: `WAIT_DAT` is its
documented value 1026, but `WAIT_OK` is 1028 and `WAIT_ERR` is 1029, not the documented 1027
and 1028. -/
theorem wait_codes :
    WAIT_DAT = 1026 ∧ WAIT_OK = 1028 ∧ WAIT_ERR = 1029 ∧
    WAIT_DAT = documentedWaitDat ∧ WAIT_OK ≠ documentedWaitOk ∧
    WAIT_ERR ≠ documentedWaitErr := by
  decide

end FtBuffer


namespace Connectivity

section Claims22

variable {K : Type} [LinearOrderedField K]

theorem Cplx.add_mk (a b c d : ℚ) : (⟨a, b⟩ + ⟨c, d⟩ : Cplx ℚ) = ⟨a + c, b + d⟩ := rfl

theorem Cplx.mul_mk (a b c d : ℚ) :
    (⟨a, b⟩ * ⟨c, d⟩ : Cplx ℚ) = ⟨a * c - b * d, a * d + b * c⟩ := rfl

theorem Cplx.zero_mk : (0 : Cplx ℚ) = ⟨0, 0⟩ := rfl

/-- C23 (as amended): for every summed cross-spectral density with finite entries, at every
channel index and frequency bin where the square of the imaginary part does not overflow
the binary64 range, the denominator of `computeDSWPLV` before the substitution,
`|Im csd|^2 - (Im csd)^2`, is exactly zero, and the substitution puts positive infinity
there. -/
theorem denominator_zero (csd : MatrixX (Cplx K)) (r c : Nat)
    (h : (csd.coeff r c).im * (csd.coeff r c).im < Dbl.overflowBound) :
    (matDenomRaw csd).coeff r c =
      Dbl.sub
        (Dbl.mul (Dbl.abs (Dbl.fin (csd.coeff r c).im)) (Dbl.abs (Dbl.fin (csd.coeff r c).im)))
        (Dbl.mul (Dbl.fin (csd.coeff r c).im) (Dbl.fin (csd.coeff r c).im)) ∧
    (matDenomRaw csd).coeff r c = 0 ∧
    (matDenomSel csd).coeff r c = Dbl.pinf :=
  ⟨rfl, by rw [matDenomRaw_coeff, if_pos h], by rw [matDenomSel_coeff, if_pos h]⟩

/-- C23 (as amended) at the one-entry summed density `1 + 2i`. -/
theorem denominator_zero_witness :
    (exampleCsd.coeff 0 0).im * (exampleCsd.coeff 0 0).im < Dbl.overflowBound ∧
    (matDenomRaw exampleCsd).coeff 0 0 =
      Dbl.sub
        (Dbl.mul (Dbl.abs (Dbl.fin (exampleCsd.coeff 0 0).im))
          (Dbl.abs (Dbl.fin (exampleCsd.coeff 0 0).im)))
        (Dbl.mul (Dbl.fin (exampleCsd.coeff 0 0).im) (Dbl.fin (exampleCsd.coeff 0 0).im)) ∧
    (matDenomRaw exampleCsd).coeff 0 0 = 0 ∧
    (matDenomSel exampleCsd).coeff 0 0 = Dbl.pinf :=
  have h : (exampleCsd.coeff 0 0).im * (exampleCsd.coeff 0 0).im < Dbl.overflowBound := by
    norm_num [exampleCsd, Dbl.overflowBound]
  ⟨h, denominator_zero exampleCsd 0 0 h⟩

/-- C23 (as stated, refuted): for the one-entry summed density `1 + 2^600 i` both squares
overflow to positive infinity, the denominator before the substitution is NaN and not zero,
and the substitution, which compares with zero, leaves the NaN in place. -/
theorem denominator_zero_counter :
    (exampleHugeCsd.coeff 0 0).im = 2 ^ 600 ∧
    Dbl.mul (Dbl.abs (Dbl.fin (exampleHugeCsd.coeff 0 0).im))
      (Dbl.abs (Dbl.fin (exampleHugeCsd.coeff 0 0).im)) = Dbl.pinf ∧
    (matDenomRaw exampleHugeCsd).coeff 0 0 = Dbl.nan ∧
    (matDenomRaw exampleHugeCsd).coeff 0 0 ≠ 0 ∧
    (matDenomSel exampleHugeCsd).coeff 0 0 = Dbl.nan ∧
    (matDenomSel exampleHugeCsd).coeff 0 0 ≠ Dbl.pinf := by
  have hov : ¬ (exampleHugeCsd.coeff 0 0).im * (exampleHugeCsd.coeff 0 0).im <
      Dbl.overflowBound := by
    norm_num [exampleHugeCsd, Dbl.overflowBound]
  have hn : (matDenomRaw exampleHugeCsd).coeff 0 0 = Dbl.nan := by
    rw [matDenomRaw_coeff, if_neg hov]
  have hs : (matDenomSel exampleHugeCsd).coeff 0 0 = Dbl.nan := by
    rw [matDenomSel_coeff, if_neg hov]
  refine ⟨rfl, ?_, hn, ?_, hs, ?_⟩
  · rw [Dbl.abs_mul_self, Dbl.mul_self, if_neg hov]
  · rw [hn]
    exact Dbl.nan_ne_zero
  · rw [hs]
    intro h
    cases h

end Claims22

end Connectivity

namespace Connectivity

section Incident

variable {K : Type} [LinearOrderedField K]

/-! ## The incident-edge list of a node -/

theorem touch_map (k : Nat) (e : NetworkEdge K) :
    (touch k e).map (fun e => (e.iStartNodeID, e.iEndNodeID)) =
      touchPair k (e.iStartNodeID, e.iEndNodeID) := by
  by_cases h1 : e.iStartNodeID = k <;> by_cases h2 : e.iEndNodeID = k <;>
    simp [touch, touchPair, h1, h2]

theorem incident_map (k : Nat) (es : List (NetworkEdge K)) :
    (incident k es).map (fun e => (e.iStartNodeID, e.iEndNodeID)) =
      (es.map (fun e => (e.iStartNodeID, e.iEndNodeID))).flatMap (touchPair k) := by
  induction es with
  | nil => rfl
  | cons e es ih =>
    simp only [incident, List.flatMap_cons, List.map_append, List.map_cons] at ih ⊢
    rw [ih, touch_map]

theorem touchPair_row_none (k i : Nat) (hik : i ≠ k) (l : List Nat) (hl : ∀ j ∈ l, j ≠ k) :
    (l.map (fun j => (i, j))).flatMap (touchPair k) = [] := by
  rw [List.flatMap_eq_nil_iff]
  intro p hp
  obtain ⟨j, hj, rfl⟩ := List.mem_map.mp hp
  simp [touchPair, hik, hl j hj]

theorem touchPair_row_self (k : Nat) (l : List Nat) (hl : ∀ j ∈ l, j ≠ k) :
    (l.map (fun j => (k, j))).flatMap (touchPair k) = l.map (fun j => (k, j)) := by
  induction l with
  | nil => rfl
  | cons j l ih =>
    have hj : j ≠ k := hl j (List.mem_cons_self _ _)
    simp only [List.map_cons, List.flatMap_cons]
    rw [ih (fun j' hj' => hl j' (List.mem_cons_of_mem _ hj'))]
    simp [touchPair, hj]

/-- Row `i` of the channel pairs, split at column `k`. -/
theorem range'_split (i k C : Nat) (hik : i ≤ k) (hk : k < C) :
    List.range' i (C - i) = List.range' i (k - i) ++ k :: List.range' (k + 1) (C - (k + 1)) := by
  have e1 : C - i = (C - k) + (k - i) := by omega
  have e2 : C - k = (C - (k + 1)) + 1 := by omega
  have e3 : i + (k - i) = k := by omega
  rw [e1, ← List.range'_append_1, e3, e2]
  rfl

theorem touchPair_row_before (C k i : Nat) (hik : i < k) (hk : k < C) :
    ((List.range' i (C - i)).map (fun j => (i, j))).flatMap (touchPair k) = [(i, k)] := by
  rw [range'_split i k C (by omega) hk, List.map_append, List.flatMap_append,
    List.map_cons, List.flatMap_cons]
  rw [touchPair_row_none k i (by omega) _ (by
      intro j hj
      have := List.mem_range'_1.mp hj
      omega),
    touchPair_row_none k i (by omega) _ (by
      intro j hj
      have := List.mem_range'_1.mp hj
      omega)]
  have : i ≠ k := by omega
  simp [touchPair, this]

theorem touchPair_row_at (C k : Nat) (hk : k < C) :
    ((List.range' k (C - k)).map (fun j => (k, j))).flatMap (touchPair k) =
      (k, k) :: (k, k) :: (List.range' (k + 1) (C - (k + 1))).map (fun j => (k, j)) := by
  rw [range'_split k k C (Nat.le_refl k) hk]
  simp only [Nat.sub_self, List.range'_zero, List.nil_append, List.map_cons,
    List.flatMap_cons]
  rw [touchPair_row_self k _ (by
      intro j hj
      have := List.mem_range'_1.mp hj
      omega)]
  simp [touchPair]

theorem touchPair_row_after (C k i : Nat) (hik : k < i) :
    ((List.range' i (C - i)).map (fun j => (i, j))).flatMap (touchPair k) = [] :=
  touchPair_row_none k i (by omega) _ (by
    intro j hj
    have := List.mem_range'_1.mp hj
    omega)

theorem flatMap_congr_mem {α β : Type} (l : List α) (f g : α → List β)
    (h : ∀ a ∈ l, f a = g a) : l.flatMap f = l.flatMap g := by
  induction l with
  | nil => rfl
  | cons a l ih =>
    simp only [List.flatMap_cons]
    rw [h a (List.mem_cons_self _ _), ih (fun b hb => h b (List.mem_cons_of_mem _ hb))]

/-- The references registered on node `k` by the edges of all channel pairs. -/
theorem channelPairs_touch (C k : Nat) (hk : k < C) :
    (channelPairs C).flatMap (touchPair k) = incidentPairs C k := by
  unfold channelPairs incidentPairs
  rw [List.flatMap_assoc]
  have hsplit : List.range C = List.range k ++ k :: List.range' (k + 1) (C - (k + 1)) := by
    have := range'_split 0 k C (Nat.zero_le k) hk
    simpa [List.range_eq_range'] using this
  rw [hsplit, List.flatMap_append, List.flatMap_cons]
  rw [flatMap_congr_mem (List.range k) _ (fun i => [(i, k)]) (by
      intro i hi
      exact touchPair_row_before C k i (List.mem_range.mp hi) hk),
    touchPair_row_at C k hk,
    flatMap_congr_mem (List.range' (k + 1) (C - (k + 1))) _ (fun _ => []) (by
      intro i hi
      have := List.mem_range'_1.mp hi
      exact touchPair_row_after C k i (by omega))]
  simp [List.map_eq_flatMap]

theorem incidentPairs_length (C k : Nat) (hk : k < C) : (incidentPairs C k).length = C + 1 := by
  simp [incidentPairs]
  omega

end Incident

end Connectivity

namespace Connectivity

section Claims24

variable {K : Type} [LinearOrderedField K]

/-! ## A second run -/

/-- The pass over trials whose pair caches are full changes nothing. -/
theorem mapCompute_full (ext : Externals K) (C F : Nat) (iNfft : Int)
    (tapers : MatrixX K × VectorX K) :
    ∀ (ts : List (ConnectivityTrialData K)) (acc : List (Nat × MatrixX (Cplx K))),
      (∀ t ∈ ts, t.vecPairCsd.length = C) →
      mapCompute ext C F iNfft tapers ts acc = some (ts, acc) := by
  intro ts
  induction ts with
  | nil => intro acc _; rfl
  | cons t ts ih =>
    intro acc h
    have ht : compute ext t acc C F iNfft tapers = some (t, acc) := by
      simp [compute, h t (List.mem_cons_self _ _)]
    simp only [mapCompute, ht, ih acc (fun u hu => h u (List.mem_cons_of_mem _ hu))]

theorem computeDSWPLV_congr (a b : ConnectivitySettings K) (net : Network K)
    (h1 : a.m_dataList = b.m_dataList) (h2 : a.data = b.data) :
    computeDSWPLV a net = computeDSWPLV b net := by
  simp only [computeDSWPLV, h1, h2]

/-- A run of `calculate` on the settings that a successful run returned, with every pair
cache full and with any transform length and window type, returns the same network and
leaves the settings, in particular the shared sum, as they are. -/
theorem calculate_again (ext : Externals K) (cs cs1 : ConnectivitySettings K)
    (net : Network K) (hcalc : calculate ext cs = some (net, cs1))
    (hfull : ∀ first ∈ cs1.m_dataList.head?, ∀ t ∈ cs1.m_dataList,
      t.vecPairCsd.length = first.matData.rows)
    (iNfft : Int) (sWindowType : String) :
    calculate ext { cs1 with m_iNfft := iNfft, m_sWindowType := sWindowType } =
      some (net, { cs1 with m_iNfft := iNfft, m_sWindowType := sWindowType }) := by
  cases hl : cs.m_dataList with
  | nil =>
    simp only [calculate, hl] at hcalc
    injection hcalc with hcalc
    injection hcalc with h1 h2
    subst h1 h2
    simp [calculate, hl]
  | cons first rest =>
    obtain ⟨dataList, vecSum, hm, hcs1, hnet⟩ := calculate_some ext cs first rest hl net cs1 hcalc
    have hmat := mapCompute_matData ext _ _ _ _ _ _ (dataList, vecSum) hm
    rw [hl] at hmat
    subst hcs1
    cases dataList with
    | nil => simp at hmat
    | cons first1 rest1 =>
      have hrows : first1.matData = first.matData := by
        simp only [List.map_cons, List.cons.injEq] at hmat
        exact hmat.1
      have hfull' : ∀ t ∈ first1 :: rest1, t.vecPairCsd.length = first1.matData.rows := by
        intro t ht
        exact hfull first1 rfl t ht
      have hmap := mapCompute_full ext first1.matData.rows
        (numFreqs (effectiveNfft iNfft first1.matData.cols)).toNat
        (effectiveNfft iNfft first1.matData.cols)
        (ext.generateTapers first1.matData.cols sWindowType) (first1 :: rest1) vecSum hfull'
      have hnet' : computeDSWPLV
          ({ m_dataList := first1 :: rest1, m_matNodePositions := cs.m_matNodePositions,
             m_sWindowType := sWindowType, m_iNfft := iNfft,
             data := ⟨vecSum⟩ } : ConnectivitySettings K)
          (createNodes cs.m_matNodePositions first1.matData.rows
            ⟨"Debiased Squared Weighted Phase Lag Index", [], []⟩) = some net := by
        refine (computeDSWPLV_congr _ _ _ rfl rfl).trans ?_
        rw [hrows]
        exact hnet
      simp only [calculate, hmap, hnet']

/-- After a run on a non-empty batch of trials with empty pair caches every pair cache
holds as many entries as the first trial has channels. -/
theorem calculate_fresh_full (ext : Externals K) (cs : ConnectivitySettings K)
    (first : ConnectivityTrialData K) (rest : List (ConnectivityTrialData K))
    (hlist : cs.m_dataList = first :: rest)
    (hrows : ∀ t ∈ cs.m_dataList, t.matData.rows = first.matData.rows)
    (hfresh : ∀ t ∈ cs.m_dataList, t.vecPairCsd = [])
    (hsum : cs.data.vecPairCsdSum = []) :
    ∃ net cs1, calculate ext cs = some (net, cs1) ∧
      ∀ first1 ∈ cs1.m_dataList.head?, ∀ t ∈ cs1.m_dataList,
        t.vecPairCsd.length = first1.matData.rows := by
  have hts : ∀ t ∈ cs.m_dataList, t.vecPairCsd = [] ∧
      (t.vecTapSpectra.length = first.matData.rows ∨ first.matData.rows ≤ t.matData.rows) :=
    fun t ht => ⟨hfresh t ht, Or.inr (Nat.le_of_eq (hrows t ht).symm)⟩
  obtain ⟨acc1, net1, hcalc, -, -, -, -⟩ := calculate_fresh ext cs first rest
    first.matData.rows _ _ _ hlist rfl rfl rfl rfl hts hsum
  refine ⟨net1, _, hcalc, ?_⟩
  intro first1 hfirst1 t ht
  simp only [hlist, List.map_cons, List.head?_cons, Option.mem_def, Option.some.injEq]
    at hfirst1
  subst hfirst1
  obtain ⟨u, hu, rfl⟩ := List.mem_map.mp ht
  have h1 := compute_fresh ext u first.matData.rows
    (numFreqs (effectiveNfft cs.m_iNfft first.matData.cols)).toNat
    (effectiveNfft cs.m_iNfft first.matData.cols)
    (ext.generateTapers first.matData.cols cs.m_sWindowType) (hts u hu).1 (hts u hu).2
  have h2 := compute_fresh ext first first.matData.rows
    (numFreqs (effectiveNfft cs.m_iNfft first.matData.cols)).toNat
    (effectiveNfft cs.m_iNfft first.matData.cols)
    (ext.generateTapers first.matData.cols cs.m_sWindowType)
    (hts first (by rw [hlist]; exact List.mem_cons_self _ _)).1
    (hts first (by rw [hlist]; exact List.mem_cons_self _ _)).2
  rw [h1.2.1.1, h2.1]

/-- C24: after `calculate` has run on a non-empty batch of trials with empty pair caches
(shared sum empty on entry), a second run on the returned settings, with the configured
transform length and the window type set to any values, returns a network equal to the
first one and returns the settings as they were: the shared sum and the caches are
unchanged, so no trial is added to the sum twice. -/
theorem calculate_second_run (ext : Externals K) (cs : ConnectivitySettings K)
    (first : ConnectivityTrialData K) (rest : List (ConnectivityTrialData K))
    (hlist : cs.m_dataList = first :: rest)
    (hrows : ∀ t ∈ cs.m_dataList, t.matData.rows = first.matData.rows)
    (hfresh : ∀ t ∈ cs.m_dataList, t.vecPairCsd = [])
    (hsum : cs.data.vecPairCsdSum = []) :
    ∃ net cs1, calculate ext cs = some (net, cs1) ∧
      ∀ (iNfft : Int) (sWindowType : String),
        calculate ext { cs1 with m_iNfft := iNfft, m_sWindowType := sWindowType } =
          some (net, { cs1 with m_iNfft := iNfft, m_sWindowType := sWindowType }) := by
  obtain ⟨net, cs1, hcalc, hfull⟩ := calculate_fresh_full ext cs first rest hlist hrows
    hfresh hsum
  exact ⟨net, cs1, hcalc, fun n w => calculate_again ext cs cs1 net hcalc hfull n w⟩

/-- C24 at the two example trials. -/
theorem calculate_second_run_witness :
    exampleSettings.m_dataList = exampleTrial 1 :: [exampleTrial 2] ∧
    (∀ t ∈ exampleSettings.m_dataList, t.matData.rows = (exampleTrial 1).matData.rows) ∧
    (∀ t ∈ exampleSettings.m_dataList, t.vecPairCsd = []) ∧
    exampleSettings.data.vecPairCsdSum = [] ∧
    ∃ net cs1, calculate exampleExternals exampleSettings = some (net, cs1) ∧
      ∀ (iNfft : Int) (sWindowType : String),
        calculate exampleExternals
            { cs1 with m_iNfft := iNfft, m_sWindowType := sWindowType } =
          some (net, { cs1 with m_iNfft := iNfft, m_sWindowType := sWindowType }) :=
  have h1 : ∀ t ∈ exampleSettings.m_dataList,
      t.matData.rows = (exampleTrial 1).matData.rows := by
    simp [exampleSettings, exampleTrial]
  have h2 : ∀ t ∈ exampleSettings.m_dataList, t.vecPairCsd = [] := by
    simp [exampleSettings, exampleTrial]
  ⟨rfl, h1, h2, rfl,
    calculate_second_run exampleExternals exampleSettings (exampleTrial 1)
      [exampleTrial 2] rfl h1 h2 rfl⟩

end Claims24

end Connectivity

namespace Connectivity

section Claims25

variable {K : Type} [LinearOrderedField K]

theorem HasShape.rows_of_mem {C F : Nat} {l : List (Nat × MatrixX (Cplx K))}
    (h : HasShape C F l) (p : Nat × MatrixX (Cplx K)) (hp : p ∈ l) : p.2.rows = C := by
  obtain ⟨k, hk⟩ := List.getElem?_of_mem hp
  exact (h.2 k p hk).2.1

/-- C25: for a non-empty batch in which every trial has the `C` rows of the first trial and
empty caches, with the shared sum empty on entry, `calculate` runs to the end without an
access fault (every checked access of `calculate`, `compute` and `computeDSWPLV` is in
range), and the bounds behind this hold: every trial has at least `C` rows, every spectra
cache holds at least `C` matrices, no pair cache is shorter than the shared sum, the shared
sum holds `C` entries whose matrices have `C` rows, and the network has `C` nodes. -/
theorem calculate_accesses_in_range (ext : Externals K) (cs : ConnectivitySettings K)
    (first : ConnectivityTrialData K) (rest : List (ConnectivityTrialData K))
    (hlist : cs.m_dataList = first :: rest)
    (hrows : ∀ t ∈ cs.m_dataList, t.matData.rows = first.matData.rows)
    (hcols : ∀ t ∈ cs.m_dataList, t.matData.cols = first.matData.cols)
    (hfresh : ∀ t ∈ cs.m_dataList, t.vecTapSpectra = [] ∧ t.vecPairCsd = [])
    (hsum : cs.data.vecPairCsdSum = []) :
    ∃ net cs1, calculate ext cs = some (net, cs1) ∧
      (∀ t ∈ cs.m_dataList, ∀ i, i < first.matData.rows → i < t.matData.rows ∧
        t.matData.cols = first.matData.cols) ∧
      (∀ t1 ∈ cs1.m_dataList, ∀ i, i < first.matData.rows →
        i < t1.vecTapSpectra.length ∧ i < t1.vecPairCsd.length) ∧
      (∀ t1 ∈ cs1.m_dataList, cs1.data.vecPairCsdSum.length ≤ t1.vecPairCsd.length) ∧
      (∀ i, i < first.matData.rows → i < cs1.data.vecPairCsdSum.length) ∧
      (∀ p ∈ cs1.data.vecPairCsdSum, ∀ j, j < first.matData.rows → j < p.2.rows) ∧
      (∀ i, i < first.matData.rows → i < net.nodes.length) := by
  have hts : ∀ t ∈ cs.m_dataList, t.vecPairCsd = [] ∧
      (t.vecTapSpectra.length = first.matData.rows ∨ first.matData.rows ≤ t.matData.rows) :=
    fun t ht => ⟨(hfresh t ht).2, Or.inr (Nat.le_of_eq (hrows t ht).symm)⟩
  obtain ⟨acc1, net1, hcalc, hshape, -, hnodes, -⟩ := calculate_fresh ext cs first rest
    first.matData.rows _ _ _ hlist rfl rfl rfl rfl hts hsum
  have htrial : ∀ t1 ∈ cs.m_dataList.map (trialAfter ext first.matData.rows
      (numFreqs (effectiveNfft cs.m_iNfft first.matData.cols)).toNat
      (effectiveNfft cs.m_iNfft first.matData.cols)
      (ext.generateTapers first.matData.cols cs.m_sWindowType)),
      (0 < first.matData.rows → t1.vecTapSpectra.length = first.matData.rows) ∧
      t1.vecPairCsd.length = first.matData.rows := by
    intro t1 ht1
    obtain ⟨u, hu, rfl⟩ := List.mem_map.mp ht1
    have h := compute_fresh ext u first.matData.rows
      (numFreqs (effectiveNfft cs.m_iNfft first.matData.cols)).toNat
      (effectiveNfft cs.m_iNfft first.matData.cols)
      (ext.generateTapers first.matData.cols cs.m_sWindowType) (hts u hu).1 (hts u hu).2
    exact ⟨h.2.2.1, h.2.1.1⟩
  refine ⟨net1, _, hcalc, ?_, ?_, ?_, ?_, ?_, ?_⟩
  · intro t ht i hi
    exact ⟨by rw [hrows t ht]; exact hi, hcols t ht⟩
  · intro t1 ht1 i hi
    obtain ⟨h1, h2⟩ := htrial t1 ht1
    exact ⟨by rw [h1 (by omega)]; exact hi, by rw [h2]; exact hi⟩
  · intro t1 ht1
    show acc1.length ≤ _
    rw [(htrial t1 ht1).2, hshape.1]
  · intro i hi
    show i < acc1.length
    rw [hshape.1]
    exact hi
  · intro p hp j hj
    rw [hshape.rows_of_mem p hp]
    exact hj
  · intro i hi
    rw [hnodes]
    exact hi

/-- C25 at the two example trials. -/
theorem calculate_accesses_in_range_witness :
    exampleSettings.m_dataList = exampleTrial 1 :: [exampleTrial 2] ∧
    (∀ t ∈ exampleSettings.m_dataList, t.matData.rows = (exampleTrial 1).matData.rows) ∧
    (∀ t ∈ exampleSettings.m_dataList, t.matData.cols = (exampleTrial 1).matData.cols) ∧
    (∀ t ∈ exampleSettings.m_dataList, t.vecTapSpectra = [] ∧ t.vecPairCsd = []) ∧
    exampleSettings.data.vecPairCsdSum = [] ∧
    ∃ net cs1, calculate exampleExternals exampleSettings = some (net, cs1) ∧
      (∀ t ∈ exampleSettings.m_dataList, ∀ i, i < (exampleTrial 1).matData.rows →
        i < t.matData.rows ∧ t.matData.cols = (exampleTrial 1).matData.cols) ∧
      (∀ t1 ∈ cs1.m_dataList, ∀ i, i < (exampleTrial 1).matData.rows →
        i < t1.vecTapSpectra.length ∧ i < t1.vecPairCsd.length) ∧
      (∀ t1 ∈ cs1.m_dataList, cs1.data.vecPairCsdSum.length ≤ t1.vecPairCsd.length) ∧
      (∀ i, i < (exampleTrial 1).matData.rows → i < cs1.data.vecPairCsdSum.length) ∧
      (∀ p ∈ cs1.data.vecPairCsdSum, ∀ j, j < (exampleTrial 1).matData.rows →
        j < p.2.rows) ∧
      (∀ i, i < (exampleTrial 1).matData.rows → i < net.nodes.length) :=
  have h1 : ∀ t ∈ exampleSettings.m_dataList,
      t.matData.rows = (exampleTrial 1).matData.rows := by
    simp [exampleSettings, exampleTrial]
  have h2 : ∀ t ∈ exampleSettings.m_dataList,
      t.matData.cols = (exampleTrial 1).matData.cols := by
    simp [exampleSettings, exampleTrial]
  have h3 : ∀ t ∈ exampleSettings.m_dataList, t.vecTapSpectra = [] ∧ t.vecPairCsd = [] := by
    simp [exampleSettings, exampleTrial]
  ⟨rfl, h1, h2, h3, rfl,
    calculate_accesses_in_range exampleExternals exampleSettings (exampleTrial 1)
      [exampleTrial 2] rfl h1 h2 h3 rfl⟩

/-- C26: in the network that `computeDSWPLV` builds for `C` channels from nodes without
incident edges, node `k` ends up with exactly `C + 1` incident-edge references: in order,
the edges `(i, k)` with `i < k`, the self-loop `(k, k)` twice, and the edges `(k, j)` with
`k < j < C`. -/
theorem node_incident_references (cs : ConnectivitySettings K)
    (first : ConnectivityTrialData K) (F : Nat)
    (hfirst : cs.m_dataList.head? = some first)
    (hacc : HasShape first.matData.rows F cs.data.vecPairCsdSum)
    (net : Network K) (hn : net.nodes.length = first.matData.rows)
    (hempty : ∀ n ∈ net.nodes, n.edges = []) (k : Nat) (hk : k < first.matData.rows) :
    ∃ net1 n, computeDSWPLV cs net = some net1 ∧ net1.nodes[k]? = some n ∧
      n.edges.length = first.matData.rows + 1 ∧
      n.edges.map (fun e => (e.iStartNodeID, e.iEndNodeID)) =
        (List.range k).map (fun i => (i, k)) ++ [(k, k), (k, k)] ++
          (List.range' (k + 1) (first.matData.rows - (k + 1))).map (fun j => (k, j)) := by
  obtain ⟨net1, h1, hext⟩ := computeDSWPLV_extends cs first F hfirst hacc net hn
  have hk' : k < net.nodes.length := by rw [hn]; exact hk
  have hnode := hext.2.2 k
  rw [List.getElem?_eq_getElem hk'] at hnode
  have he : net.nodes[k].edges = [] := hempty _ (List.getElem_mem hk')
  have hmap : (addEdges net.nodes[k]
      (incident k (networkEdges cs.data.vecPairCsdSum first.matData.rows))).edges.map
        (fun e => (e.iStartNodeID, e.iEndNodeID)) = incidentPairs first.matData.rows k := by
    simp only [addEdges, he, List.nil_append]
    rw [incident_map, networkEdges_endpoints, channelPairs_touch _ k hk]
  refine ⟨net1, _, h1, hnode, ?_, hmap⟩
  have := congrArg List.length hmap
  rw [List.length_map, incidentPairs_length _ k hk] at this
  exact this

/-- C26 at a shared sum for 2 channels: node 0 holds (0,0), (0,0), (0,1). -/
theorem node_incident_references_witness :
    exampleSumSettings.m_dataList.head? = some ⟨⟨2, 4, fun _ _ => 1⟩, [], []⟩ ∧
    HasShape 2 3 exampleSumSettings.data.vecPairCsdSum ∧
    exampleNetwork.nodes.length = 2 ∧ (∀ n ∈ exampleNetwork.nodes, n.edges = []) ∧
    0 < 2 ∧
    ∃ net1 n, computeDSWPLV exampleSumSettings exampleNetwork = some net1 ∧
      net1.nodes[0]? = some n ∧ n.edges.length = 2 + 1 ∧
      n.edges.map (fun e => (e.iStartNodeID, e.iEndNodeID)) = [(0, 0), (0, 0), (0, 1)] :=
  have h : ∀ n ∈ exampleNetwork.nodes, n.edges = [] := by
    simp [exampleNetwork]
  ⟨rfl, exampleSum_shape, rfl, h, by decide,
    node_incident_references exampleSumSettings ⟨⟨2, 4, fun _ _ => 1⟩, [], []⟩ 3 rfl
      exampleSum_shape exampleNetwork rfl h 0 (by decide)⟩

end Claims25

end Connectivity

namespace Connectivity

section Claims27

variable {K : Type} [LinearOrderedField K]

/-- C27: if on entry the pair cache of a trial holds a number of entries other than
`iNRows`, `compute` appends to it without clearing: afterwards the cache holds the old
entries, unchanged, followed by `iNRows` new ones, so a cache that was not empty is still
not of size `iNRows`; and what is added to a non-empty shared sum at a position below the
old size is the old entry of the cache. -/
theorem compute_appends (ext : Externals K) (iNRows iNFreqs : Nat) (iNfft : Int)
    (tapers : MatrixX K × VectorX K)
    (t : ConnectivityTrialData K) (acc : List (Nat × MatrixX (Cplx K)))
    (hk : t.vecPairCsd.length ≠ iNRows)
    (hrows : t.vecTapSpectra.length = iNRows ∨ iNRows ≤ t.matData.rows)
    (hacc : acc.length ≤ t.vecPairCsd.length + iNRows) :
    ∃ t1 acc1 l, compute ext t acc iNRows iNFreqs iNfft tapers = some (t1, acc1) ∧
      t1.vecPairCsd = t.vecPairCsd ++ l ∧ l.length = iNRows ∧
      t1.vecPairCsd.length = t.vecPairCsd.length + iNRows ∧
      (∀ (j : Nat) (p : Nat × MatrixX (Cplx K)),
        t.vecPairCsd[j]? = some p → t1.vecPairCsd[j]? = some p) ∧
      (0 < t.vecPairCsd.length → t1.vecPairCsd.length ≠ iNRows) ∧
      (acc ≠ [] → ∀ (j : Nat) (q p : Nat × MatrixX (Cplx K)),
        acc[j]? = some q → t.vecPairCsd[j]? = some p →
        acc1[j]? = some (q.1, q.2.add p.2)) := by
  obtain ⟨S, l, acc1, hc, -, -, -, hl, hmerge⟩ := compute_notfull ext t acc iNRows iNFreqs
    iNfft tapers hk hrows hacc
  have hold : ∀ (j : Nat) (p : Nat × MatrixX (Cplx K)),
      t.vecPairCsd[j]? = some p → (t.vecPairCsd ++ l)[j]? = some p := by
    intro j p hp
    have hj := (List.getElem?_eq_some_iff.mp hp).1
    rw [List.getElem?_append_left hj]
    exact hp
  refine ⟨_, acc1, l, hc, rfl, hl.1, by simp [hl.1], hold, ?_, ?_⟩
  · intro h0
    show (t.vecPairCsd ++ l).length ≠ iNRows
    rw [List.length_append, hl.1]
    omega
  · intro hne j q p hq hp
    have hz := mergeCsd_nonempty acc (t.vecPairCsd ++ l) hne
      (by rw [List.length_append, hl.1]; exact hacc)
    rw [hmerge] at hz
    injection hz with hz
    rw [hz]
    exact zipWith_addPair_getElem? acc _ j q p hq (hold j p hp)

/-- C27 at the example trial with one stale pair entry, for 3 channels, merged into a
shared sum of one entry. -/
theorem compute_appends_witness :
    examplePartialTrial.vecPairCsd.length ≠ 3 ∧
    (examplePartialTrial.vecTapSpectra.length = 3 ∨ 3 ≤ examplePartialTrial.matData.rows) ∧
    [((0 : Nat), (MatrixX.uninit 3 3 : MatrixX (Cplx ℚ)))].length ≤
      examplePartialTrial.vecPairCsd.length + 3 ∧
    ∃ t1 acc1 l, compute exampleExternals examplePartialTrial [(0, MatrixX.uninit 3 3)] 3 3 4
        (exampleExternals.generateTapers 4 "rectangular") = some (t1, acc1) ∧
      t1.vecPairCsd = examplePartialTrial.vecPairCsd ++ l ∧ l.length = 3 ∧
      t1.vecPairCsd.length = examplePartialTrial.vecPairCsd.length + 3 ∧
      (∀ (j : Nat) (p : Nat × MatrixX (Cplx ℚ)),
        examplePartialTrial.vecPairCsd[j]? = some p → t1.vecPairCsd[j]? = some p) ∧
      (0 < examplePartialTrial.vecPairCsd.length → t1.vecPairCsd.length ≠ 3) ∧
      (([((0 : Nat), (MatrixX.uninit 3 3 : MatrixX (Cplx ℚ)))] : List _) ≠ [] →
        ∀ (j : Nat) (q p : Nat × MatrixX (Cplx ℚ)),
          [((0 : Nat), (MatrixX.uninit 3 3 : MatrixX (Cplx ℚ)))][j]? = some q →
          examplePartialTrial.vecPairCsd[j]? = some p →
          acc1[j]? = some (q.1, q.2.add p.2)) :=
  ⟨by decide, Or.inr (Nat.le_refl 3), by decide,
    compute_appends exampleExternals 3 3 4 (exampleExternals.generateTapers 4 "rectangular")
      examplePartialTrial [(0, MatrixX.uninit 3 3)] (by decide) (Or.inr (Nat.le_refl 3))
      (by decide)⟩

/-! ## Auto-spectra -/

theorem sumTo_self_conj (a : MatrixX (Cplx K)) (c : Nat) (n : Nat) :
    (sumTo n (fun k => a.coeff k c * (a.coeff k c).conj)).im = 0 ∧
    0 ≤ (sumTo n (fun k => a.coeff k c * (a.coeff k c).conj)).re := by
  induction n with
  | zero => exact ⟨rfl, le_refl _⟩
  | succ n ih =>
    obtain ⟨h1, h2⟩ := ih
    simp only [sumTo]
    constructor
    · rw [Cplx.add_im, h1]
      show 0 + ((a.coeff n c).re * -(a.coeff n c).im + (a.coeff n c).im * (a.coeff n c).re) = 0
      ring
    · rw [Cplx.add_re]
      have : 0 ≤ (a.coeff n c).re * (a.coeff n c).re - (a.coeff n c).im * -(a.coeff n c).im := by
        have e : (a.coeff n c).re * (a.coeff n c).re - (a.coeff n c).im * -(a.coeff n c).im =
            (a.coeff n c).re * (a.coeff n c).re + (a.coeff n c).im * (a.coeff n c).im := by
          ring
        rw [e]
        exact add_nonneg (mul_self_nonneg _) (mul_self_nonneg _)
      exact add_nonneg h2 this

theorem divReal_real_nonneg (z : Cplx K) (d : K) (hd : 0 ≤ d) (him : z.im = 0)
    (hre : 0 ≤ z.re) : (z.divReal d).im = 0 ∧ 0 ≤ (z.divReal d).re := by
  simp only [Cplx.divReal, him, zero_div]
  exact ⟨trivial, div_nonneg hre hd⟩

/-- The value that the pair loop leaves in an auto-spectrum row is real and not negative,
for every positive normalisation. -/
theorem csdEntry_self (even : Bool) (d : K) (hd : 0 < d) (F : Nat) (a : MatrixX (Cplx K))
    (c : Nat) : (csdEntry even d F a a c).im = 0 ∧ 0 ≤ (csdEntry even d F a a c).re := by
  have h0 := sumTo_self_conj a c a.rows
  have h1 : ((csdRow d a a).coeff c).im = 0 ∧ 0 ≤ ((csdRow d a a).coeff c).re :=
    divReal_real_nonneg _ d hd.le h0.1 h0.2
  have h2 := divReal_real_nonneg _ 2 (by norm_num) h1.1 h1.2
  have h3 : (if c = 0 then ((csdRow d a a).coeff c).divReal 2
      else (csdRow d a a).coeff c).im = 0 ∧
      0 ≤ (if c = 0 then ((csdRow d a a).coeff c).divReal 2
        else (csdRow d a a).coeff c).re := by
    split
    · exact h2
    · exact h1
  simp only [csdEntry]
  split
  · exact divReal_real_nonneg _ 2 (by norm_num) h3.1 h3.2
  · exact h3

theorem denomCSD_nonneg (sqrt : K → K) (w : VectorX K) : 0 ≤ denomCSD sqrt w := by
  unfold denomCSD
  exact div_nonneg (mul_self_nonneg _) (by norm_num)

/-- For a divisor other than zero the exact quotient stands for the IEEE quotient: the row
of line 245 as IEEE 754 delivers it holds the doubles of the parts of the exact row. -/
theorem csdRowIeee_of_ne (d : K) (hd : d ≠ 0) (a b : MatrixX (Cplx K)) (c : Nat) :
    (csdRowIeee d a b).coeff c =
      ⟨Dbl.ofExact ((csdRow d a b).coeff c).re, Dbl.ofExact ((csdRow d a b).coeff c).im⟩ := by
  simp only [csdRowIeee, csdRow, VectorX.divReal, Cplx.divRealIeee, Cplx.divReal, Dbl.div,
    if_neg hd]

/-- C28 (as amended): in the pair loops of `compute`, run on `iNRows` spectra with any
positive normalisation, row `i` of the `i`-th entry (the auto-spectrum of channel `i`) has
zero imaginary part and a real part that is not negative at every frequency bin; so has row
`i` of the `i`-th pair entry that `compute` leaves for a trial with an empty pair cache when
its normalisation `denomCSD` is positive (over exact complex arithmetic). -/
theorem auto_spectrum_real (ext : Externals K) (iNRows iNFreqs : Nat) (iNfft : Int)
    (tapers : MatrixX K × VectorX K)
    (S : List (MatrixX (Cplx K))) (bNfftEven : Bool) (dDenomCSD : K)
    (hS : S.length = iNRows) (hd : 0 < dDenomCSD)
    (hden : 0 < denomCSD ext.sqrt tapers.2)
    (t : ConnectivityTrialData K) (acc : List (Nat × MatrixX (Cplx K)))
    (hfresh : t.vecPairCsd = []) (hrows : iNRows ≤ t.matData.rows)
    (hacc : acc.length ≤ iNRows) (i : Nat) (hi : i < iNRows) :
    (∃ l m, computeCsd S bNfftEven dDenomCSD iNRows iNFreqs [] = some l ∧
      l[i]? = some (i, m) ∧ ∀ f, (m.coeff i f).im = 0 ∧ 0 ≤ (m.coeff i f).re) ∧
    ∃ t1 acc1 m, compute ext t acc iNRows iNFreqs iNfft tapers = some (t1, acc1) ∧
      t1.vecPairCsd[i]? = some (i, m) ∧ ∀ f, (m.coeff i f).im = 0 ∧ 0 ≤ (m.coeff i f).re := by
  constructor
  · obtain ⟨l, hl, hcsd⟩ := computeCsd_spec S bNfftEven dDenomCSD iNRows iNFreqs hS []
    obtain ⟨m, hm, -, -, hdone⟩ := hcsd.2 i hi
    have hi' : i < S.length := by omega
    refine ⟨l, m, by simpa using hl, hm, ?_⟩
    intro f
    rw [hdone i f _ _ (Nat.le_refl i) hi (List.getElem?_eq_getElem hi')
      (List.getElem?_eq_getElem hi')]
    exact csdEntry_self _ _ hd _ _ _
  · obtain ⟨-, -, hlen, hcsd, hcomp⟩ :=
      compute_fresh ext t iNRows iNFreqs iNfft tapers hfresh (Or.inr hrows)
    obtain ⟨acc1, h1, -⟩ := hcomp acc hacc
    have hi' : i < (trialAfter ext iNRows iNFreqs iNfft tapers t).vecTapSpectra.length := by
      rw [hlen (by omega)]; exact hi
    obtain ⟨m, hm, -, -, hdone⟩ := hcsd.2 i hi
    refine ⟨_, acc1, m, h1, hm, ?_⟩
    intro f
    rw [hdone i f _ _ (Nat.le_refl i) hi (List.getElem?_eq_getElem hi')
      (List.getElem?_eq_getElem hi')]
    exact csdEntry_self _ _ hden _ _ _

/-- C28 (as amended) at the first example trial, channel 1, with the trial's own spectra and
the normalisation 1 for the pair loops. -/
theorem auto_spectrum_real_witness :
    ([MatrixX.uninit 1 3, MatrixX.uninit 1 3, MatrixX.uninit 1 3] :
      List (MatrixX (Cplx ℚ))).length = 3 ∧ (0 : ℚ) < 1 ∧
    0 < denomCSD exampleExternals.sqrt (exampleExternals.generateTapers 4 "rectangular").2 ∧
    (exampleTrial 1).vecPairCsd = [] ∧ 3 ≤ (exampleTrial 1).matData.rows ∧
    ([] : List (Nat × MatrixX (Cplx ℚ))).length ≤ 3 ∧ 1 < 3 ∧
    (∃ l m, computeCsd [MatrixX.uninit 1 3, MatrixX.uninit 1 3, MatrixX.uninit 1 3] true
        (1 : ℚ) 3 3 [] = some l ∧
      l[1]? = some (1, m) ∧ ∀ f, (m.coeff 1 f).im = 0 ∧ 0 ≤ (m.coeff 1 f).re) ∧
    ∃ t1 acc1 m, compute exampleExternals (exampleTrial 1) [] 3 3 4
        (exampleExternals.generateTapers 4 "rectangular") = some (t1, acc1) ∧
      t1.vecPairCsd[1]? = some (1, m) ∧ ∀ f, (m.coeff 1 f).im = 0 ∧ 0 ≤ (m.coeff 1 f).re :=
  have hden : 0 < denomCSD exampleExternals.sqrt
      (exampleExternals.generateTapers 4 "rectangular").2 := by
    simp only [denomCSD, VectorX.sum, VectorX.cwiseAbs2, exampleExternals, sumTo]
    norm_num
  ⟨rfl, by norm_num, hden, rfl, Nat.le_refl 3, Nat.zero_le 3, by decide,
    auto_spectrum_real exampleExternals 3 3 4
      (exampleExternals.generateTapers 4 "rectangular")
      [MatrixX.uninit 1 3, MatrixX.uninit 1 3, MatrixX.uninit 1 3] true 1 rfl (by norm_num)
      hden (exampleTrial 1) [] rfl (Nat.le_refl 3) (Nat.zero_le 3) 1 (by decide)⟩

/-- C28 (as stated, refuted): the normalisation 0 is not negative, and it is the value of
`denomCSD` for a single taper of weight 0; with it the auto-spectrum row of line 245 for the
one-entry spectrum `2`, whose taper sum is `4 + 0i`, is `4 / 0 = +inf` in its real part and
`0 / 0 = NaN` in its imaginary part, which is not zero. -/
theorem auto_spectrum_real_counter :
    (0 : ℚ) ≤ 0 ∧
    denomCSD exampleExternals.sqrt ⟨1, fun _ => 0⟩ = 0 ∧
    ((MatrixX.cwiseProduct (⟨1, 1, fun _ _ => ⟨2, 0⟩⟩ : MatrixX (Cplx ℚ))
      (MatrixX.conjugate ⟨1, 1, fun _ _ => ⟨2, 0⟩⟩)).colwiseSum).coeff 0 = ⟨4, 0⟩ ∧
    (csdRowIeee (0 : ℚ) ⟨1, 1, fun _ _ => ⟨2, 0⟩⟩ ⟨1, 1, fun _ _ => ⟨2, 0⟩⟩).coeff 0 =
      ⟨Dbl.pinf, Dbl.nan⟩ ∧
    ((csdRowIeee (0 : ℚ) ⟨1, 1, fun _ _ => ⟨2, 0⟩⟩ ⟨1, 1, fun _ _ => ⟨2, 0⟩⟩).coeff 0).im ≠
      0 := by
  have hsum : ((MatrixX.cwiseProduct (⟨1, 1, fun _ _ => ⟨2, 0⟩⟩ : MatrixX (Cplx ℚ))
      (MatrixX.conjugate ⟨1, 1, fun _ _ => ⟨2, 0⟩⟩)).colwiseSum).coeff 0 = ⟨4, 0⟩ := by
    simp only [MatrixX.colwiseSum, MatrixX.cwiseProduct, MatrixX.conjugate, sumTo, Cplx.conj,
      Cplx.zero_mk, Cplx.mul_mk, Cplx.add_mk]
    norm_num
  have hrow : (csdRowIeee (0 : ℚ) ⟨1, 1, fun _ _ => ⟨2, 0⟩⟩ ⟨1, 1, fun _ _ => ⟨2, 0⟩⟩).coeff 0 =
      ⟨Dbl.pinf, Dbl.nan⟩ := by
    show Cplx.divRealIeee _ 0 = _
    rw [hsum]
    simp [Cplx.divRealIeee, Dbl.div]
  refine ⟨le_refl 0, ?_, hsum, hrow, ?_⟩
  · simp only [denomCSD, VectorX.sum, VectorX.cwiseAbs2, exampleExternals, sumTo]
    norm_num
  · rw [hrow]
    exact Dbl.nan_ne_zero

end Claims27

end Connectivity

namespace PluginManager

theorem findByNameFrom_spec (name : String) :
    ∀ (ps : List IPlugin) (i : Int),
      (findByNameFrom name ps i = -1 ∧ 0 ≤ i → ∀ p ∈ ps, p.getName ≠ name) ∧
      ((∀ p ∈ ps, p.getName ≠ name) → findByNameFrom name ps i = -1) ∧
      ((∃ p ∈ ps, p.getName = name) →
        ∃ n : Nat, findByNameFrom name ps i = i + n ∧
          ∃ h : n < ps.length, ps[n].getName = name ∧
            ∀ m (hm : m < n), (ps[m]).getName ≠ name) := by
  intro ps
  induction ps with
  | nil =>
    intro i
    simp [findByNameFrom]
  | cons p rest ih =>
    intro i
    obtain ⟨ih1, ih2, ih3⟩ := ih (i + 1)
    by_cases hp : p.getName = name
    · refine ⟨?_, ?_, ?_⟩
      · rintro ⟨h, h0⟩
        simp only [findByNameFrom, hp, if_true] at h
        omega
      · intro h
        exact absurd hp (h p (List.mem_cons_self _ _))
      · intro _
        refine ⟨0, by simp [findByNameFrom, hp], by simp, by simpa using hp, ?_⟩
        intro m hm
        omega
    · refine ⟨?_, ?_, ?_⟩
      · rintro ⟨h, h0⟩
        simp only [findByNameFrom, hp, if_false] at h
        intro q hq
        rcases List.mem_cons.mp hq with rfl | hq
        · exact hp
        · exact ih1 ⟨h, by omega⟩ q hq
      · intro h
        simp only [findByNameFrom, hp, if_false]
        exact ih2 (fun q hq => h q (List.mem_cons_of_mem _ hq))
      · rintro ⟨q, hq, hqn⟩
        have hq' : q ∈ rest := by
          rcases List.mem_cons.mp hq with rfl | hq
          · exact absurd hqn hp
          · exact hq
        obtain ⟨n, hn, hlt, hname, hmin⟩ := ih3 ⟨q, hq', hqn⟩
        refine ⟨n + 1, ?_, by simpa using hlt, by simpa using hname, ?_⟩
        · simp only [findByNameFrom, hp, if_false, hn]
          push_cast
          ring
        · intro m hm
          cases m with
          | zero => simpa using hp
          | succ m => simpa using hmin m (by omega)

theorem findByName_example :
    findByName examplePlugins "RtcMne" = 1 ∧ findByName examplePlugins "Dummy" = -1 := by
  decide

/-- C29: `findByName` returns the smallest index whose plugin has the given name, and
returns -1 exactly when no loaded plugin has that name; the result is -1 or a valid index
into the plugin vector. -/
theorem findByName_spec (ps : List IPlugin) (name : String) :
    (findByName ps name = -1 ↔ ∀ p ∈ ps, p.getName ≠ name) ∧
    (findByName ps name = -1 ∨
      ∃ n : Nat, findByName ps name = n ∧
        ∃ h : n < ps.length, ps[n].getName = name ∧
          ∀ m (hm : m < n), (ps[m]).getName ≠ name) ∧
    (findByName ps name = -1 ∨
      (0 ≤ findByName ps name ∧ findByName ps name < ps.length)) := by
  obtain ⟨h1, h2, h3⟩ := findByNameFrom_spec name ps 0
  have hcases : findByName ps name = -1 ∨
      ∃ n : Nat, findByName ps name = n ∧
        ∃ h : n < ps.length, ps[n].getName = name ∧
          ∀ m (hm : m < n), (ps[m]).getName ≠ name := by
    by_cases hex : ∃ p ∈ ps, p.getName = name
    · obtain ⟨n, hn, hlt, hname, hmin⟩ := h3 hex
      exact Or.inr ⟨n, by simpa [findByName] using hn, hlt, hname, hmin⟩
    · left
      exact h2 (fun p hp hpn => hex ⟨p, hp, hpn⟩)
  refine ⟨⟨fun h => h1 ⟨h, le_refl 0⟩, h2⟩, hcases, ?_⟩
  rcases hcases with h | ⟨n, hn, hlt, -, -⟩
  · exact Or.inl h
  · right
    rw [hn]
    exact ⟨by omega, by exact_mod_cast hlt⟩

end PluginManager
